import Mathlib

/-!
# Workshop operator: GitOps and user reconcilers

A shallow embedding of `controllers/gitops_reconciler.go` and
`controllers/user_reconciler.go`.

* Go strings are Lean strings, `fmt.Sprintf("%s%d", s, id)` is `s ++ toString id`.
* A Go `map[string]string` is an association list with unique keys (`mapSet`).
* The controller-runtime client, the install-plan approval, the deployment
  status query and the bcrypt primitive are an explicit interface `Client σ`
  over a store state `σ`.
* A function body is a state-passing computation `Act σ α` that either goes on
  with a value or returns early with a `(reconcile.Result, error)` pair, and
  that yields the list of the calls it issued, each with the answer it got.
* A `for { ... }` loop without a bound is granted a number of iterations; a
  function that holds one, or that reaches `log.Fatal`, yields a pair or a
  `Halt` (still running, or process ended).
-/

namespace WorkshopOperator

/-! ## Data model -/

/-- Go `map[string]string`, kept as an association list. -/
abbrev StrMap := List (String × String)

/-- Go `m[k] = v`: overwrite the entry of `k` when there is one, add it otherwise. -/
def mapSet : StrMap → String → String → StrMap
  | [], k, v => [(k, v)]
  | (k0, v0) :: rest, k, v => if k0 = k then (k, v) :: rest else (k0, v0) :: mapSet rest k v

/-- The errors the code tells apart: `errors.IsAlreadyExists`, `errors.IsNotFound`, anything else. -/
inductive Err
  | alreadyExists
  | notFound
  | other (msg : String)
deriving DecidableEq, Repr

/-- Go `reconcile.Result`; only `Requeue` is ever set by this code. -/
structure Result where
  requeue : Bool := false
deriving DecidableEq, Repr

/-- The kinds of record the two reconcilers read or write. -/
inductive Kind
  | subscription
  | ns
  | appProject
  | role
  | roleBinding
  | secret
  | configMap
  | argoCD
  | oauth
  | user
  | identity
  | userIdentityMapping
deriving DecidableEq, Repr

/-- Go `rbac.Subject`. -/
structure Subject where
  kind : String
  name : String
  apiGroup : String
deriving DecidableEq, Repr

/-- Go `configv1.IdentityProvider`, with the fields `PatchOauth` sets. -/
structure IdentityProvider where
  name : String
  mappingMethod : String
  providerType : String
  htpasswdFileData : Option String
deriving DecidableEq, Repr

/-- Value of `argocdv1.AppProjectSpec`. The type is declared outside this
repository and the code only compares two of them with `reflect.DeepEqual`. -/
structure AppProjectSpec where
  fields : List String
deriving DecidableEq, Repr

/-- A record of the store. One type for all kinds: the metadata, then the parts
the reconcilers read, compare or assign, each empty for the kinds that lack it. -/
structure Obj where
  kind : Kind
  name : String
  ns : String := ""
  labels : StrMap := []
  args : List String := []
  spec : AppProjectSpec := ⟨[]⟩
  subjects : List Subject := []
  stringData : StrMap := []
  data : StrMap := []
  policy : Option String := none
  identityProviders : List IdentityProvider := []
deriving DecidableEq, Repr

/-- The fields of `workshopv1.Workshop` the two reconcilers read; `userNameStem` is
`Spec.UserDetails.UserNamePrefix` and `numberOfUsers` is `Spec.UserDetails.NumberOfUsers`. -/
structure Workshop where
  gitOpsEnabled : Bool
  channel : String
  clusterServiceVersion : String
  password : String
  stagingName : String
  numberOfUsers : Int
  userNameStem : String
deriving DecidableEq, Repr

/-- Functions of this repository that the reconcilers call and that are not part
of the two files: the body of the AppProject constructor, `util.IsIntersectMap`
and `util.IsRequeued`. They are parameters of the embedding. -/
structure Deps where
  appProjectSpec : String → String → StrMap → String → AppProjectSpec
  isIntersectMap : StrMap → StrMap → Bool
  isRequeued : Result → Option Err → Bool

/-! ## Calls and their log -/

deriving instance DecidableEq for Except

/-- One call to the outside, with the answer it got. -/
inductive Event
  | create (o : Obj) (err : Option Err)
  | get (kind : Kind) (name : String) (ns : String) (res : Except Err Obj)
  | update (o : Obj) (err : Option Err)
  | patch (o : Obj) (err : Option Err)
  | approveInstallPlan (csv : String) (name : String) (ns : String) (err : Option Err)
  | deploymentStatus (name : String) (ns : String) (ready : Bool)
  | hash (password : String) (res : Except Err String)
  | delete (o : Obj) (err : Option Err)
  | generatePasswd (username : String)
  | readFile (path : String) (res : Except Err String)
  | removeFile (path : String) (err : Option Err)
deriving DecidableEq, Repr

/-- The outside world as the code sees it: the controller-runtime client
(`r.Create`, `r.Get`, `r.Update`, `r.Patch`), `r.ApproveInstallPlan`,
`GetK8Client().GetDeploymentStatus` and `bcrypt.GenerateFromPassword`. -/
structure Client (σ : Type) where
  create : Obj → σ → Option Err × σ
  get : Kind → String → String → σ → Except Err Obj × σ
  update : Obj → σ → Option Err × σ
  patch : Obj → σ → Option Err × σ
  approveInstallPlan : String → String → String → σ → Option Err × σ
  getDeploymentStatus : String → String → σ → Bool × σ
  generateFromPassword : String → σ → Except Err String × σ

/-- Either the function goes on with a value or it has executed a `return`. -/
inductive Flow (α : Type)
  | next (a : α)
  | ret (r : Result) (e : Option Err)
deriving DecidableEq, Repr

/-- What a piece of a function body leaves behind: how it ended, the store, and the calls it
issued, oldest first. -/
structure Outcome (σ α : Type) where
  out : Flow α
  st : σ
  log : List Event

/-- A piece of a function body, run from a store state. -/
def Act (σ α : Type) : Type := σ → Outcome σ α

/-- Go on with `a`. -/
def Act.pure {σ α : Type} (a : α) : Act σ α := fun s => ⟨Flow.next a, s, []⟩

/-- Sequencing: a `return` in the first part skips the second. -/
def Act.bind {σ α β : Type} (m : Act σ α) (f : α → Act σ β) : Act σ β := fun s =>
  match m s with
  | ⟨Flow.next a, s1, l1⟩ =>
    match f a s1 with
    | ⟨o, s2, l2⟩ => ⟨o, s2, l1 ++ l2⟩
  | ⟨Flow.ret r e, s1, l1⟩ => ⟨Flow.ret r e, s1, l1⟩

instance instMonadAct {σ : Type} : Monad (Act σ) where
  pure := Act.pure
  bind := Act.bind

/-- Go `return r, e`. -/
def ret {σ α : Type} (r : Result) (e : Option Err) : Act σ α := fun s => ⟨Flow.ret r e, s, []⟩

/-- What a whole function leaves behind: the pair it returned, the store, and the calls it issued. -/
structure Run (σ : Type) where
  result : Result × Option Err
  st : σ
  log : List Event

/-- A call of a function of this package from another one: the pair the callee returns, by a
`return` anywhere in its body, is a value for the caller. -/
def call {σ : Type} (m : Act σ (Result × Option Err)) : Act σ (Result × Option Err) := fun s =>
  match m s with
  | ⟨Flow.next a, s1, l⟩ => ⟨Flow.next a, s1, l⟩
  | ⟨Flow.ret r e, s1, l⟩ => ⟨Flow.next (r, e), s1, l⟩

/-- Run a whole function body whose last statement is a `return`. -/
def Act.run {σ : Type} (m : Act σ (Result × Option Err)) (s : σ) : Run σ :=
  match m s with
  | ⟨Flow.next a, s1, l⟩ => ⟨a, s1, l⟩
  | ⟨Flow.ret r e, s1, l⟩ => ⟨(r, e), s1, l⟩

/-- Call `r.Create`. -/
def create {σ : Type} (c : Client σ) (o : Obj) : Act σ (Option Err) := fun s =>
  match c.create o s with
  | (r, s1) => ⟨Flow.next r, s1, [Event.create o r]⟩

/-- Call `r.Get` for a record of kind `k`. -/
def get {σ : Type} (c : Client σ) (k : Kind) (name ns : String) : Act σ (Except Err Obj) := fun s =>
  match c.get k name ns s with
  | (r, s1) => ⟨Flow.next r, s1, [Event.get k name ns r]⟩

/-- Call `r.Update`. -/
def update {σ : Type} (c : Client σ) (o : Obj) : Act σ (Option Err) := fun s =>
  match c.update o s with
  | (r, s1) => ⟨Flow.next r, s1, [Event.update o r]⟩

/-- Call `r.Patch`. -/
def patch {σ : Type} (c : Client σ) (o : Obj) : Act σ (Option Err) := fun s =>
  match c.patch o s with
  | (r, s1) => ⟨Flow.next r, s1, [Event.patch o r]⟩

/-- Call `r.ApproveInstallPlan`. -/
def approveInstallPlan {σ : Type} (c : Client σ) (csv name ns : String) : Act σ (Option Err) := fun s =>
  match c.approveInstallPlan csv name ns s with
  | (r, s1) => ⟨Flow.next r, s1, [Event.approveInstallPlan csv name ns r]⟩

/-- Call `kubernetes.GetK8Client().GetDeploymentStatus`. -/
def getDeploymentStatus {σ : Type} (c : Client σ) (name ns : String) : Act σ Bool := fun s =>
  match c.getDeploymentStatus name ns s with
  | (r, s1) => ⟨Flow.next r, s1, [Event.deploymentStatus name ns r]⟩

/-- Call `bcrypt.GenerateFromPassword`. -/
def generateFromPassword {σ : Type} (c : Client σ) (password : String) : Act σ (Except Err String) := fun s =>
  match c.generateFromPassword password s with
  | (r, s1) => ⟨Flow.next r, s1, [Event.hash password r]⟩

/-! ## Record constructors

The constructors of packages `kubernetes` and `argocd` that the GitOps
reconciler calls are not in the files embedded here. The constructors of the
same package that are (`NewOperatorGroup`, `NewClusterRoleBinding`) copy name,
namespace and labels into `ObjectMeta` and the remaining arguments into the
body; the ones below do the same. -/

/-- Modelled from the spec: `kubernetes.NewRedHatSubscription`, the record of the control-plane installation. -/
def newRedHatSubscription (name ns pkg channel csv : String) : Obj :=
  { kind := Kind.subscription, name := name, ns := ns, args := [pkg, channel, csv] }

/-- Modelled from the spec: `kubernetes.NewNamespace`, the shared namespace record. -/
def newNamespace (name : String) : Obj :=
  { kind := Kind.ns, name := name }

/-- Modelled from the spec: `argocd.NewAppProjectCustomResource`, the tenant project record. -/
def newAppProjectCustomResource (d : Deps) (name ns : String) (labels : StrMap) (argocdPolicy : String) : Obj :=
  { kind := Kind.appProject, name := name, ns := ns, labels := labels,
    spec := d.appProjectSpec name ns labels argocdPolicy }

/-- Modelled from the spec: `kubernetes.NewRole` applied to `kubernetes.ArgoCDRules()`. -/
def newRole (name ns : String) (labels : StrMap) : Obj :=
  { kind := Kind.role, name := name, ns := ns, labels := labels }

/-- Modelled from the spec: `kubernetes.NewRoleBindingUsers`, the tenant subject binding. -/
def newRoleBindingUsers (name ns : String) (labels : StrMap) (subjects : List Subject)
    (roleName roleKind : String) : Obj :=
  { kind := Kind.roleBinding, name := name, ns := ns, labels := labels,
    subjects := subjects, args := [roleName, roleKind] }

/-- Modelled from the spec: `kubernetes.NewStringDataSecret`, a secret with a string-data map. -/
def newStringDataSecret (name ns : String) (labels : StrMap) (stringData : StrMap) : Obj :=
  { kind := Kind.secret, name := name, ns := ns, labels := labels, stringData := stringData }

/-- Modelled from the spec: `kubernetes.NewConfigMap`. -/
def newConfigMap (name ns : String) (labels : StrMap) (data : StrMap) : Obj :=
  { kind := Kind.configMap, name := name, ns := ns, labels := labels, data := data }

/-- Modelled from the spec: `argocd.NewArgoCDCustomResource`, the control-plane
custom resource carrying the policy text in `Spec.RBAC.Policy`. -/
def newArgoCDCustomResource (name ns : String) (labels : StrMap) (argocdPolicy : String) : Obj :=
  { kind := Kind.argoCD, name := name, ns := ns, labels := labels, policy := some argocdPolicy }

/-! ## `addGitOps` -/

/-- The statement `if err := r.Create(..); err != nil && !IsAlreadyExists(err) { return Result{}, err }`
with nothing but a log line in the other branches (subscription, namespace, role, `argocd-secret`). -/
def createOnly {σ : Type} (c : Client σ) (o : Obj) : Act σ Unit := do
  let err ← create c o
  match err with
  | none => pure ()
  | some e => if e ≠ Err.alreadyExists then ret {} (some e) else pure ()

/-- The create / get / compare / assign / update statement that `addGitOps` repeats for the
AppProject, the RoleBinding, the configmap, the ArgoCD resource and the cluster-config secret:
`equal found` is the comparison of that site and `assign found` its assignment. -/
def createOrUpdate {σ : Type} (c : Client σ) (o : Obj) (ns : String)
    (equal : Obj → Bool) (assign : Obj → Obj) : Act σ Unit := do
  let err ← create c o
  match err with
  | none => pure ()
  | some e =>
    if e ≠ Err.alreadyExists then ret {} (some e)
    else do
      let res ← get c o.kind o.name ns
      match res with
      | Except.error e1 => ret {} (some e1)
      | Except.ok found =>
        if !(equal found) then do
          let err2 ← update c (assign found)
          match err2 with
          | some e2 => ret {} (some e2)
          | none => pure ()
        else pure ()

/-- The variables the tenant loop carries from one iteration to the next. -/
structure Acc where
  argocdPolicy : String
  namespaceList : String
  secretData : StrMap
  configMapData : StrMap
  labels : StrMap
deriving DecidableEq, Repr

/-- The loop variables before the first iteration: `argocdPolicy := ""`, `namespaceList := ""`,
two empty maps, and the label map as it stands. -/
def accInit (labels : StrMap) : Acc :=
  { argocdPolicy := "", namespaceList := "", secretData := [], configMapData := [], labels := labels }

/-- The label map `addGitOps` starts with. -/
def baseLabels : StrMap := [("app.kubernetes.io/part-of", "argocd")]

/-- Go `fmt.Sprintf("user%d", id)`. -/
def username (id : Nat) : String := "user" ++ toString id

/-- Go `fmt.Sprintf("role:%s", username)`. -/
def userRole (id : Nat) : String := "role:" ++ username id

/-- Go `fmt.Sprintf("%s%d", workshop.Spec.Infrastructure.Project.StagingName, id)`. -/
def projectName (w : Workshop) (id : Nat) : String := w.stagingName ++ toString id

/-- The raw string `userPolicy` of the loop body, piece by piece as the source concatenates it:
five lines, each ended by a line feed. -/
def userPolicy (w : Workshop) (id : Nat) : String :=
  "p, " ++ userRole id ++ ", applications, *, " ++ projectName w id ++ "/*, allow\np, " ++
  userRole id ++ ", clusters, get, https://kubernetes.default.svc, allow\np, " ++
  userRole id ++ ", projects, *," ++ projectName w id ++ ", allow\np, " ++
  userRole id ++ ", repositories, *, http://gitea-server.gitea.svc:3000/" ++ username id ++ "/*, allow\ng, " ++
  username id ++ ", " ++ userRole id ++ "\n"

/-- The subject every tenant role binding gets. -/
def argocdSubject : Subject :=
  { kind := "User", name := "system:serviceaccount:argocd:argocd-argocd-application-controller",
    apiGroup := "rbac.authorization.k8s.io" }

/-- The assignments at the head of the loop body, up to `labels["app.kubernetes.io/name"] = "appproject-cr"`. -/
def accumulate (w : Workshop) (bcryptPassword : String) (id : Nat) (a : Acc) : Acc :=
  { argocdPolicy := a.argocdPolicy ++ userPolicy w id
    namespaceList := if id = 1 then projectName w id else a.namespaceList ++ "," ++ projectName w id
    secretData := mapSet a.secretData ("accounts." ++ username id ++ ".password") bcryptPassword
    configMapData := mapSet a.configMapData ("accounts." ++ username id) "login"
    labels := mapSet a.labels "app.kubernetes.io/name" "appproject-cr" }

/-- One iteration of `for id := 1; id <= users; id++`. -/
def tenantBody {σ : Type} (c : Client σ) (d : Deps) (w : Workshop) (namespaceName bcryptPassword : String)
    (id : Nat) (a0 : Acc) : Act σ Acc := do
  let a := accumulate w bcryptPassword id a0
  let appProjectCustomResource :=
    newAppProjectCustomResource d (projectName w id) namespaceName a.labels a.argocdPolicy
  createOrUpdate c appProjectCustomResource namespaceName
    (fun found => decide (appProjectCustomResource.spec = found.spec))
    (fun found => { found with spec := appProjectCustomResource.spec })
  let subjects := [] ++ [argocdSubject]
  let role := newRole "argocd-manager" (projectName w id) a.labels
  createOnly c role
  let roleBinding := newRoleBindingUsers "argocd-manager" (projectName w id) a.labels subjects role.name "Role"
  createOrUpdate c roleBinding (projectName w id)
    (fun found => decide (subjects = found.subjects))
    (fun found => { found with subjects := subjects })
  pure a

/-- The loop `for id := 1; id <= users; id++`, with `remaining = users - id + 1` iterations to go.
It is entered with `remaining = users.toNat`, so a negative count runs no iteration; the index is a
natural number, the wrap-around of a Go `int` after 2^63 iterations is left out. -/
def tenantLoop {σ : Type} (c : Client σ) (d : Deps) (w : Workshop) (namespaceName bcryptPassword : String) :
    Nat → Nat → Acc → Act σ Acc
  | 0, _, a => pure a
  | remaining + 1, id, a => do
    let a1 ← tenantBody c d w namespaceName bcryptPassword id a
    tenantLoop c d w namespaceName bcryptPassword remaining (id + 1) a1

/-- The string data of the secret `argocd-default-cluster-config`. -/
def clusterConfigSecretData (namespaceList : String) : StrMap :=
  mapSet (mapSet (mapSet (mapSet [] "config" "\x7b\"tlsClientConfig\":\x7b\"insecure\":false\x7d\x7d")
    "name" "in-cluster") "namespaces" namespaceList) "server" "https://kubernetes.default.svc"

/-- Go `manageArgocdDefaultClusterConfigSecret`. -/
def manageArgocdDefaultClusterConfigSecret {σ : Type} (c : Client σ) (d : Deps)
    (namespaceName : String) (labels : StrMap) (namespaceList : String) : Act σ (Result × Option Err) := do
  let secretName := "argocd-default-cluster-config"
  let data := clusterConfigSecretData namespaceList
  let clusterConfigSecret := newStringDataSecret secretName namespaceName labels data
  createOrUpdate c clusterConfigSecret namespaceName
    (fun found => d.isIntersectMap data found.stringData)
    (fun found => { found with stringData := data })
  pure ({}, none)

/-- The body of Go `addGitOps`. The arguments `appsHostnameSuffix` and `openshiftConsoleURL` are unused. -/
def addGitOpsBody {σ : Type} (c : Client σ) (d : Deps) (w : Workshop) (users : Int)
    (argocdNamespaceName : String) : Act σ (Result × Option Err) := do
  let name := "openshift-gitops-operator"
  let operatorNamespace := "openshift-operators"
  let channel := w.channel
  let clusterServiceVersion := w.clusterServiceVersion
  let labels : StrMap := baseLabels
  -- Create subscription
  let subscription := newRedHatSubscription name operatorNamespace name channel clusterServiceVersion
  createOnly c subscription
  -- Approve the installation
  let approveErr ← approveInstallPlan c clusterServiceVersion name operatorNamespace
  if approveErr ≠ none then ret { requeue := true } none else do
  -- Wait for Operator to be running
  let operatorReady ← getDeploymentStatus c "gitops-operator" operatorNamespace
  if !operatorReady then ret { requeue := true } none else do
  -- Create a Project
  let sharedNamespace := newNamespace argocdNamespaceName
  createOnly c sharedNamespace
  let hashed ← generateFromPassword c w.password
  match hashed with
  | Except.error e => ret {} (some e)
  | Except.ok bcryptPassword =>
    let a ← tenantLoop c d w sharedNamespace.name bcryptPassword users.toNat 1 (accInit labels)
    let labels := mapSet a.labels "app.kubernetes.io/name" "argocd-secret"
    let secret := newStringDataSecret "argocd-secret" sharedNamespace.name labels a.secretData
    createOnly c secret
    let labels := mapSet labels "app.kubernetes.io/name" "argocd-cm"
    let configmap := newConfigMap "argocd-cm" sharedNamespace.name labels a.configMapData
    createOrUpdate c configmap sharedNamespace.name
      (fun found => d.isIntersectMap a.configMapData found.data)
      (fun found => { found with data := a.configMapData })
    let labels := mapSet labels "app.kubernetes.io/name" "argocd-cr"
    let argoCDCustomResource := newArgoCDCustomResource "argocd" sharedNamespace.name labels a.argocdPolicy
    createOrUpdate c argoCDCustomResource sharedNamespace.name
      (fun found => decide (some a.argocdPolicy = found.policy))
      (fun found => { found with policy := some a.argocdPolicy })
    -- Wait for ArgoCD Server to be running
    let serverReady ← getDeploymentStatus c "argocd-server" sharedNamespace.name
    if !serverReady then ret { requeue := true } none else do
    let labels := mapSet labels "app.kubernetes.io/name" "argocd-default-cluster-config"
    let (result, err) ← call (manageArgocdDefaultClusterConfigSecret c d sharedNamespace.name labels a.namespaceList)
    if d.isRequeued result err then ret result err else
    pure ({}, none)

/-- Go `addGitOps`, run on a store state. -/
def addGitOps {σ : Type} (c : Client σ) (d : Deps) (w : Workshop) (users : Int)
    (argocdNamespaceName : String) (s : σ) : Run σ :=
  (addGitOpsBody c d w users argocdNamespaceName).run s

/-! ## `PatchOauth` -/

/-- The entry `PatchOauth` puts in front of the provider list. -/
def htpassProvider : IdentityProvider :=
  { name := "htpass-workshop-users", mappingMethod := "claim", providerType := "HTPasswd",
    htpasswdFileData := some "htpass-workshop-users" }

/-- The loop `for _, v := range oauthFound.Spec.IdentityProviders`: the first argument is what is
left of the list the `range` was started on (Go evaluates the range expression once), the second
the current value of `oauthFound`, which after a patch is the patched record. -/
def patchOauthLoop {σ : Type} (c : Client σ) : List IdentityProvider → Obj → Act σ Unit
  | [], _ => pure ()
  | v :: rest, oauthFound => do
    let oauthFound1 ← (if v.name ≠ "htpass-workshop-users" then do
        let identityProvider := [htpassProvider]
        let modified := { oauthFound with identityProviders := identityProvider ++ oauthFound.identityProviders }
        let err ← patch c modified
        match err with
        | some e => if e ≠ Err.alreadyExists then ret {} (some e) else pure modified
        | none => pure modified
      else pure oauthFound)
    if v.name = "htpass-workshop-users" then pure ()
    else patchOauthLoop c rest oauthFound1

/-- The body of Go `PatchOauth`. -/
def patchOauthBody {σ : Type} (c : Client σ) : Act σ (Result × Option Err) := do
  let res ← get c Kind.oauth "cluster" ""
  match res with
  | Except.error _ => pure ({}, none)
  | Except.ok oauthFound => do
    patchOauthLoop c oauthFound.identityProviders oauthFound
    pure ({}, none)

/-- Go `PatchOauth`, run on a store state. -/
def PatchOauth {σ : Type} (c : Client σ) (s : σ) : Run σ :=
  (patchOauthBody c).run s

/-! ## An in-memory store

A store in which a get returns exactly what was last written under that kind,
namespace and name, a create of a record that is there answers already-exists,
an update or a patch puts the record it is given in the place of the stored one
(the merge patch of a single writer), and nothing but the calls of the pass
changes it. -/

/-- What a record is stored under. -/
structure Key where
  kind : Kind
  ns : String
  name : String
deriving DecidableEq, Repr

/-- The key of a record. -/
def keyOf (o : Obj) : Key := ⟨o.kind, o.ns, o.name⟩

/-- The state of the in-memory store: the records, and how many hashes were drawn. -/
structure Mem where
  objs : List Obj
  hashes : Nat := 0
deriving DecidableEq, Repr

/-- The record stored under `k`, if any. -/
def Mem.lookup (m : Mem) (k : Key) : Option Obj :=
  m.objs.find? (fun o => decide (keyOf o = k))

/-- Put `o` in the place of every record with the key of `o`. -/
def Mem.replace (m : Mem) (o : Obj) : Mem :=
  { m with objs := m.objs.map (fun x => if keyOf x = keyOf o then o else x) }

/-- The in-memory client. `approve` is the answer of the install-plan approval, `ready` the
answer of the deployment status query, and `hash n p` the `n`-th hash drawn, of password `p`. -/
def memClient (approve : Option Err) (ready : String → String → Bool)
    (hash : Nat → String → Except Err String) : Client Mem where
  create o m :=
    match m.lookup (keyOf o) with
    | some _ => (some Err.alreadyExists, m)
    | none => (none, { m with objs := m.objs ++ [o] })
  get k name ns m :=
    match m.lookup ⟨k, ns, name⟩ with
    | some o => (Except.ok o, m)
    | none => (Except.error Err.notFound, m)
  update o m :=
    match m.lookup (keyOf o) with
    | some _ => (none, m.replace o)
    | none => (some Err.notFound, m)
  patch o m :=
    match m.lookup (keyOf o) with
    | some _ => (none, m.replace o)
    | none => (some Err.notFound, m)
  approveInstallPlan _ _ _ m := (approve, m)
  getDeploymentStatus name ns m := (ready name ns, m)
  generateFromPassword p m := (hash m.hashes p, { m with hashes := m.hashes + 1 })

/-! ## The pass seen as a list of records to converge

Definitions used to state and prove the properties: the loop variables without
the store calls, and the records of a pass in the order they are handled. -/

/-- The loop variables after the iterations `id, id + 1, ..., id + n - 1`. -/
def accFold (w : Workshop) (bcryptPassword : String) : Nat → Nat → Acc → Acc
  | 0, _, a => a
  | n + 1, id, a => accFold w bcryptPassword n (id + 1) (accumulate w bcryptPassword id a)

/-- A record to converge: created only, or created and else compared and updated. -/
inductive Item
  | only (o : Obj)
  | upd (o : Obj) (equal : Obj → Bool) (assign : Obj → Obj)

/-- The desired record of an item. -/
def Item.obj : Item → Obj
  | Item.only o => o
  | Item.upd o _ _ => o

/-- The comparison of an item; an item that is only created has none to fail. -/
def Item.equal : Item → Obj → Bool
  | Item.only _ => fun _ => true
  | Item.upd _ eq _ => eq

/-- The assignment of an item. -/
def Item.assign : Item → Obj → Obj
  | Item.only _ => fun x => x
  | Item.upd _ _ asg => asg

/-- Converge one item. -/
def runItem {σ : Type} (c : Client σ) : Item → Act σ Unit
  | Item.only o => createOnly c o
  | Item.upd o eq asg => createOrUpdate c o o.ns eq asg

/-- Converge the items one after the other. -/
def runItems {σ : Type} (c : Client σ) : List Item → Act σ Unit
  | [] => pure ()
  | it :: rest => do
    runItem c it
    runItems c rest

/-- The three records of tenant `id`, given the loop variables `a` of its iteration. -/
def tenantItems (d : Deps) (w : Workshop) (namespaceName : String) (id : Nat) (a : Acc) : List Item :=
  [ Item.upd (newAppProjectCustomResource d (projectName w id) namespaceName a.labels a.argocdPolicy)
      (fun found => decide ((newAppProjectCustomResource d (projectName w id) namespaceName a.labels a.argocdPolicy).spec = found.spec))
      (fun found => { found with spec := (newAppProjectCustomResource d (projectName w id) namespaceName a.labels a.argocdPolicy).spec }),
    Item.only (newRole "argocd-manager" (projectName w id) a.labels),
    Item.upd (newRoleBindingUsers "argocd-manager" (projectName w id) a.labels [argocdSubject] "argocd-manager" "Role")
      (fun found => decide ([argocdSubject] = found.subjects))
      (fun found => { found with subjects := [argocdSubject] }) ]

/-- The records of the iterations `id, ..., id + n - 1`, started with loop variables `a`. -/
def loopItems (d : Deps) (w : Workshop) (namespaceName bcryptPassword : String) : Nat → Nat → Acc → List Item
  | 0, _, _ => []
  | n + 1, id, a =>
    tenantItems d w namespaceName id (accumulate w bcryptPassword id a) ++
      loopItems d w namespaceName bcryptPassword n (id + 1) (accumulate w bcryptPassword id a)

/-- Cut a text into its lines: a line ends at a line feed, which is not part of it. -/
def splitLines : List Char → List (List Char)
  | [] => []
  | c :: cs =>
    if c = '\n' then [] :: splitLines cs
    else
      match splitLines cs with
      | [] => [[c]]
      | l :: ls => (c :: l) :: ls

/-- The lines of a string. -/
def linesOf (s : String) : List String := (splitLines s.data).map String.mk

/-- The five policy lines of tenant `id`, without their line feeds. -/
def tenantLines (w : Workshop) (id : Nat) : List String :=
  [ "p, " ++ userRole id ++ ", applications, *, " ++ projectName w id ++ "/*, allow",
    "p, " ++ userRole id ++ ", clusters, get, https://kubernetes.default.svc, allow",
    "p, " ++ userRole id ++ ", projects, *," ++ projectName w id ++ ", allow",
    "p, " ++ userRole id ++ ", repositories, *, http://gitea-server.gitea.svc:3000/" ++ username id ++ "/*, allow",
    "g, " ++ username id ++ ", " ++ userRole id ]

/-- Decimal value of a list of digit characters. -/
def decVal (cs : List Char) : Nat := cs.foldl (fun a c => 10 * a + (c.toNat - 48)) 0

/-! ## A sample run -/

/-- Sample stand-ins for the functions of `Deps`. -/
def sampleDeps : Deps :=
  { appProjectSpec := fun name ns _ policy => ⟨[name, ns, policy]⟩
    isIntersectMap := fun a b => a.all (fun p => b.contains p)
    isRequeued := fun r e => r.requeue || e.isSome }

/-- A workshop with three tenants and the staging-name template `proj`. -/
def sampleWorkshop : Workshop :=
  { gitOpsEnabled := true, channel := "stable", clusterServiceVersion := "v1", password := "pw",
    stagingName := "proj", numberOfUsers := 3, userNameStem := "user" }

/-- An in-memory client on which every readiness check answers ready. -/
def sampleClient : Client Mem :=
  memClient none (fun _ _ => true) (fun n p => Except.ok ("hash" ++ toString n ++ p))

/-- The empty store. -/
def emptyMem : Mem := { objs := [] }

/-! ## Reading the identity-provider list and the call log -/

/-- The key of the cluster-wide OAuth record. -/
def oauthKey : Key := ⟨Kind.oauth, "", "cluster"⟩

/-- A store holding only the cluster OAuth record, with the given provider list. -/
def oauthMem (ps : List IdentityProvider) : Mem :=
  { objs := [{ kind := Kind.oauth, name := "cluster", identityProviders := ps }] }

/-- The provider list stored in the cluster OAuth record, if the record is there. -/
def providersOf (m : Mem) : Option (List IdentityProvider) :=
  (m.lookup oauthKey).map (fun o => o.identityProviders)

/-- A provider set up by someone else, of the given name. -/
def otherProvider (name : String) : IdentityProvider :=
  { name := name, mappingMethod := "claim", providerType := "LDAP", htpasswdFileData := none }

/-- Whether the event is a patch call. -/
def Event.isPatch : Event → Bool
  | Event.patch _ _ => true
  | _ => false

/-- The number of patch calls in a log. -/
def patchCount (log : List Event) : Nat := (log.filter Event.isPatch).length

/-- The number of entries named `htpass-workshop-users` in a provider list. -/
def htpassCount (ps : List IdentityProvider) : Nat :=
  (ps.filter (fun v => decide (v.name = "htpass-workshop-users"))).length

/-- The number of entries in front of the first one named `htpass-workshop-users`. -/
def leadingOthers (ps : List IdentityProvider) : Nat :=
  (ps.takeWhile (fun v => decide (v.name ≠ "htpass-workshop-users"))).length

/-! ## The records of a pass of `addGitOps` -/

/-- The subscription record of the control plane. -/
def subscriptionItem (w : Workshop) : Item :=
  Item.only (newRedHatSubscription "openshift-gitops-operator" "openshift-operators"
    "openshift-gitops-operator" w.channel w.clusterServiceVersion)

/-- The shared namespace record. -/
def namespaceItem (namespaceName : String) : Item :=
  Item.only (newNamespace namespaceName)

/-- The label map when the secret `argocd-secret` is built. -/
def secretLabels (a : Acc) : StrMap := mapSet a.labels "app.kubernetes.io/name" "argocd-secret"

/-- The label map when the configmap `argocd-cm` is built. -/
def configMapLabels (a : Acc) : StrMap := mapSet (secretLabels a) "app.kubernetes.io/name" "argocd-cm"

/-- The label map when the ArgoCD custom resource is built. -/
def argoCDLabels (a : Acc) : StrMap := mapSet (configMapLabels a) "app.kubernetes.io/name" "argocd-cr"

/-- The label map when the secret `argocd-default-cluster-config` is built. -/
def clusterConfigLabels (a : Acc) : StrMap :=
  mapSet (argoCDLabels a) "app.kubernetes.io/name" "argocd-default-cluster-config"

/-- The three aggregate records published after the tenant loop, from its final variables `a`. -/
def aggregateItems (d : Deps) (namespaceName : String) (a : Acc) : List Item :=
  [ Item.only (newStringDataSecret "argocd-secret" namespaceName (secretLabels a) a.secretData),
    Item.upd (newConfigMap "argocd-cm" namespaceName (configMapLabels a) a.configMapData)
      (fun found => d.isIntersectMap a.configMapData found.data)
      (fun found => { found with data := a.configMapData }),
    Item.upd (newArgoCDCustomResource "argocd" namespaceName (argoCDLabels a) a.argocdPolicy)
      (fun found => decide (some a.argocdPolicy = found.policy))
      (fun found => { found with policy := some a.argocdPolicy }) ]

/-- The record `argocd-default-cluster-config`. -/
def clusterConfigItem (d : Deps) (namespaceName : String) (labels : StrMap) (namespaceList : String) : Item :=
  Item.upd (newStringDataSecret "argocd-default-cluster-config" namespaceName labels
      (clusterConfigSecretData namespaceList))
    (fun found => d.isIntersectMap (clusterConfigSecretData namespaceList) found.stringData)
    (fun found => { found with stringData := clusterConfigSecretData namespaceList })

/-- A call of a function that converges one record and returns `Result{}, nil`. -/
def callItem {σ : Type} (c : Client σ) (it : Item) : Act σ (Result × Option Err) :=
  call (Act.bind (runItem c it) fun _ => Act.pure ({}, none))

/-- The body of `addGitOps` written over the records of the pass: what `addGitOpsBody_eq` shows it equal to. -/
def passPlan {σ : Type} (c : Client σ) (d : Deps) (w : Workshop) (users : Int)
    (namespaceName : String) : Act σ (Result × Option Err) :=
  Act.bind (runItem c (subscriptionItem w)) fun _ =>
  Act.bind (approveInstallPlan c w.clusterServiceVersion "openshift-gitops-operator" "openshift-operators") fun err =>
  if err ≠ none then ret { requeue := true } none else
  Act.bind (getDeploymentStatus c "gitops-operator" "openshift-operators") fun ready =>
  if (!ready) = true then ret { requeue := true } none else
  Act.bind (runItem c (namespaceItem namespaceName)) fun _ =>
  Act.bind (generateFromPassword c w.password) fun hashed =>
  match hashed with
  | Except.error e => ret {} (some e)
  | Except.ok h =>
    Act.bind (runItems c (loopItems d w namespaceName h users.toNat 1 (accInit baseLabels) ++
        aggregateItems d namespaceName (accFold w h users.toNat 1 (accInit baseLabels)))) fun _ =>
    Act.bind (getDeploymentStatus c "argocd-server" namespaceName) fun ready =>
    if (!ready) = true then ret { requeue := true } none else
    Act.bind (callItem c (clusterConfigItem d namespaceName
        (clusterConfigLabels (accFold w h users.toNat 1 (accInit baseLabels)))
        (accFold w h users.toNat 1 (accInit baseLabels)).namespaceList)) fun p =>
    if d.isRequeued p.1 p.2 = true then ret p.1 p.2 else Act.pure ({}, none)

/-! ## Statements about the calls of a pass -/

/-- Every run of `m` ends in a way and with a list of calls that satisfy `P`. -/
def Post {σ α : Type} (m : Act σ α) (P : Flow α → List Event → Prop) : Prop :=
  ∀ s, P (m s).out (m s).log

/-- The call succeeded: no error came back, and a readiness check answered ready. -/
def Event.ok : Event → Bool
  | Event.create _ none => true
  | Event.get _ _ _ (Except.ok _) => true
  | Event.update _ none => true
  | Event.patch _ none => true
  | Event.approveInstallPlan _ _ _ none => true
  | Event.deploymentStatus _ _ true => true
  | Event.hash _ (Except.ok _) => true
  | Event.delete _ none => true
  | Event.generatePasswd _ => true
  | Event.readFile _ (Except.ok _) => true
  | Event.removeFile _ none => true
  | _ => false

/-- The call is a readiness step that reported not ready: a failed install-plan approval or a
deployment that is not ready. -/
def Event.notReady : Event → Bool
  | Event.approveInstallPlan _ _ _ (some _) => true
  | Event.deploymentStatus _ _ false => true
  | _ => false

/-- The call is an update. -/
def Event.isUpdate : Event → Bool
  | Event.update _ _ => true
  | _ => false

/-- The call creates a record of kind `k` named `name`. -/
def Event.createsNamed (k : Kind) (name : String) : Event → Bool
  | Event.create o _ => decide (o.kind = k ∧ o.name = name)
  | _ => false

/-- The record of a create call. -/
def Event.created : Event → Option Obj
  | Event.create o _ => some o
  | _ => none

/-- The records of the create calls of a log, in the order of the calls. -/
def createsOf (log : List Event) : List Obj := log.filterMap Event.created

/-- A readiness step that reported not ready is the last call and the pass returns a requeue
without error. -/
def Good {α : Type} (o : Flow α) (l : List Event) : Prop :=
  (∀ e ∈ l, e.notReady = false) ∨
  (∃ l0 e, l = l0 ++ [e] ∧ e.notReady = true ∧ (∀ x ∈ l0, x.notReady = false) ∧
    o = Flow.ret { requeue := true } none)

/-- The calls of a pass of `addGitOps` in which every call succeeds, `h` being the hash drawn. -/
def passLog (d : Deps) (w : Workshop) (users : Int) (namespaceName h : String) : List Event :=
  [ Event.create (subscriptionItem w).obj none,
    Event.approveInstallPlan w.clusterServiceVersion "openshift-gitops-operator" "openshift-operators" none,
    Event.deploymentStatus "gitops-operator" "openshift-operators" true,
    Event.create (namespaceItem namespaceName).obj none,
    Event.hash w.password (Except.ok h) ] ++
  (loopItems d w namespaceName h users.toNat 1 (accInit baseLabels) ++
      aggregateItems d namespaceName (accFold w h users.toNat 1 (accInit baseLabels))).map
    (fun it => Event.create it.obj none) ++
  [ Event.deploymentStatus "argocd-server" namespaceName true,
    Event.create (clusterConfigItem d namespaceName
      (clusterConfigLabels (accFold w h users.toNat 1 (accInit baseLabels)))
      (accFold w h users.toNat 1 (accInit baseLabels)).namespaceList).obj none ]

/-- Every call of the list succeeded. -/
def AllOk (l : List Event) : Prop := ∀ e ∈ l, e.ok = true

/-- What the calls of one record look like: the create first, then, only when the create did not
succeed, gets and updates; the record is left either by going on or by returning an error. -/
def ItemPost (it : Item) (out : Flow Unit) (l : List Event) : Prop :=
  ∃ r rest, l = Event.create it.obj r :: rest ∧
    (r = none → rest = [] ∧ out = Flow.next ()) ∧
    (∀ e ∈ rest, (∃ k n ns res, e = Event.get k n ns res) ∨ (∃ x r2, e = Event.update x r2)) ∧
    (out = Flow.next () ∨ ∃ e, out = Flow.ret {} (some e))

instance instDecidableAllOk (l : List Event) : Decidable (AllOk l) := by
  unfold AllOk
  infer_instance

/-- The keys of the three records of tenant `id`, in the order they are created. -/
def tenantKeys (w : Workshop) (namespaceName : String) (id : Nat) : List Key :=
  [ ⟨Kind.appProject, namespaceName, w.stagingName ++ toString id⟩,
    ⟨Kind.role, w.stagingName ++ toString id, "argocd-manager"⟩,
    ⟨Kind.roleBinding, w.stagingName ++ toString id, "argocd-manager"⟩ ]

/-- The call is a readiness step of the operator installation that reported not ready: a failed
install-plan approval, or the deployment `gitops-operator` not ready. -/
def Event.operatorNotReady : Event → Bool
  | Event.approveInstallPlan _ _ _ (some _) => true
  | Event.deploymentStatus name _ false => decide (name = "gitops-operator")
  | _ => false

/-- When a call satisfying `Y` was issued, no call satisfying `X` was. -/
def Guard (X Y : Event → Bool) (l : List Event) : Prop :=
  (∃ e ∈ l, Y e = true) → ∀ x ∈ l, X x = false

/-- A client on which the deployment `argocd-server` is never ready. -/
def serverDownClient : Client Mem :=
  memClient none (fun name _ => decide (name ≠ "argocd-server")) (fun n p => Except.ok ("hash" ++ toString n ++ p))

/-- A client on which the deployment `gitops-operator` is never ready. -/
def operatorDownClient : Client Mem :=
  memClient none (fun name _ => decide (name ≠ "gitops-operator")) (fun n p => Except.ok ("hash" ++ toString n ++ p))

/-! ## Converged records -/

/-- The record of the item is in the store and passes the item's comparison. -/
def Settled (m : Mem) (it : Item) : Prop :=
  ∃ x, m.lookup (keyOf it.obj) = some x ∧ it.equal x = true

/-- The assignment of the item keeps the key of the record it changes, makes the comparison
succeed, and the desired record itself passes the comparison. -/
def Item.WF (it : Item) : Prop :=
  (∀ x, keyOf (it.assign x) = keyOf x) ∧ (∀ x, it.equal (it.assign x) = true) ∧ it.equal it.obj = true

/-- A run that changes no record, issues no update, gets already-exists from every create, and
returns, if it returns, without requeue and without error. -/
def Quiet {α : Type} (m : Mem) (r : Outcome Mem α) : Prop :=
  r.st.objs = m.objs ∧
  (∀ e ∈ r.log, e.isUpdate = false ∧ ∀ o x, e = Event.create o x → x = some Err.alreadyExists) ∧
  (∀ r0 e0, r.out = Flow.ret r0 e0 → r0 = {} ∧ e0 = none)

/-- The records of a pass of `addGitOps`, in the order they are handled, `h` being the hash drawn. -/
def passItems (d : Deps) (w : Workshop) (users : Int) (namespaceName h : String) : List Item :=
  [subscriptionItem w, namespaceItem namespaceName] ++
  (loopItems d w namespaceName h users.toNat 1 (accInit baseLabels) ++
    aggregateItems d namespaceName (accFold w h users.toNat 1 (accInit baseLabels))) ++
  [clusterConfigItem d namespaceName
    (clusterConfigLabels (accFold w h users.toNat 1 (accInit baseLabels)))
    (accFold w h users.toNat 1 (accInit baseLabels)).namespaceList]

/-- Every item of the list is converged in the store. -/
def SettledAll (S : List Item) (m : Mem) : Prop := ∀ it ∈ S, Settled m it

/-- From a store satisfying `P`, the piece `m` goes on, with a value and a store satisfying `Q`. -/
def Est {α : Type} (P : Mem → Prop) (m : Act Mem α) (Q : α → Mem → Prop) : Prop :=
  ∀ s, P s → ∃ a, (m s).out = Flow.next a ∧ Q a (m s).st

/-- From a store satisfying `P`, the body `m` ends without requeue and without error, in a store
satisfying `Q`. -/
def EstEnd (P : Mem → Prop) (m : Act Mem (Result × Option Err)) (Q : Mem → Prop) : Prop :=
  ∀ s, P s → ((m s).out = Flow.next ({}, none) ∨ (m s).out = Flow.ret {} none) ∧ Q (m s).st

/-- From a store satisfying `I`, the piece `m` is quiet and the value it goes on with satisfies `V`. -/
def QuietAct {α : Type} (I : Mem → Prop) (m : Act Mem α) (V : α → Prop) : Prop :=
  ∀ s, I s → Quiet s (m s) ∧ ∀ a, (m s).out = Flow.next a → V a

/-- Two values of the loop variables that differ at most in the credential map. -/
def AccSim (a b : Acc) : Prop :=
  a.argocdPolicy = b.argocdPolicy ∧ a.namespaceList = b.namespaceList ∧
  a.configMapData = b.configMapData ∧ a.labels = b.labels

/-- A store that holds a configmap `argocd-cm` published for one tenant only. -/
def staleMem : Mem :=
  { objs := [newConfigMap "argocd-cm" "argocd" [] [("accounts.user1", "login")]] }

/-! ## The user reconciler

`controllers/user_reconciler.go`. Besides the store calls of the GitOps
reconciler it calls `r.Delete`, `openshiftuser.GeneratePasswd`,
`ioutil.ReadFile`, `os.Remove` and `log.Fatal`; its two outer loops are
`for { ... }` loops without a bound. -/

/-- The outside world as the user reconciler sees it: the client of the GitOps reconciler, then
`r.Delete`, `openshiftuser.GeneratePasswd` (which writes the credential line of a tenant to the
staging file and whose result the code ignores), `ioutil.ReadFile` and `os.Remove`. -/
structure UserClient (σ : Type) extends Client σ where
  delete : Obj → σ → Option Err × σ
  generatePasswd : Workshop → String → σ → σ
  readFile : String → σ → Except Err String × σ
  removeFile : String → σ → Option Err × σ

/-- Call `r.Delete`. -/
def delete {σ : Type} (u : UserClient σ) (o : Obj) : Act σ (Option Err) := fun s =>
  match u.delete o s with
  | (r, s1) => ⟨Flow.next r, s1, [Event.delete o r]⟩

/-- Call `openshiftuser.GeneratePasswd`. -/
def generatePasswd {σ : Type} (u : UserClient σ) (w : Workshop) (name : String) : Act σ Unit := fun s =>
  ⟨Flow.next (), u.generatePasswd w name s, [Event.generatePasswd name]⟩

/-- Call `ioutil.ReadFile`. -/
def readFile {σ : Type} (u : UserClient σ) (path : String) : Act σ (Except Err String) := fun s =>
  match u.readFile path s with
  | (r, s1) => ⟨Flow.next r, s1, [Event.readFile path r]⟩

/-- Call `os.Remove`. -/
def removeFile {σ : Type} (u : UserClient σ) (path : String) : Act σ (Option Err) := fun s =>
  match u.removeFile path s with
  | (r, s1) => ⟨Flow.next r, s1, [Event.removeFile path r]⟩

/-- The constructors of package `openshiftuser` and the two constants of package `controllers`
that the user reconciler uses and that are not part of the two files. They are parameters of the
embedding; each constructor takes the arguments the code passes, the scheme apart. -/
structure UserDeps where
  newUser : Workshop → String → Obj
  newRoleBindingUsers : Workshop → String → String → String → String → Obj
  newIdentity : Workshop → String → Obj → Obj
  newUserIdentityMapping : Workshop → String → Obj
  newHTPasswdSecret : Workshop → String → Obj
  userRoleBindingName : String
  kindClusterRole : String

/-- Why a function has not returned: `log.Fatal` has ended the process (the logger of
`github.com/prometheus/common/log` writes the message and then exits with status 1), or a loop
without a bound was still going when the iterations granted to it were used up. -/
inductive Halt
  | fatal
  | running
deriving DecidableEq, Repr

/-- What a function that can halt leaves behind: the pair it returned or the halt, the store, and
the calls it issued. -/
structure HaltRun (σ : Type) where
  result : Except Halt (Result × Option Err)
  st : σ
  log : List Event

/-- A call of a function that can halt: the pair the callee returns is a value for the caller, a
halt stays a halt. -/
def callHalt {σ : Type} (m : Act σ (Except Halt (Result × Option Err))) :
    Act σ (Except Halt (Result × Option Err)) := fun s =>
  match m s with
  | ⟨Flow.next a, s1, l⟩ => ⟨Flow.next a, s1, l⟩
  | ⟨Flow.ret r e, s1, l⟩ => ⟨Flow.next (Except.ok (r, e)), s1, l⟩

/-- Run a whole function body that can halt. -/
def Act.runHalt {σ : Type} (m : Act σ (Except Halt (Result × Option Err))) (s : σ) : HaltRun σ :=
  match m s with
  | ⟨Flow.next a, s1, l⟩ => ⟨a, s1, l⟩
  | ⟨Flow.ret r e, s1, l⟩ => ⟨Except.ok (r, e), s1, l⟩

/-- Go `fmt.Sprint(userPrefix, id)`: no blank is put between a string and a number. -/
def tenantName (w : Workshop) (id : Int) : String := w.userNameStem ++ toString id

/-- The largest value of a Go `int` on a 64-bit platform. -/
def maxInt : Int := 9223372036854775807

/-- Go `id++` on an `int`: past the largest value the index wraps around to the smallest. -/
def incr (id : Int) : Int := if id = maxInt then -maxInt - 1 else id + 1

/-- The zero value `&userv1.User{}` that `userFound` holds when the get has failed. -/
def emptyUser : Obj := { kind := Kind.user, name := "" }

/-- What `userFound` holds after `r.Get(.., userFound)`: the record the get answered, or, when the
get has failed, the zero value it was set to before. -/
def userFoundOf (res : Except Err Obj) : Obj :=
  match res with
  | Except.ok found => found
  | Except.error _ => emptyUser

/-- The path of the staging credential file. -/
def stagingPath : String := "/tmp/scripts/htpasswdfile.txt"

/-- Go `addUser`. The argument `id` is unused. A failed get of the user is logged and the body
goes on with the zero `userFound`. -/
def addUser {σ : Type} (c : Client σ) (ud : UserDeps) (w : Workshop) (username : String) (_id : Int) :
    Act σ (Result × Option Err) := do
  let user := ud.newUser w username
  createOnly c user
  -- Create User Role Binding
  let userRoleBinding := ud.newRoleBindingUsers w username "workshop-infra" ud.userRoleBindingName ud.kindClusterRole
  createOnly c userRoleBinding
  -- Get User
  let res ← get c Kind.user username ""
  let userFound := userFoundOf res
  -- Create Identity
  let identity := ud.newIdentity w username userFound
  createOnly c identity
  -- Create User Identity Mapping
  let userIdentity := ud.newUserIdentityMapping w username
  createOnly c userIdentity
  pure ({}, none)

/-- The statement `if err := r.Delete(..); err != nil { return Result{}, err }`. -/
def deleteOrReturn {σ : Type} (u : UserClient σ) (o : Obj) : Act σ Unit := do
  let err ← delete u o
  match err with
  | some e => ret {} (some e)
  | none => pure ()

/-- The loop `for id := 1; id <= users; id++` of `CreateUserHTPasswd`, with `remaining` iterations
to go. It is entered with `remaining = users.toNat`; as in `tenantLoop` the wrap-around of the
index is left out. -/
def passwdLoop {σ : Type} (u : UserClient σ) (w : Workshop) : Nat → Nat → Act σ Unit
  | 0, _ => pure ()
  | remaining + 1, id => do
    let username := tenantName w id
    generatePasswd u w username
    passwdLoop u w remaining (id + 1)

/-- The body of Go `CreateUserHTPasswd`. A failed read of the staging file is logged and leaves
`htpasswdFile` empty; a failed removal reaches `log.Fatal`, which ends the process. -/
def createUserHTPasswdBody {σ : Type} (u : UserClient σ) (ud : UserDeps) (w : Workshop) :
    Act σ (Except Halt (Result × Option Err)) := do
  passwdLoop u w w.numberOfUsers.toNat 1
  let read ← readFile u stagingPath
  let htpasswdFile := match read with
    | Except.ok bytes => bytes
    | Except.error _ => ""
  let htpasswdSecret := ud.newHTPasswdSecret w htpasswdFile
  let err ← create u.toClient htpasswdSecret
  (match err with
    | none => pure ()
    | some e =>
      if e ≠ Err.alreadyExists then ret {} (some e)
      else do
        let htpasswdSecretFound := ud.newHTPasswdSecret w ""
        deleteOrReturn u htpasswdSecretFound
        createOnly u.toClient htpasswdSecret)
  let deleteHtpasswdFile ← removeFile u stagingPath
  if deleteHtpasswdFile ≠ none then pure (Except.error Halt.fatal) else
  pure (Except.ok ({}, none))

/-- Go `CreateUserHTPasswd`, run on a store state. -/
def CreateUserHTPasswd {σ : Type} (u : UserClient σ) (ud : UserDeps) (w : Workshop) (s : σ) : HaltRun σ :=
  (createUserHTPasswdBody u ud w).runHalt s

/-- The loop `for { ... }` of `reconcileUser`, with the index at `id` and `fuel` iterations
granted: it is left by the `break` (the value `Except.ok ()`), by the `return` in its body, or,
in this embedding, still running when the iterations granted are used up. -/
def reconcileUserLoop {σ : Type} (u : UserClient σ) (d : Deps) (ud : UserDeps) (w : Workshop) :
    Nat → Int → Act σ (Except Halt Unit)
  | 0, _ => pure (Except.error Halt.running)
  | fuel + 1, id => do
    let username := tenantName w id
    if id ≤ w.numberOfUsers then do
      let (result, err) ← call (addUser u.toClient ud w username id)
      if d.isRequeued result err then ret result err else
      reconcileUserLoop u d ud w fuel (incr id)
    else do
      let user := ud.newUser w username
      let userFound ← get u.toClient Kind.user user.name ""
      match userFound with
      | Except.error e =>
        if e = Err.notFound then pure (Except.ok ())
        else reconcileUserLoop u d ud w fuel (incr id)
      | Except.ok _ => reconcileUserLoop u d ud w fuel (incr id)

/-- The body of Go `reconcileUser`, its loop being granted `fuel` iterations. -/
def reconcileUserBody {σ : Type} (u : UserClient σ) (d : Deps) (ud : UserDeps) (w : Workshop)
    (fuel : Nat) : Act σ (Except Halt (Result × Option Err)) := do
  let looped ← reconcileUserLoop u d ud w fuel 1
  match looped with
  | Except.error h => pure (Except.error h)
  | Except.ok _ => do
    let created ← callHalt (createUserHTPasswdBody u ud w)
    match created with
    | Except.error h => pure (Except.error h)
    | Except.ok (result, err) =>
      if err ≠ none then ret result err else do
      let (result, err) ← call (patchOauthBody u.toClient)
      if err ≠ none then ret result err else
      --Success
      pure (Except.ok ({}, none))

/-- Go `reconcileUser`, run on a store state. -/
def reconcileUser {σ : Type} (u : UserClient σ) (d : Deps) (ud : UserDeps) (w : Workshop)
    (fuel : Nat) (s : σ) : HaltRun σ :=
  (reconcileUserBody u d ud w fuel).runHalt s

/-- Go `deleteOpenshiftUser`. The argument `id` is unused. A failed get of the user is logged and
the body goes on with the zero `userFound`. -/
def deleteOpenshiftUser {σ : Type} (u : UserClient σ) (ud : UserDeps) (w : Workshop) (username : String)
    (_id : Int) : Act σ (Result × Option Err) := do
  -- Get user
  let res ← get u.toClient Kind.user username ""
  let userFound := userFoundOf res
  -- Delete User Identity Mapping
  let userIdentity := ud.newUserIdentityMapping w username
  deleteOrReturn u userIdentity
  -- Delete Identity
  let identity := ud.newIdentity w username userFound
  deleteOrReturn u identity
  -- Delete User Role Binding
  let userRoleBinding := ud.newRoleBindingUsers w username "workshop-infra" ud.userRoleBindingName ud.kindClusterRole
  deleteOrReturn u userRoleBinding
  let user := ud.newUser w username
  deleteOrReturn u user
  pure ({}, none)

/-- The body of Go `DeleteUserHTPasswd`. -/
def deleteUserHTPasswdBody {σ : Type} (u : UserClient σ) (ud : UserDeps) (w : Workshop) :
    Act σ (Result × Option Err) := do
  let htpasswdSecret := ud.newHTPasswdSecret w ""
  deleteOrReturn u htpasswdSecret
  pure ({}, none)

/-- Go `DeleteUserHTPasswd`, run on a store state. -/
def DeleteUserHTPasswd {σ : Type} (u : UserClient σ) (ud : UserDeps) (w : Workshop) (s : σ) : Run σ :=
  (deleteUserHTPasswdBody u ud w).run s

/-- The loop `for { ... }` of `deleteUsers`, with the index at `id` and `fuel` iterations granted. -/
def deleteUsersLoop {σ : Type} (u : UserClient σ) (d : Deps) (ud : UserDeps) (w : Workshop) :
    Nat → Int → Act σ (Except Halt Unit)
  | 0, _ => pure (Except.error Halt.running)
  | fuel + 1, id => do
    let username := tenantName w id
    if id ≤ w.numberOfUsers then do
      let (result, err) ← call (deleteOpenshiftUser u ud w username id)
      if d.isRequeued result err then ret result err else
      deleteUsersLoop u d ud w fuel (incr id)
    else do
      let user := ud.newUser w username
      let userFound ← get u.toClient Kind.user user.name ""
      match userFound with
      | Except.error e =>
        if e = Err.notFound then pure (Except.ok ())
        else deleteUsersLoop u d ud w fuel (incr id)
      | Except.ok _ => deleteUsersLoop u d ud w fuel (incr id)

/-- The body of Go `deleteUsers`, its loop being granted `fuel` iterations. -/
def deleteUsersBody {σ : Type} (u : UserClient σ) (d : Deps) (ud : UserDeps) (w : Workshop)
    (fuel : Nat) : Act σ (Except Halt (Result × Option Err)) := do
  let looped ← deleteUsersLoop u d ud w fuel 1
  match looped with
  | Except.error h => pure (Except.error h)
  | Except.ok _ => do
    let (result, err) ← call (deleteUserHTPasswdBody u ud w)
    if err ≠ none then ret result err else
    --Success
    pure (Except.ok ({}, none))

/-- Go `deleteUsers`, run on a store state. -/
def deleteUsers {σ : Type} (u : UserClient σ) (d : Deps) (ud : UserDeps) (w : Workshop)
    (fuel : Nat) (s : σ) : HaltRun σ :=
  (deleteUsersBody u d ud w fuel).runHalt s

/-! ## Sample runs of the user reconciler -/

/-- Sample stand-ins for the constructors and constants of `UserDeps`. -/
def sampleUserDeps : UserDeps :=
  { newUser := fun _ name => { kind := Kind.user, name := name }
    newRoleBindingUsers := fun _ name ns roleName roleKind =>
      { kind := Kind.roleBinding, name := name ++ "-" ++ roleName, ns := ns,
        subjects := [{ kind := "User", name := name, apiGroup := "rbac.authorization.k8s.io" }],
        args := [roleName, roleKind] }
    newIdentity := fun _ name userFound =>
      { kind := Kind.identity, name := "htpass-workshop-users:" ++ name, args := [name, userFound.name] }
    newUserIdentityMapping := fun _ name =>
      { kind := Kind.userIdentityMapping, name := "htpass-workshop-users:" ++ name, args := [name] }
    newHTPasswdSecret := fun _ bytes =>
      { kind := Kind.secret, name := "htpass-workshop-users", ns := "openshift-config",
        data := [("htpasswd", bytes)] }
    userRoleBindingName := "workshop-user"
    kindClusterRole := "ClusterRole" }

/-- A client of the user reconciler over the in-memory store `base`: a delete removes the record
stored under the key of the one it is given; the staging file is not kept, reading it answers
`read` and removing it answers `remove`. -/
def memUserClient (base : Client Mem) (read : Except Err String) (remove : Option Err) : UserClient Mem :=
  { base with
    delete := fun o m =>
      match m.lookup (keyOf o) with
      | some _ => (none, { m with objs := m.objs.filter (fun x => decide (keyOf x ≠ keyOf o)) })
      | none => (some Err.notFound, m)
    generatePasswd := fun _ _ m => m
    readFile := fun _ m => (read, m)
    removeFile := fun _ m => (remove, m) }

/-- The in-memory client of the user reconciler on which reading and removing the staging file succeed. -/
def sampleUserClient : UserClient Mem :=
  memUserClient sampleClient (Except.ok "user1:hash1\nuser2:hash2\n") none

/-! ## The secret `argocd-secret` -/

/-- The key of the aggregate credential secret `argocd-secret` in the shared namespace. -/
def secretKey (namespaceName : String) : Key := ⟨Kind.secret, namespaceName, "argocd-secret"⟩

/-- The call fetches or changes the record stored under `k`: a get of that key, or an update, a
patch or a delete of a record with that key. -/
def Event.fetchesOrChanges (k : Key) : Event → Bool
  | Event.get kind name ns _ => decide ((⟨kind, ns, name⟩ : Key) = k)
  | Event.update o _ => decide (keyOf o = k)
  | Event.patch o _ => decide (keyOf o = k)
  | Event.delete o _ => decide (keyOf o = k)
  | _ => false

/-- From a store holding `x` under `k`, the piece `m` leaves `x` there and neither fetches nor
changes the record under `k`. -/
def Keeps {α : Type} (k : Key) (x : Obj) (m : Act Mem α) : Prop :=
  ∀ s, s.lookup k = some x →
    (m s).st.lookup k = some x ∧ ∀ e ∈ (m s).log, e.fetchesOrChanges k = false

/-- The keys of the string data of the record stored under `k`, if there is one. -/
def stringDataKeys (m : Mem) (k : Key) : Option (List String) :=
  (m.lookup k).map (fun o => o.stringData.map Prod.fst)

/-- A store that holds a secret `argocd-secret` published for two tenants. -/
def staleSecretMem : Mem :=
  { objs := [newStringDataSecret "argocd-secret" "argocd" []
      [("accounts.user1.password", "old"), ("accounts.user2.password", "old")]] }

/-! ## The fields of a policy line -/

/-- Cut what is left of a line into fields, `cur` being the characters of the field being read,
last one first: a field ends at a comma followed by one blank, neither of which is part of it. -/
def splitFieldsFrom : List Char → List Char → List (List Char)
  | [], cur => [cur.reverse]
  | c :: cs, cur =>
    if c = ' ' ∧ cur.head? = some ',' then cur.tail.reverse :: splitFieldsFrom cs []
    else splitFieldsFrom cs (c :: cur)

/-- The fields of a line, separated by a comma and one blank. -/
def fieldsOf (s : String) : List String := (splitFieldsFrom s.data []).map String.mk

/-- The policy text of the ArgoCD resource stored in the shared namespace, if there is one. -/
def storedPolicy (m : Mem) (namespaceName : String) : Option String :=
  (m.lookup ⟨Kind.argoCD, namespaceName, "argocd"⟩).bind (fun o => o.policy)

/-! ## Clients on which one call fails -/

/-- A workshop with two tenants and the tenant name prefix `user`. -/
def twoTenants : Workshop := { sampleWorkshop with numberOfUsers := 2 }

/-- A workshop with two tenants and the tenant name prefix `dev`. -/
def devWorkshop : Workshop := { sampleWorkshop with numberOfUsers := 2, userNameStem := "dev" }

/-- The in-memory client on which removing the staging file fails. -/
def removeFailsClient : UserClient Mem :=
  memUserClient sampleClient (Except.ok "user1:hash1\nuser2:hash2\n") (some (Err.other "permission denied"))

/-- The in-memory client on which every create fails with an error other than already-exists. -/
def createFailsClient : UserClient Mem :=
  memUserClient { sampleClient with create := fun _ m => (some (Err.other "forbidden"), m) }
    (Except.ok "user1:hash1\nuser2:hash2\n") none

/-- The in-memory client on which every delete fails. -/
def deleteFailsClient : UserClient Mem :=
  { sampleUserClient with delete := fun _ m => (some (Err.other "forbidden"), m) }

/-- The in-memory client on which every get of a user fails with an error other than not-found. -/
def userGetFailsClient : UserClient Mem :=
  memUserClient
    { sampleClient with
      get := fun k name ns m =>
        if k = Kind.user then (Except.error (Err.other "timeout"), m) else sampleClient.get k name ns m }
    (Except.ok "user1:hash1\nuser2:hash2\n") none

/-- A store that holds the credential secret of an earlier pass. -/
def publishedMem : Mem :=
  { objs := [sampleUserDeps.newHTPasswdSecret twoTenants "user1:hash1\n"] }

/-- The call is a removal of the staging file. -/
def Event.isRemove : Event → Bool
  | Event.removeFile _ _ => true
  | _ => false

/-- The call is a get of the cluster OAuth record. -/
def Event.isOauthGet : Event → Bool
  | Event.get kind _ _ _ => decide (kind = Kind.oauth)
  | _ => false

/-- The names of the records of kind `k` that the create calls of a log carry. -/
def createdNames (k : Kind) (log : List Event) : List String :=
  ((createsOf log).filter (fun o => decide (o.kind = k))).map (fun o => o.name)

/-- The names handed to `GeneratePasswd` in a log. -/
def passwdNames (log : List Event) : List String :=
  log.filterMap (fun e => match e with
    | Event.generatePasswd name => some name
    | _ => none)

/-! ## The delete calls of a log -/

/-- The record of a delete call. -/
def Event.deleted : Event → Option Obj
  | Event.delete o _ => some o
  | _ => none

/-- The records of the delete calls of a log, in the order of the calls. -/
def deletesOf (log : List Event) : List Obj := log.filterMap Event.deleted

/-- The call is a delete that failed. -/
def Event.deleteFailed : Event → Bool
  | Event.delete _ (some _) => true
  | _ => false

/-- No delete call of the list failed. -/
def DeletesOk (l : List Event) : Prop := ∀ e ∈ l, e.deleteFailed = false

instance instDecidableDeletesOk (l : List Event) : Decidable (DeletesOk l) := by
  unfold DeletesOk
  infer_instance

/-- The four records of the tenant named `name`, in the order user-identity mapping, identity,
role binding, user; `found` is the user record the identity refers to. -/
def tenantDeletes (ud : UserDeps) (w : Workshop) (name : String) (found : Obj) : List Obj :=
  [ ud.newUserIdentityMapping w name,
    ud.newIdentity w name found,
    ud.newRoleBindingUsers w name "workshop-infra" ud.userRoleBindingName ud.kindClusterRole,
    ud.newUser w name ]

/-! ## What follows a failed get -/

/-- No create call of the list failed with an error other than already-exists. -/
def CreatesPass (l : List Event) : Prop :=
  ∀ o x, Event.create o x ∈ l → x = none ∨ x = some Err.alreadyExists

/-- When the get of the user named `name` has failed, the create of the identity built from the
zero user record was issued all the same and, unless a create failed with an error other than
already-exists, so was the create of the user-identity mapping, and no error is returned. -/
def GoesOn (ud : UserDeps) (w : Workshop) (name : String) (o : Flow (Result × Option Err))
    (l : List Event) : Prop :=
  (∃ e, Event.get Kind.user name "" (Except.error e) ∈ l) →
    (∃ x, Event.create (ud.newIdentity w name emptyUser) x ∈ l) ∧
    (CreatesPass l →
      (o = Flow.next ({}, none) ∨ o = Flow.ret {} none) ∧
      ∃ y, Event.create (ud.newUserIdentityMapping w name) y ∈ l)

/-! ## The loop of `reconcileUser` -/

/-- The calls of `addUser` for the tenants `id, ..., id + n - 1`, one call after the other from
the store `s`: the store they leave and the calls they issue. -/
def addUsersFrom {σ : Type} (c : Client σ) (ud : UserDeps) (w : Workshop) : Nat → Nat → σ → σ × List Event
  | 0, _, s => (s, [])
  | n + 1, id, s =>
    ((addUsersFrom c ud w n (id + 1) ((addUser c ud w (tenantName w id) id).run s).st).1,
      ((addUser c ud w (tenantName w id) id).run s).log ++
        (addUsersFrom c ud w n (id + 1) ((addUser c ud w (tenantName w id) id).run s).st).2)

/-- The get by which the loop looks for the user of the index `k`, with the answer it got. -/
def probe (ud : UserDeps) (w : Workshop) (k : Int) (res : Except Err Obj) : Event :=
  Event.get Kind.user (ud.newUser w (tenantName w k)).name "" res

/-! # Properties -/


/-! ## Decimal rendering -/

theorem toDigitsCore_append (fuel n : Nat) (acc : List Char) :
    Nat.toDigitsCore 10 fuel n acc = Nat.toDigitsCore 10 fuel n [] ++ acc := by
  induction fuel generalizing n acc with
  | zero => simp [Nat.toDigitsCore]
  | succ f ih =>
    simp only [Nat.toDigitsCore]
    split
    · simp
    · rw [ih (n / 10) (_ :: acc), ih (n / 10) [_]]
      simp

theorem digitChar_val (k : Nat) (hk : k < 10) : (Nat.digitChar k).toNat - 48 = k := by
  interval_cases k <;> rfl

theorem digitChar_ne_lf (k : Nat) (hk : k < 10) : Nat.digitChar k ≠ '\n' := by
  interval_cases k <;> decide

theorem decVal_toDigitsCore (fuel n : Nat) (h : n < fuel) :
    decVal (Nat.toDigitsCore 10 fuel n []) = n := by
  induction fuel generalizing n with
  | zero => omega
  | succ f ih =>
    simp only [Nat.toDigitsCore]
    split
    · rename_i h0
      have : n < 10 := by
        by_contra hc
        have : 1 ≤ n / 10 := Nat.div_pos (by omega) (by omega)
        omega
      simp [decVal, digitChar_val (n % 10) (Nat.mod_lt _ (by omega))]
      omega
    · rename_i h0
      rw [toDigitsCore_append]
      have hlt : n / 10 < f := by omega
      have := ih (n / 10) hlt
      simp only [decVal, List.foldl_append, List.foldl_cons, List.foldl_nil] at this ⊢
      rw [this, digitChar_val (n % 10) (Nat.mod_lt _ (by omega))]
      omega

theorem decVal_toString (n : Nat) : decVal (toString n).data = n := by
  show decVal (Nat.toDigits 10 n) = n
  exact decVal_toDigitsCore (n + 1) n (by omega)

/-- The decimal rendering of an index determines the index. -/
theorem toString_nat_inj {i j : Nat} (h : toString i = toString j) : i = j := by
  have := congrArg (fun s => decVal s.data) h
  simpa [decVal_toString] using this

theorem lf_not_mem_toDigitsCore (fuel n : Nat) : '\n' ∉ Nat.toDigitsCore 10 fuel n [] := by
  induction fuel generalizing n with
  | zero => simp [Nat.toDigitsCore]
  | succ f ih =>
    simp only [Nat.toDigitsCore]
    split
    · simp
      exact (digitChar_ne_lf _ (Nat.mod_lt _ (by omega))).symm
    · rw [toDigitsCore_append]
      simp only [List.mem_append, List.mem_singleton, not_or]
      exact ⟨ih _, (digitChar_ne_lf _ (Nat.mod_lt _ (by omega))).symm⟩

/-- The decimal rendering of an index has no line feed. -/
theorem lf_not_mem_toString (n : Nat) : '\n' ∉ (toString n).data := by
  show '\n' ∉ Nat.toDigits 10 n
  exact lf_not_mem_toDigitsCore _ _

theorem string_append_left_cancel {a x y : String} (h : a ++ x = a ++ y) : x = y := by
  have := congrArg String.data h
  simp only [String.data_append] at this
  exact String.ext (List.append_cancel_left this)

theorem string_append_right_cancel {b x y : String} (h : x ++ b = y ++ b) : x = y := by
  have := congrArg String.data h
  simp only [String.data_append] at this
  exact String.ext (List.append_cancel_right this)

/-! ## Sequencing -/

theorem bind_eq {σ α β : Type} (m : Act σ α) (f : α → Act σ β) : (m >>= f) = Act.bind m f := rfl

theorem pure_eq {σ α : Type} (a : α) : (Pure.pure a : Act σ α) = Act.pure a := rfl

theorem bind_assoc_act {σ α β γ : Type} (m : Act σ α) (f : α → Act σ β) (g : β → Act σ γ) :
    Act.bind (Act.bind m f) g = Act.bind m (fun a => Act.bind (f a) g) := by
  funext s
  simp only [Act.bind]
  rcases m s with ⟨fl, s1, l1⟩
  cases fl with
  | ret r e => rfl
  | next a =>
    simp only
    rcases f a s1 with ⟨fl2, s2, l2⟩
    cases fl2 with
    | ret r e => rfl
    | next b =>
      simp only
      rcases g b s2 with ⟨fl3, s3, l3⟩
      simp [List.append_assoc]

theorem pure_bind_act {σ α β : Type} (a : α) (f : α → Act σ β) :
    Act.bind (Act.pure a) f = f a := by
  funext s
  simp [Act.bind, Act.pure]

theorem bind_apply_next {σ α β : Type} {m : Act σ α} {f : α → Act σ β} {s s1 : σ} {a : α} {l1 : List Event}
    (h : m s = ⟨Flow.next a, s1, l1⟩) :
    Act.bind m f s = ⟨(f a s1).out, (f a s1).st, l1 ++ (f a s1).log⟩ := by
  simp only [Act.bind, h]

theorem bind_apply_ret {σ α β : Type} {m : Act σ α} {f : α → Act σ β} {s s1 : σ} {r : Result} {e : Option Err}
    {l1 : List Event} (h : m s = ⟨Flow.ret r e, s1, l1⟩) :
    Act.bind m f s = ⟨Flow.ret r e, s1, l1⟩ := by
  simp only [Act.bind, h]

theorem bind_pure_out {σ α β : Type} (m : Act σ α) (b : β) (s : σ) (b1 : β)
    (h : (Act.bind m (fun _ => Act.pure b) s).out = Flow.next b1) : b1 = b := by
  rcases hm : m s with ⟨fl, s1, l1⟩
  cases fl with
  | ret r e =>
    rw [bind_apply_ret hm] at h
    simp at h
  | next a =>
    rw [bind_apply_next hm] at h
    simpa [Act.pure] using h.symm

theorem create_apply {σ : Type} (c : Client σ) (o : Obj) (s : σ) :
    create c o s = ⟨Flow.next (c.create o s).1, (c.create o s).2, [Event.create o (c.create o s).1]⟩ := rfl

theorem get_apply {σ : Type} (c : Client σ) (k : Kind) (name ns : String) (s : σ) :
    get c k name ns s =
      ⟨Flow.next (c.get k name ns s).1, (c.get k name ns s).2, [Event.get k name ns (c.get k name ns s).1]⟩ := rfl

theorem update_apply {σ : Type} (c : Client σ) (o : Obj) (s : σ) :
    update c o s = ⟨Flow.next (c.update o s).1, (c.update o s).2, [Event.update o (c.update o s).1]⟩ := rfl

theorem patch_apply {σ : Type} (c : Client σ) (o : Obj) (s : σ) :
    patch c o s = ⟨Flow.next (c.patch o s).1, (c.patch o s).2, [Event.patch o (c.patch o s).1]⟩ := rfl

/-! ## The loop as a list of records -/

theorem tenantBody_eq {σ : Type} (c : Client σ) (d : Deps) (w : Workshop) (ns h : String) (id : Nat) (a : Acc) :
    tenantBody c d w ns h id a =
      Act.bind (runItems c (tenantItems d w ns id (accumulate w h id a)))
        (fun _ => Act.pure (accumulate w h id a)) := by
  simp only [tenantBody, tenantItems, runItems, runItem, bind_eq, pure_eq, bind_assoc_act, pure_bind_act]
  rfl

theorem runItems_append {σ : Type} (c : Client σ) (l1 l2 : List Item) :
    runItems c (l1 ++ l2) = Act.bind (runItems c l1) (fun _ => runItems c l2) := by
  induction l1 with
  | nil => simp [runItems, pure_eq, pure_bind_act]
  | cons it rest ih =>
    show runItems c (it :: (rest ++ l2)) = _
    simp only [runItems, bind_eq, ih, bind_assoc_act]

theorem tenantLoop_eq {σ : Type} (c : Client σ) (d : Deps) (w : Workshop) (ns h : String) (n id : Nat) (a : Acc) :
    tenantLoop c d w ns h n id a =
      Act.bind (runItems c (loopItems d w ns h n id a)) (fun _ => Act.pure (accFold w h n id a)) := by
  induction n generalizing id a with
  | zero => simp [tenantLoop, loopItems, runItems, accFold, pure_eq, pure_bind_act]
  | succ n ih =>
    simp only [tenantLoop, loopItems, accFold, bind_eq, tenantBody_eq, ih, runItems_append,
      bind_assoc_act, pure_bind_act]

/-- When the tenant loop runs to its end, its variables are those of `accFold`. -/
theorem tenantLoop_next {σ : Type} {c : Client σ} {d : Deps} {w : Workshop} {ns h : String} {n id : Nat}
    {a a1 : Acc} {s0 : σ}
    (hrun : (tenantLoop c d w ns h n id a s0).out = Flow.next a1) : a1 = accFold w h n id a := by
  rw [tenantLoop_eq] at hrun
  exact bind_pure_out _ _ _ _ hrun

/-! ## The namespace list -/

theorem accFold_namespaceList_go (w : Workshop) (h : String) (n id : Nat) (a : Acc) (hid : 2 ≤ id) :
    (accFold w h n id a).namespaceList =
      String.intercalate.go a.namespaceList "," ((List.range' id n).map (projectName w)) := by
  induction n generalizing id a with
  | zero => simp [accFold, String.intercalate.go]
  | succ n ih =>
    have h1 : id ≠ 1 := by omega
    rw [accFold, ih (id + 1) _ (by omega)]
    simp [accumulate, h1, List.range'_succ, String.intercalate.go]

theorem accFold_namespaceList (w : Workshop) (h : String) (N : Nat) (labels : StrMap) :
    (accFold w h N 1 (accInit labels)).namespaceList =
      ",".intercalate ((List.range' 1 N).map (projectName w)) := by
  cases N with
  | zero => simp [accFold, accInit, String.intercalate]
  | succ n =>
    rw [accFold, accFold_namespaceList_go w h n 2 _ (by omega)]
    simp [accumulate, List.range'_succ, String.intercalate]

/-! ## The policy text -/

theorem accFold_argocdPolicy (w : Workshop) (h : String) (n id : Nat) (a : Acc) :
    (accFold w h n id a).argocdPolicy.data =
      a.argocdPolicy.data ++ (List.range' id n).flatMap (fun k => (userPolicy w k).data) := by
  induction n generalizing id a with
  | zero => simp [accFold]
  | succ n ih =>
    rw [accFold, ih]
    simp [accumulate, List.range'_succ, String.data_append]

set_option maxRecDepth 20000 in
theorem userPolicy_data (w : Workshop) (id : Nat) :
    (userPolicy w id).data = ((tenantLines w id).map String.data).flatMap (fun l => l ++ ['\n']) := by
  have e1 : ("/*, allow\np, " : String) = "/*, allow" ++ "\n" ++ "p, " := by decide
  have e2 : (", clusters, get, https://kubernetes.default.svc, allow\np, " : String) =
      ", clusters, get, https://kubernetes.default.svc, allow" ++ "\n" ++ "p, " := by decide
  have e3 : (", allow\np, " : String) = ", allow" ++ "\n" ++ "p, " := by decide
  have e4 : ("/*, allow\ng, " : String) = "/*, allow" ++ "\n" ++ "g, " := by decide
  have e5 : ("\n" : String).data = ['\n'] := rfl
  simp only [userPolicy, tenantLines, e1, e2, e3, e4, String.data_append, e5, List.map_cons, List.map_nil,
    List.flatMap_cons, List.flatMap_nil, List.append_assoc, List.singleton_append, List.cons_append,
    List.nil_append, List.append_nil]

theorem splitLines_line (l rest : List Char) (hl : '\n' ∉ l) :
    splitLines (l ++ '\n' :: rest) = l :: splitLines rest := by
  induction l with
  | nil => simp [splitLines]
  | cons c cs ih =>
    have hc : c ≠ '\n' := fun e => hl (by simp [e])
    have hcs : '\n' ∉ cs := fun e => hl (by simp [e])
    simp [splitLines, hc, ih hcs]

theorem splitLines_flatMap (ls : List (List Char)) (hls : ∀ l ∈ ls, '\n' ∉ l) :
    splitLines (ls.flatMap (fun l => l ++ ['\n'])) = ls := by
  induction ls with
  | nil => simp [splitLines]
  | cons l rest ih =>
    have h1 : '\n' ∉ l := hls l (by simp)
    have h2 : ∀ x ∈ rest, '\n' ∉ x := fun x hx => hls x (by simp [hx])
    simp only [List.flatMap_cons, List.append_assoc, List.singleton_append]
    rw [splitLines_line _ _ h1, ih h2]

theorem flatMap_userPolicy_data (w : Workshop) (ks : List Nat) :
    ks.flatMap (fun k => (userPolicy w k).data) =
      ((ks.flatMap (tenantLines w)).map String.data).flatMap (fun l => l ++ ['\n']) := by
  induction ks with
  | nil => rfl
  | cons k ks ih =>
    rw [List.flatMap_cons, ih, userPolicy_data]
    simp only [List.flatMap_cons, List.map_append, List.flatMap_append]

theorem tenantLines_no_lf (w : Workshop) (id : Nat) (hs : '\n' ∉ w.stagingName.data) :
    ∀ l ∈ (tenantLines w id).map String.data, '\n' ∉ l := by
  have hn := lf_not_mem_toString id
  have q1 : '\n' ∉ ("p, " : String).data := by decide
  have q2 : '\n' ∉ (", applications, *, " : String).data := by decide
  have q3 : '\n' ∉ ("/*, allow" : String).data := by decide
  have q4 : '\n' ∉ (", clusters, get, https://kubernetes.default.svc, allow" : String).data := by decide
  have q5 : '\n' ∉ (", projects, *," : String).data := by decide
  have q6 : '\n' ∉ (", allow" : String).data := by decide
  have q7 : '\n' ∉ (", repositories, *, http://gitea-server.gitea.svc:3000/" : String).data := by decide
  have q8 : '\n' ∉ ("g, " : String).data := by decide
  have q9 : '\n' ∉ (", " : String).data := by decide
  have q10 : '\n' ∉ ("role:" : String).data := by decide
  have q11 : '\n' ∉ ("user" : String).data := by decide
  intro l hl
  simp only [tenantLines, userRole, username, projectName, List.map_cons, List.map_nil, List.mem_cons,
    List.mem_singleton, List.not_mem_nil, or_false, String.data_append] at hl
  rcases hl with h | h | h | h | h <;> subst h <;>
    simp only [List.mem_append, not_or] <;> tauto

theorem tenantLines_shape (w : Workshop) (id : Nat) :
    ∃ p1 p2 p3 p4 g, tenantLines w id = [p1, p2, p3, p4, g] ∧
      "p,".data <+: p1.data ∧ "p,".data <+: p2.data ∧ "p,".data <+: p3.data ∧ "p,".data <+: p4.data ∧
      "g,".data <+: g.data := by
  have hp : ∀ t : String, "p,".data <+: ("p, " ++ t).data := fun t =>
    ⟨' ' :: t.data, by rw [String.data_append]; rfl⟩
  have hg : ∀ t : String, "g,".data <+: ("g, " ++ t).data := fun t =>
    ⟨' ' :: t.data, by rw [String.data_append]; rfl⟩
  refine ⟨_, _, _, _, _, rfl, ?_, ?_, ?_, ?_, ?_⟩
  · simp only [String.append_assoc]; exact hp _
  · simp only [String.append_assoc]; exact hp _
  · simp only [String.append_assoc]; exact hp _
  · simp only [String.append_assoc]; exact hp _
  · simp only [String.append_assoc]; exact hg _

theorem linesOf_accFold (w : Workshop) (h : String) (N : Nat) (labels : StrMap)
    (hs : '\n' ∉ w.stagingName.data) :
    linesOf (accFold w h N 1 (accInit labels)).argocdPolicy = (List.range' 1 N).flatMap (tenantLines w) := by
  have e : (accFold w h N 1 (accInit labels)).argocdPolicy.data =
      (((List.range' 1 N).flatMap (tenantLines w)).map String.data).flatMap (fun l => l ++ ['\n']) := by
    rw [accFold_argocdPolicy, flatMap_userPolicy_data]
    rfl
  rw [linesOf, e, splitLines_flatMap]
  · simp [List.map_map, Function.comp_def]
  · intro l hl
    simp only [List.mem_map, List.mem_flatMap] at hl
    obtain ⟨s, ⟨k, _, hk⟩, rfl⟩ := hl
    exact tenantLines_no_lf w k hs _ (List.mem_map_of_mem _ hk)

theorem length_flatMap_tenantLines (w : Workshop) (ks : List Nat) :
    (ks.flatMap (tenantLines w)).length = 5 * ks.length := by
  induction ks with
  | nil => rfl
  | cons k ks ih =>
    simp only [List.flatMap_cons, List.length_append, ih, List.length_cons]
    simp [tenantLines]
    omega

/-! ## The aggregate maps -/

theorem mapSet_of_not_mem (m : StrMap) (k v : String) (hk : ∀ p ∈ m, p.1 ≠ k) :
    mapSet m k v = m ++ [(k, v)] := by
  induction m with
  | nil => rfl
  | cons p rest ih =>
    obtain ⟨k0, v0⟩ := p
    have h0 : k0 ≠ k := hk (k0, v0) (by simp)
    simp only [mapSet, h0, if_false, List.cons_append]
    rw [ih (fun q hq => hk q (by simp [hq]))]

theorem username_inj {i j : Nat} (h : username i = username j) : i = j :=
  toString_nat_inj (string_append_left_cancel h)

theorem passwordKey_inj {i j : Nat}
    (h : "accounts." ++ username i ++ ".password" = "accounts." ++ username j ++ ".password") : i = j :=
  username_inj (string_append_left_cancel (string_append_right_cancel h))

theorem loginKey_inj {i j : Nat} (h : "accounts." ++ username i = "accounts." ++ username j) : i = j :=
  username_inj (string_append_left_cancel h)

theorem accFold_secretData (w : Workshop) (h : String) (n id : Nat) (a : Acc)
    (hk : ∀ p ∈ a.secretData, ∃ j, j < id ∧ p.1 = "accounts." ++ username j ++ ".password") :
    (accFold w h n id a).secretData =
      a.secretData ++ (List.range' id n).map (fun i => ("accounts." ++ username i ++ ".password", h)) := by
  induction n generalizing id a with
  | zero => simp [accFold]
  | succ n ih =>
    have hset : (accumulate w h id a).secretData =
        a.secretData ++ [("accounts." ++ username id ++ ".password", h)] := by
      simp only [accumulate]
      apply mapSet_of_not_mem
      intro p hp e
      obtain ⟨j, hj, hpj⟩ := hk p hp
      rw [hpj] at e
      have := passwordKey_inj e
      omega
    rw [accFold, ih, hset]
    · simp [List.range'_succ]
    · intro p hp
      rw [hset] at hp
      rcases List.mem_append.mp hp with hp | hp
      · obtain ⟨j, hj, hpj⟩ := hk p hp
        exact ⟨j, by omega, hpj⟩
      · simp only [List.mem_singleton] at hp
        exact ⟨id, by omega, by rw [hp]⟩

theorem accFold_configMapData (w : Workshop) (h : String) (n id : Nat) (a : Acc)
    (hk : ∀ p ∈ a.configMapData, ∃ j, j < id ∧ p.1 = "accounts." ++ username j) :
    (accFold w h n id a).configMapData =
      a.configMapData ++ (List.range' id n).map (fun i => ("accounts." ++ username i, "login")) := by
  induction n generalizing id a with
  | zero => simp [accFold]
  | succ n ih =>
    have hset : (accumulate w h id a).configMapData =
        a.configMapData ++ [("accounts." ++ username id, "login")] := by
      simp only [accumulate]
      apply mapSet_of_not_mem
      intro p hp e
      obtain ⟨j, hj, hpj⟩ := hk p hp
      rw [hpj] at e
      have := loginKey_inj e
      omega
    rw [accFold, ih, hset]
    · simp [List.range'_succ]
    · intro p hp
      rw [hset] at hp
      rcases List.mem_append.mp hp with hp | hp
      · obtain ⟨j, hj, hpj⟩ := hk p hp
        exact ⟨j, by omega, hpj⟩
      · simp only [List.mem_singleton] at hp
        exact ⟨id, by omega, by rw [hp]⟩

theorem passwordKey_eq (i : Nat) :
    "accounts." ++ username i ++ ".password" = "accounts.user" ++ toString i ++ ".password" := by
  apply String.ext
  simp only [username, String.data_append, List.append_assoc]
  rfl

theorem loginKey_eq (i : Nat) : "accounts." ++ username i = "accounts.user" ++ toString i := by
  apply String.ext
  simp only [username, String.data_append, List.append_assoc]
  rfl

/-! ## Claims on the aggregates of the tenant loop -/

/-- C1: for every tenant count `N` and staging-name template, when the tenant loop of `addGitOps`
has run its `N` iterations the namespace list is the names `s1, ..., sN` (template followed by the
decimal index) joined by one comma each, in ascending index order, with no comma before or after. -/
theorem C1_namespaceList_joined {σ : Type} (c : Client σ) (d : Deps) (w : Workshop) (ns h : String)
    (labels : StrMap) (N : Nat) (s0 : σ) (a : Acc)
    (hrun : (tenantLoop c d w ns h (Int.toNat (N : Int)) 1 (accInit labels) s0).out = Flow.next a) :
    a.namespaceList = ",".intercalate ((List.range' 1 N).map (fun i => w.stagingName ++ toString i)) := by
  rw [Int.toNat_ofNat] at hrun
  rw [tenantLoop_next hrun, accFold_namespaceList]
  rfl

/-- Witness of C1: three tenants and the template `proj` on the empty in-memory store give `proj1,proj2,proj3`. -/
theorem C1_namespaceList_joined_witness :
    (tenantLoop sampleClient sampleDeps sampleWorkshop "argocd" "h" (Int.toNat ((3 : Nat) : Int)) 1
        (accInit baseLabels) emptyMem).out
      = Flow.next (accFold sampleWorkshop "h" 3 1 (accInit baseLabels)) ∧
    (accFold sampleWorkshop "h" 3 1 (accInit baseLabels)).namespaceList = "proj1,proj2,proj3" ∧
    (accFold sampleWorkshop "h" 3 1 (accInit baseLabels)).namespaceList =
      ",".intercalate ((List.range' 1 3).map (fun i => sampleWorkshop.stagingName ++ toString i)) :=
  ⟨by rfl, by decide,
    C1_namespaceList_joined sampleClient sampleDeps sampleWorkshop "argocd" "h" baseLabels 3
      emptyMem _ (by rfl)⟩

/-- C2: for every tenant count `N` and every staging-name template without a line break, when the
tenant loop of `addGitOps` has run its `N` iterations the policy text has exactly `5 * N` lines: the
five lines of tenant 1, then those of tenant 2, and so on up to tenant `N`, and the five lines of a
tenant are four lines starting with `p,` followed by one line starting with `g,`. -/
theorem C2_policy_lines {σ : Type} (c : Client σ) (d : Deps) (w : Workshop) (ns h : String)
    (labels : StrMap) (N : Nat) (s0 : σ) (a : Acc)
    (hs : '\n' ∉ w.stagingName.data)
    (hrun : (tenantLoop c d w ns h (Int.toNat (N : Int)) 1 (accInit labels) s0).out = Flow.next a) :
    linesOf a.argocdPolicy = (List.range' 1 N).flatMap (tenantLines w) ∧
    (linesOf a.argocdPolicy).length = 5 * N ∧
    ∀ k, ∃ p1 p2 p3 p4 g, tenantLines w k = [p1, p2, p3, p4, g] ∧
      "p,".data <+: p1.data ∧ "p,".data <+: p2.data ∧ "p,".data <+: p3.data ∧ "p,".data <+: p4.data ∧
      "g,".data <+: g.data := by
  rw [Int.toNat_ofNat] at hrun
  rw [tenantLoop_next hrun, linesOf_accFold w h N labels hs]
  refine ⟨rfl, ?_, tenantLines_shape w⟩
  rw [length_flatMap_tenantLines, List.length_range']

/-- Witness of C2: two tenants and the template `proj` on the empty in-memory store. -/
theorem C2_policy_lines_witness :
    linesOf (accFold sampleWorkshop "h" 2 1 (accInit baseLabels)).argocdPolicy =
      [ "p, role:user1, applications, *, proj1/*, allow",
        "p, role:user1, clusters, get, https://kubernetes.default.svc, allow",
        "p, role:user1, projects, *,proj1, allow",
        "p, role:user1, repositories, *, http://gitea-server.gitea.svc:3000/user1/*, allow",
        "g, user1, role:user1",
        "p, role:user2, applications, *, proj2/*, allow",
        "p, role:user2, clusters, get, https://kubernetes.default.svc, allow",
        "p, role:user2, projects, *,proj2, allow",
        "p, role:user2, repositories, *, http://gitea-server.gitea.svc:3000/user2/*, allow",
        "g, user2, role:user2" ] ∧
    (linesOf (accFold sampleWorkshop "h" 2 1 (accInit baseLabels)).argocdPolicy).length = 5 * 2 :=
  ⟨by decide,
    (C2_policy_lines sampleClient sampleDeps sampleWorkshop "argocd" "h" baseLabels 2
      emptyMem _ (by decide) (by rfl)).2.1⟩

/-- C3: for every tenant count `N`, when the tenant loop of `addGitOps` has run its `N` iterations the
credential map is exactly the `N` entries `accounts.user1.password`, ..., `accounts.userN.password`,
each mapped to the hashed credential `h` computed before the loop, and the login map is exactly the
`N` entries `accounts.user1`, ..., `accounts.userN`, each mapped to `login`; the keys are distinct. -/
theorem C3_aggregate_maps {σ : Type} (c : Client σ) (d : Deps) (w : Workshop) (ns h : String)
    (labels : StrMap) (N : Nat) (s0 : σ) (a : Acc)
    (hrun : (tenantLoop c d w ns h (Int.toNat (N : Int)) 1 (accInit labels) s0).out = Flow.next a) :
    a.secretData = (List.range' 1 N).map (fun i => ("accounts.user" ++ toString i ++ ".password", h)) ∧
    a.configMapData = (List.range' 1 N).map (fun i => ("accounts.user" ++ toString i, "login")) ∧
    a.secretData.length = N ∧ a.configMapData.length = N ∧
    (a.secretData.map Prod.fst).Nodup ∧ (a.configMapData.map Prod.fst).Nodup := by
  rw [Int.toNat_ofNat] at hrun
  have hs : a.secretData =
      (List.range' 1 N).map (fun i => ("accounts.user" ++ toString i ++ ".password", h)) := by
    rw [tenantLoop_next hrun, accFold_secretData w h N 1 _ (by simp [accInit])]
    simp [accInit, passwordKey_eq]
  have hc : a.configMapData = (List.range' 1 N).map (fun i => ("accounts.user" ++ toString i, "login")) := by
    rw [tenantLoop_next hrun, accFold_configMapData w h N 1 _ (by simp [accInit])]
    simp [accInit, loginKey_eq]
  refine ⟨hs, hc, by simp [hs], by simp [hc], ?_, ?_⟩
  · rw [hs, List.map_map]
    refine List.Nodup.map ?_ (List.nodup_range' 1 N)
    intro i j hij
    simp only [Function.comp] at hij
    exact toString_nat_inj (string_append_left_cancel (string_append_right_cancel hij))
  · rw [hc, List.map_map]
    refine List.Nodup.map ?_ (List.nodup_range' 1 N)
    intro i j hij
    simp only [Function.comp] at hij
    exact toString_nat_inj (string_append_left_cancel hij)

/-- Witness of C3: three tenants on the empty in-memory store. -/
theorem C3_aggregate_maps_witness :
    (accFold sampleWorkshop "h" 3 1 (accInit baseLabels)).secretData =
      [("accounts.user1.password", "h"), ("accounts.user2.password", "h"), ("accounts.user3.password", "h")] ∧
    (accFold sampleWorkshop "h" 3 1 (accInit baseLabels)).configMapData =
      [("accounts.user1", "login"), ("accounts.user2", "login"), ("accounts.user3", "login")] ∧
    (accFold sampleWorkshop "h" 3 1 (accInit baseLabels)).secretData.length = 3 :=
  ⟨by decide, by decide,
    (C3_aggregate_maps sampleClient sampleDeps sampleWorkshop "argocd" "h" baseLabels 3
      emptyMem _ (by rfl)).2.2.1⟩

/-! ## The in-memory store -/

theorem lookup_key {m : Mem} {k : Key} {o : Obj} (h : m.lookup k = some o) : keyOf o = k := by
  have := List.find?_some h
  simpa using this

theorem lookup_replace_self {m : Mem} {o x : Obj} (h : m.lookup (keyOf o) = some x) :
    (m.replace o).lookup (keyOf o) = some o := by
  obtain ⟨objs, n⟩ := m
  simp only [Mem.lookup, Mem.replace] at h ⊢
  induction objs with
  | nil => simp at h
  | cons y ys ih =>
    by_cases hy : keyOf y = keyOf o
    · simp [List.find?, hy]
    · simp only [List.find?, hy, decide_False] at h
      simp only [List.map_cons, hy, if_false, List.find?, decide_False]
      exact ih h

theorem lookup_replace_other {m : Mem} {o : Obj} {k : Key} (hk : k ≠ keyOf o) :
    (m.replace o).lookup k = m.lookup k := by
  obtain ⟨objs, n⟩ := m
  simp only [Mem.lookup, Mem.replace]
  induction objs with
  | nil => rfl
  | cons y ys ih =>
    have hok : keyOf o ≠ k := fun e => hk e.symm
    by_cases hy : keyOf y = keyOf o
    · have hyk : keyOf y ≠ k := fun e => hk (e ▸ hy)
      simp only [List.map_cons, hy, if_true, List.find?_cons, hok, hyk, decide_False]
      exact ih
    · by_cases hyk : keyOf y = k
      · subst hyk
        simp only [List.map_cons, hy, if_false, List.find?_cons, decide_True]
      · simp only [List.map_cons, hy, if_false, List.find?_cons, hyk, decide_False]
        exact ih

theorem replace_hashes (m : Mem) (o : Obj) : (m.replace o).hashes = m.hashes := rfl

theorem replicate_append_cons {α : Type} (n : Nat) (a : α) (l : List α) :
    List.replicate n a ++ a :: l = List.replicate (n + 1) a ++ l := by
  rw [List.replicate_succ', List.append_assoc]
  rfl

/-! ## `PatchOauth` on the in-memory store -/

theorem memClient_patch (approve : Option Err) (ready : String → String → Bool)
    (hash : Nat → String → Except Err String) (o : Obj) (m : Mem) :
    (memClient approve ready hash).patch o m =
      match m.lookup (keyOf o) with
      | some _ => (none, m.replace o)
      | none => (some Err.notFound, m) := rfl

theorem patchOauthLoop_mem (approve : Option Err) (ready : String → String → Bool)
    (hash : Nat → String → Except Err String) (vs : List IdentityProvider) :
    ∀ (cur : Obj) (m : Mem), m.lookup (keyOf cur) = some cur →
      ∃ m1 log1, patchOauthLoop (memClient approve ready hash) vs cur m = ⟨Flow.next (), m1, log1⟩ ∧
        m1.lookup (keyOf cur) =
          some { cur with identityProviders := List.replicate (leadingOthers vs) htpassProvider ++ cur.identityProviders } ∧
        (∀ k, k ≠ keyOf cur → m1.lookup k = m.lookup k) ∧
        patchCount log1 = leadingOthers vs := by
  induction vs with
  | nil =>
    intro cur m h
    exact ⟨m, [], rfl, by simpa [leadingOthers] using h, fun _ _ => rfl, by simp [leadingOthers, patchCount]⟩
  | cons v rest ih =>
    intro cur m h
    by_cases hv : v.name = "htpass-workshop-users"
    · refine ⟨m, [], ?_, by simpa [leadingOthers, hv] using h, fun _ _ => rfl,
        by simp [leadingOthers, hv, patchCount]⟩
      simp [patchOauthLoop, hv, bind_eq, pure_eq, Act.bind, Act.pure]
    · have hkey : keyOf { cur with identityProviders := [htpassProvider] ++ cur.identityProviders } = keyOf cur := rfl
      have hl := @lookup_replace_self m { cur with identityProviders := [htpassProvider] ++ cur.identityProviders }
        cur (by rw [hkey]; exact h)
      obtain ⟨m1, log1, hrun, hlook, hframe, hcount⟩ :=
        ih { cur with identityProviders := [htpassProvider] ++ cur.identityProviders }
          (m.replace { cur with identityProviders := [htpassProvider] ++ cur.identityProviders }) hl
      have hp : patch (memClient approve ready hash)
          { cur with identityProviders := [htpassProvider] ++ cur.identityProviders } m =
          ⟨Flow.next none, m.replace { cur with identityProviders := [htpassProvider] ++ cur.identityProviders },
            [Event.patch { cur with identityProviders := [htpassProvider] ++ cur.identityProviders } none]⟩ := by
        rw [patch_apply, memClient_patch, hkey, h]
      refine ⟨m1, Event.patch { cur with identityProviders := [htpassProvider] ++ cur.identityProviders } none :: log1,
        ?_, ?_, ?_, ?_⟩
      · simp only [patchOauthLoop, bind_eq, pure_eq, hv, ne_eq, not_false_eq_true, if_true, if_false]
        rw [bind_apply_next (bind_apply_next hp)]
        simp only [Act.pure, hrun, List.append_nil]
        rfl
      · rw [hkey] at hlook
        rw [hlook]
        simp only [leadingOthers, List.takeWhile, hv, ne_eq, not_false_eq_true, decide_True, List.length_cons,
          List.singleton_append]
        rw [replicate_append_cons]
      · intro k hk
        rw [hframe k (by rw [hkey]; exact hk)]
        exact lookup_replace_other (by rw [hkey]; exact hk)
      · simp only [patchCount, List.filter_cons, Event.isPatch, if_true, List.length_cons] at hcount ⊢
        rw [hcount]
        simp [leadingOthers, hv]

theorem memClient_get (approve : Option Err) (ready : String → String → Bool)
    (hash : Nat → String → Except Err String) (k : Kind) (name ns : String) (m : Mem) :
    (memClient approve ready hash).get k name ns m =
      match m.lookup ⟨k, ns, name⟩ with
      | some o => (Except.ok o, m)
      | none => (Except.error Err.notFound, m) := rfl

theorem patchOauth_mem (approve : Option Err) (ready : String → String → Bool)
    (hash : Nat → String → Except Err String) (m : Mem) (o : Obj) (ho : m.lookup oauthKey = some o) :
    (PatchOauth (memClient approve ready hash) m).result = ({}, none) ∧
    (PatchOauth (memClient approve ready hash) m).st.lookup oauthKey =
      some { o with identityProviders :=
        List.replicate (leadingOthers o.identityProviders) htpassProvider ++ o.identityProviders } ∧
    (∀ k, k ≠ oauthKey → (PatchOauth (memClient approve ready hash) m).st.lookup k = m.lookup k) ∧
    patchCount (PatchOauth (memClient approve ready hash) m).log = leadingOthers o.identityProviders := by
  have hk : keyOf o = oauthKey := lookup_key ho
  have ho1 : m.lookup ⟨Kind.oauth, "", "cluster"⟩ = some o := ho
  obtain ⟨m1, log1, hrun, hlook, hframe, hcount⟩ :=
    patchOauthLoop_mem approve ready hash o.identityProviders o m (by rw [hk]; exact ho)
  have hbody : PatchOauth (memClient approve ready hash) m =
      ⟨({}, none), m1, Event.get Kind.oauth "cluster" "" (Except.ok o) :: log1⟩ := by
    simp only [PatchOauth, Act.run, patchOauthBody, bind_eq, pure_eq, Act.bind, Act.pure, get,
      memClient_get, ho1, hrun, List.append_nil, List.singleton_append]
  rw [hbody]
  rw [hk] at hlook hframe
  refine ⟨rfl, hlook, hframe, ?_⟩
  simp only [patchCount, List.filter_cons, Event.isPatch] at hcount ⊢
  simpa using hcount

/-! ## Claims on `PatchOauth` -/

/-- C4 (the code departs from the claim): with no entry named `htpass-workshop-users` in the list,
`PatchOauth` issues one patch per entry of the list, not one patch in all. On the empty list it issues
none and the list stays empty; on a list of two other providers it issues two and the new entry is
put in front twice. -/
theorem C4_patchOauth_patches_per_entry :
    patchCount (PatchOauth sampleClient (oauthMem [])).log = 0 ∧
    providersOf (PatchOauth sampleClient (oauthMem [])).st = some [] ∧
    patchCount (PatchOauth sampleClient (oauthMem [otherProvider "ldap", otherProvider "github"])).log = 2 ∧
    providersOf (PatchOauth sampleClient (oauthMem [otherProvider "ldap", otherProvider "github"])).st =
      some [htpassProvider, htpassProvider, otherProvider "ldap", otherProvider "github"] := by
  decide

/-- C5 (the code departs from the claim): with an entry named `htpass-workshop-users` that is not the
first of the list, `PatchOauth` issues a patch for every entry in front of it, each putting one more
entry of that name in front of the list. -/
theorem C5_patchOauth_patches_before_match :
    patchCount (PatchOauth sampleClient (oauthMem [otherProvider "ldap", htpassProvider])).log = 1 ∧
    providersOf (PatchOauth sampleClient (oauthMem [otherProvider "ldap", htpassProvider])).st =
      some [htpassProvider, otherProvider "ldap", htpassProvider] := by
  decide

/-- C6 (the code departs from the claim): after two invocations of `PatchOauth` in a row the list
started empty has no entry named `htpass-workshop-users`, and the list started with two other
providers has two. -/
theorem C6_patchOauth_twice_count :
    (providersOf (PatchOauth sampleClient (PatchOauth sampleClient (oauthMem [])).st).st).map htpassCount
      = some 0 ∧
    (providersOf (PatchOauth sampleClient
        (PatchOauth sampleClient (oauthMem [otherProvider "ldap", otherProvider "github"])).st).st).map
        htpassCount = some 2 := by
  decide

/-- C7: for every store that applies each patch and every cluster OAuth record in it, `PatchOauth`
returns without error and leaves in the record zero or more new entries followed by the original
provider list: every original provider is still there, unchanged and in its original order; the
other fields of the record and the other records of the store are untouched. -/
theorem C7_patchOauth_keeps_providers (approve : Option Err) (ready : String → String → Bool)
    (hash : Nat → String → Except Err String) (m : Mem) (o : Obj) (ho : m.lookup oauthKey = some o) :
    (PatchOauth (memClient approve ready hash) m).result = ({}, none) ∧
    (∃ j, (PatchOauth (memClient approve ready hash) m).st.lookup oauthKey =
      some { o with identityProviders := List.replicate j htpassProvider ++ o.identityProviders }) ∧
    (∃ j, providersOf (PatchOauth (memClient approve ready hash) m).st =
      some (List.replicate j htpassProvider ++ o.identityProviders)) ∧
    (∀ k, k ≠ oauthKey → (PatchOauth (memClient approve ready hash) m).st.lookup k = m.lookup k) := by
  obtain ⟨h1, h2, h3, _⟩ := patchOauth_mem approve ready hash m o ho
  refine ⟨h1, ⟨_, h2⟩, ⟨leadingOthers o.identityProviders, ?_⟩, h3⟩
  simp [providersOf, h2]

/-- Witness of C7: a store whose provider list holds two providers set up by others. -/
theorem C7_patchOauth_keeps_providers_witness :
    (oauthMem [otherProvider "ldap", otherProvider "github"]).lookup oauthKey =
      some { kind := Kind.oauth, name := "cluster",
             identityProviders := [otherProvider "ldap", otherProvider "github"] } ∧
    ∃ j, providersOf (PatchOauth sampleClient (oauthMem [otherProvider "ldap", otherProvider "github"])).st =
      some (List.replicate j htpassProvider ++ [otherProvider "ldap", otherProvider "github"]) :=
  ⟨by decide,
    (C7_patchOauth_keeps_providers none (fun _ _ => true) (fun n p => Except.ok ("hash" ++ toString n ++ p))
      (oauthMem [otherProvider "ldap", otherProvider "github"])
      { kind := Kind.oauth, name := "cluster",
        identityProviders := [otherProvider "ldap", otherProvider "github"] } (by decide)).2.2.1⟩

/-! ## The body of `addGitOps` over the records of the pass -/

theorem addGitOpsBody_eq {σ : Type} (c : Client σ) (d : Deps) (w : Workshop) (users : Int) (ns : String) :
    addGitOpsBody c d w users ns = passPlan c d w users ns := by
  funext w0
  simp only [addGitOpsBody, passPlan, manageArgocdDefaultClusterConfigSecret, bind_eq, pure_eq,
    tenantLoop_eq, runItems_append, bind_assoc_act, pure_bind_act, aggregateItems, runItems, runItem,
    subscriptionItem, namespaceItem, clusterConfigItem]
  rfl

/-! ## Rules for `Post` -/

theorem post_mono {σ α : Type} {m : Act σ α} {P Q : Flow α → List Event → Prop}
    (h : Post m P) (hPQ : ∀ o l, P o l → Q o l) : Post m Q :=
  fun s => hPQ _ _ (h s)

theorem post_bind {σ α β : Type} {m : Act σ α} {f : α → Act σ β}
    {P : Flow α → List Event → Prop} {Q : α → Flow β → List Event → Prop} {R : Flow β → List Event → Prop}
    (hm : Post m P) (hf : ∀ a, Post (f a) (Q a))
    (hret : ∀ r e l, P (Flow.ret r e) l → R (Flow.ret r e) l)
    (hnext : ∀ a l1 o l2, P (Flow.next a) l1 → Q a o l2 → R o (l1 ++ l2)) :
    Post (Act.bind m f) R := by
  intro s
  have h1 := hm s
  rcases hms : m s with ⟨fl, s1, l1⟩
  rw [hms] at h1
  cases fl with
  | ret r e =>
    rw [bind_apply_ret hms]
    exact hret r e l1 h1
  | next a =>
    rw [bind_apply_next hms]
    exact hnext a l1 _ _ h1 (hf a s1)

theorem post_ite {σ α : Type} {p : Prop} [Decidable p] {m1 m2 : Act σ α} {P : Flow α → List Event → Prop}
    (h1 : p → Post m1 P) (h2 : ¬p → Post m2 P) : Post (if p then m1 else m2) P := by
  by_cases hp : p
  · simpa [hp] using h1 hp
  · simpa [hp] using h2 hp

theorem post_pure {σ α : Type} (a : α) : Post (Act.pure a : Act σ α) (fun o l => o = Flow.next a ∧ l = []) :=
  fun _ => ⟨rfl, rfl⟩

theorem post_ret {σ α : Type} (r : Result) (e : Option Err) :
    Post (ret r e : Act σ α) (fun o l => o = Flow.ret r e ∧ l = []) :=
  fun _ => ⟨rfl, rfl⟩

theorem post_create {σ : Type} (c : Client σ) (o : Obj) :
    Post (create c o) (fun out l => ∃ r, out = Flow.next r ∧ l = [Event.create o r]) :=
  fun _ => ⟨_, rfl, rfl⟩

theorem post_get {σ : Type} (c : Client σ) (k : Kind) (name ns : String) :
    Post (get c k name ns) (fun out l => ∃ r, out = Flow.next r ∧ l = [Event.get k name ns r]) :=
  fun _ => ⟨_, rfl, rfl⟩

theorem post_update {σ : Type} (c : Client σ) (o : Obj) :
    Post (update c o) (fun out l => ∃ r, out = Flow.next r ∧ l = [Event.update o r]) :=
  fun _ => ⟨_, rfl, rfl⟩

theorem post_approveInstallPlan {σ : Type} (c : Client σ) (csv name ns : String) :
    Post (approveInstallPlan c csv name ns)
      (fun out l => ∃ r, out = Flow.next r ∧ l = [Event.approveInstallPlan csv name ns r]) :=
  fun _ => ⟨_, rfl, rfl⟩

theorem post_getDeploymentStatus {σ : Type} (c : Client σ) (name ns : String) :
    Post (getDeploymentStatus c name ns)
      (fun out l => ∃ r, out = Flow.next r ∧ l = [Event.deploymentStatus name ns r]) :=
  fun _ => ⟨_, rfl, rfl⟩

theorem post_generateFromPassword {σ : Type} (c : Client σ) (p : String) :
    Post (generateFromPassword c p) (fun out l => ∃ r, out = Flow.next r ∧ l = [Event.hash p r]) :=
  fun _ => ⟨_, rfl, rfl⟩

/-! ## The calls of one record -/

/-- The calls of a record that is only created: the create, and a `return` only on a failure other
than already-exists. -/
theorem post_createOnly {σ : Type} (c : Client σ) (o : Obj) :
    Post (createOnly c o) (fun out l => ∃ r, l = [Event.create o r] ∧
      ((r = none ∨ r = some Err.alreadyExists) ∧ out = Flow.next () ∨
       (∃ e, r = some e ∧ e ≠ Err.alreadyExists ∧ out = Flow.ret {} (some e)))) := by
  intro s
  simp only [createOnly, bind_eq, pure_eq]
  rw [bind_apply_next (create_apply c o s)]
  refine ⟨(c.create o s).1, ?_, ?_⟩
  · cases (c.create o s).1 with
    | none => simp [Act.pure]
    | some e => by_cases he : e = Err.alreadyExists <;> simp [he, Act.pure, ret]
  · cases (c.create o s).1 with
    | none => simp [Act.pure]
    | some e => by_cases he : e = Err.alreadyExists <;> simp [he, Act.pure, ret]

/-- The calls of a record that is created and else compared: the create, then when it answered
already-exists a get, then when the comparison failed an update. -/
theorem post_createOrUpdate {σ : Type} (c : Client σ) (o : Obj) (ns : String)
    (equal : Obj → Bool) (assign : Obj → Obj) :
    Post (createOrUpdate c o ns equal assign) (fun out l => ∃ r rest, l = Event.create o r :: rest ∧
      (r = none → rest = [] ∧ out = Flow.next ()) ∧
      (∀ e ∈ rest, (∃ res, e = Event.get o.kind o.name ns res) ∨ (∃ x r2, e = Event.update x r2)) ∧
      (out = Flow.next () ∨ ∃ e, out = Flow.ret {} (some e))) := by
  intro s
  simp only [createOrUpdate, bind_eq, pure_eq]
  rw [bind_apply_next (create_apply c o s)]
  cases (c.create o s).1 with
  | none => exact ⟨none, [], by simp [Act.pure], by simp [Act.pure], by simp, by simp [Act.pure]⟩
  | some e =>
    by_cases he : e = Err.alreadyExists
    · simp only [he, ne_eq, not_true_eq_false, if_false]
      rw [bind_apply_next (get_apply c o.kind o.name ns _)]
      cases (c.get o.kind o.name ns (c.create o s).2).1 with
      | error e1 =>
        exact ⟨some Err.alreadyExists, [Event.get o.kind o.name ns (Except.error e1)], by simp [ret],
          by simp, by simp, by simp [ret]⟩
      | ok found =>
        cases heq : equal found with
        | true =>
          exact ⟨some Err.alreadyExists, [Event.get o.kind o.name ns (Except.ok found)],
            by simp [heq, Act.pure], by simp, by simp, by simp [heq, Act.pure]⟩
        | false =>
          simp only [heq, Bool.not_false, if_true]
          rw [bind_apply_next (update_apply c _ _)]
          cases (c.update (assign found) (c.get o.kind o.name ns (c.create o s).2).2).1 with
          | none =>
            exact ⟨some Err.alreadyExists,
              [Event.get o.kind o.name ns (Except.ok found), Event.update (assign found) none],
              by simp [Act.pure], by simp, by simp, by simp [Act.pure]⟩
          | some e2 =>
            exact ⟨some Err.alreadyExists,
              [Event.get o.kind o.name ns (Except.ok found), Event.update (assign found) (some e2)],
              by simp [ret], by simp, by simp, by simp [ret]⟩
    · exact ⟨some e, [], by simp [he, ret], by simp, by simp, by simp [he, ret]⟩

theorem post_runItem {σ : Type} (c : Client σ) (it : Item) : Post (runItem c it) (ItemPost it) := by
  cases it with
  | only o =>
    refine post_mono (post_createOnly c o) ?_
    rintro out l ⟨r, rfl, h⟩
    refine ⟨r, [], rfl, ?_, by simp, ?_⟩
    · rintro rfl
      rcases h with ⟨_, h⟩ | ⟨e, he, _⟩
      · exact ⟨rfl, h⟩
      · simp at he
    · rcases h with ⟨_, h⟩ | ⟨e, _, _, h⟩
      · exact Or.inl h
      · exact Or.inr ⟨e, h⟩
  | upd o eq asg =>
    refine post_mono (post_createOrUpdate c o o.ns eq asg) ?_
    rintro out l ⟨r, rest, rfl, h1, h2, h3⟩
    refine ⟨r, rest, rfl, h1, ?_, h3⟩
    intro e he
    rcases h2 e he with ⟨res, rfl⟩ | h
    · exact Or.inl ⟨_, _, _, _, rfl⟩
    · exact Or.inr h

theorem callItem_apply {σ : Type} (c : Client σ) (it : Item) (s : σ) :
    callItem c it s =
      ⟨Flow.next (match (runItem c it s).out with
          | Flow.next _ => ({}, none)
          | Flow.ret r e => (r, e)),
        (runItem c it s).st, (runItem c it s).log⟩ := by
  simp only [callItem, call, Act.bind, Act.pure]
  rcases runItem c it s with ⟨o, s1, l⟩
  cases o <;> simp

theorem post_callItem {σ : Type} (c : Client σ) (it : Item) (P : List Event → Prop)
    (h : Post (runItem c it) (fun _ l => P l)) : Post (callItem c it) (fun _ l => P l) := by
  intro s
  rw [callItem_apply]
  exact h s

theorem allOk_append {l1 l2 : List Event} : AllOk (l1 ++ l2) ↔ AllOk l1 ∧ AllOk l2 := by
  simp only [AllOk, List.mem_append]
  constructor
  · intro h
    exact ⟨fun e he => h e (Or.inl he), fun e he => h e (Or.inr he)⟩
  · rintro ⟨h1, h2⟩ e (he | he)
    · exact h1 e he
    · exact h2 e he

theorem allOk_nil : AllOk [] := fun _ h => by simp at h

/-- Sequencing when every call succeeds: the first part goes on, and the second part is looked at
after the calls of the first. -/
theorem post_okBind {σ α β : Type} {m : Act σ α} {f : α → Act σ β}
    {R1 : α → List Event → Prop} {T : Flow β → List Event → Prop}
    (hm : Post m (fun o l => AllOk l → ∃ a, o = Flow.next a ∧ R1 a l))
    (hf : ∀ a l1, R1 a l1 → Post (f a) (fun o l2 => AllOk l2 → T o (l1 ++ l2))) :
    Post (Act.bind m f) (fun o l => AllOk l → T o l) := by
  intro s
  have h1 := hm s
  rcases hms : m s with ⟨fl, s1, l1⟩
  rw [hms] at h1
  cases fl with
  | ret r e =>
    rw [bind_apply_ret hms]
    intro hok
    obtain ⟨a, ha, _⟩ := h1 hok
    simp at ha
  | next a =>
    rw [bind_apply_next hms]
    intro hok
    obtain ⟨hok1, hok2⟩ := allOk_append.mp hok
    obtain ⟨a1, ha, hR⟩ := h1 hok1
    simp only [Flow.next.injEq] at ha
    subst ha
    exact hf a l1 hR s1 hok2

theorem post_runItem_ok {σ : Type} (c : Client σ) (it : Item) :
    Post (runItem c it) (fun o l => AllOk l → ∃ a, o = Flow.next a ∧ l = [Event.create it.obj none]) := by
  refine post_mono (post_runItem c it) ?_
  rintro out l ⟨r, rest, rfl, h1, _, _⟩ hok
  have hr : r = none := by
    have := hok (Event.create it.obj r) (by simp)
    cases r with
    | none => rfl
    | some e => simp [Event.ok] at this
  obtain ⟨h2, h3⟩ := h1 hr
  exact ⟨(), h3, by rw [h2, hr]⟩

theorem post_runItems_ok {σ : Type} (c : Client σ) (items : List Item) :
    Post (runItems c items)
      (fun o l => AllOk l → o = Flow.next () ∧ l = items.map (fun it => Event.create it.obj none)) := by
  induction items with
  | nil => exact fun _ _ => ⟨rfl, rfl⟩
  | cons it rest ih =>
    simp only [runItems, bind_eq]
    refine post_okBind (post_runItem_ok c it) ?_
    rintro _ l1 rfl
    refine post_mono ih ?_
    intro o l h hok
    obtain ⟨h1, h2⟩ := h hok
    exact ⟨h1, by simp [h2]⟩

theorem post_runItems_ok_next {σ : Type} (c : Client σ) (items : List Item) :
    Post (runItems c items)
      (fun o l => AllOk l → ∃ a, o = Flow.next a ∧ l = items.map (fun it => Event.create it.obj none)) := by
  refine post_mono (post_runItems_ok c items) ?_
  intro o l hl hok
  exact ⟨(), (hl hok).1, (hl hok).2⟩

theorem post_approve_ok {σ : Type} (c : Client σ) (csv name ns : String) :
    Post (approveInstallPlan c csv name ns) (fun o l => AllOk l → ∃ a, o = Flow.next a ∧
      (a = none ∧ l = [Event.approveInstallPlan csv name ns none])) := by
  refine post_mono (post_approveInstallPlan c csv name ns) ?_
  rintro out l ⟨r, rfl, rfl⟩ hok
  have := hok _ (List.mem_singleton.mpr rfl)
  cases r with
  | none => exact ⟨none, rfl, rfl, rfl⟩
  | some e => simp [Event.ok] at this

theorem post_status_ok {σ : Type} (c : Client σ) (name ns : String) :
    Post (getDeploymentStatus c name ns) (fun o l => AllOk l → ∃ a, o = Flow.next a ∧
      (a = true ∧ l = [Event.deploymentStatus name ns true])) := by
  refine post_mono (post_getDeploymentStatus c name ns) ?_
  rintro out l ⟨r, rfl, rfl⟩ hok
  have := hok _ (List.mem_singleton.mpr rfl)
  cases r with
  | true => exact ⟨true, rfl, rfl, rfl⟩
  | false => simp [Event.ok] at this

theorem post_hash_ok {σ : Type} (c : Client σ) (p : String) :
    Post (generateFromPassword c p) (fun o l => AllOk l → ∃ a, o = Flow.next a ∧
      (∃ h, a = Except.ok h ∧ l = [Event.hash p (Except.ok h)])) := by
  refine post_mono (post_generateFromPassword c p) ?_
  rintro out l ⟨r, rfl, rfl⟩ hok
  have := hok _ (List.mem_singleton.mpr rfl)
  cases r with
  | ok h => exact ⟨_, rfl, h, rfl, rfl⟩
  | error e => simp [Event.ok] at this

theorem post_callItem_ok {σ : Type} (c : Client σ) (it : Item) :
    Post (callItem c it) (fun o l => AllOk l → ∃ a, o = Flow.next a ∧
      (a = ({}, none) ∧ l = [Event.create it.obj none])) := by
  intro s
  have h := post_runItem_ok c it s
  rw [callItem_apply]
  intro hok
  obtain ⟨a, ha, hl⟩ := h hok
  refine ⟨_, rfl, ?_, hl⟩
  rw [ha]

/-- A pass of `addGitOps` in which every call succeeds issues exactly the calls of `passLog` and
ends without requeue and without error. -/
theorem passPlan_ok {σ : Type} (c : Client σ) (d : Deps) (w : Workshop) (users : Int) (ns : String) :
    Post (passPlan c d w users ns) (fun o l => AllOk l →
      (o = Flow.next ({}, none) ∨ o = Flow.ret {} none) ∧ ∃ h, l = passLog d w users ns h) := by
  unfold passPlan
  refine post_okBind (post_runItem_ok c _) ?_
  rintro _ _ rfl
  refine post_okBind (post_approve_ok c _ _ _) ?_
  rintro _ _ ⟨rfl, rfl⟩
  simp only [ne_eq, not_true_eq_false, if_false]
  refine post_okBind (post_status_ok c _ _) ?_
  rintro _ _ ⟨rfl, rfl⟩
  simp only [Bool.not_true, Bool.false_eq_true, if_false]
  refine post_okBind (post_runItem_ok c _) ?_
  rintro _ _ rfl
  refine post_okBind (post_hash_ok c _) ?_
  rintro _ _ ⟨h, rfl, rfl⟩
  simp only
  refine post_okBind (post_runItems_ok_next c _) ?_
  rintro _ _ rfl
  refine post_okBind (post_status_ok c _ _) ?_
  rintro _ _ ⟨rfl, rfl⟩
  simp only [Bool.not_true, Bool.false_eq_true, if_false]
  refine post_okBind (post_callItem_ok c _) ?_
  rintro _ _ ⟨rfl, rfl⟩
  intro s _
  refine ⟨?_, h, ?_⟩
  · by_cases hq : d.isRequeued {} none = true
    · simp [hq, ret]
    · simp [hq, Act.pure]
  · by_cases hq : d.isRequeued {} none = true
    · simp [hq, ret, passLog]
    · simp [hq, Act.pure, passLog]

/-! ## The create calls of a pass -/

theorem loopItems_keys (d : Deps) (w : Workshop) (ns h : String) (n id : Nat) (a : Acc) :
    (loopItems d w ns h n id a).map (fun it => keyOf it.obj) =
      (List.range' id n).flatMap (tenantKeys w ns) := by
  induction n generalizing id a with
  | zero => rfl
  | succ n ih =>
    simp only [loopItems, List.map_append, ih, List.range'_succ, List.flatMap_cons]
    rfl

theorem createsOf_append (l1 l2 : List Event) : createsOf (l1 ++ l2) = createsOf l1 ++ createsOf l2 := by
  simp [createsOf, List.filterMap_append]

theorem createsOf_map_create (items : List Item) :
    createsOf (items.map (fun it => Event.create it.obj none)) = items.map Item.obj := by
  induction items with
  | nil => rfl
  | cons it rest ih =>
    simp only [List.map_cons, createsOf, List.filterMap_cons, Event.created] at ih ⊢
    rw [ih]

theorem clusterConfigSecretData_eq (namespaceList : String) :
    clusterConfigSecretData namespaceList =
      [ ("config", "\x7b\"tlsClientConfig\":\x7b\"insecure\":false\x7d\x7d"), ("name", "in-cluster"),
        ("namespaces", namespaceList), ("server", "https://kubernetes.default.svc") ] := by
  have h1 : ("config" : String) ≠ "name" := by decide
  have h2 : ("config" : String) ≠ "namespaces" := by decide
  have h3 : ("config" : String) ≠ "server" := by decide
  have h4 : ("name" : String) ≠ "namespaces" := by decide
  have h5 : ("name" : String) ≠ "server" := by decide
  have h6 : ("namespaces" : String) ≠ "server" := by decide
  simp [clusterConfigSecretData, mapSet, h1, h2, h3, h4, h5, h6]

theorem createsOf_passLog (d : Deps) (w : Workshop) (users : Int) (ns h : String) :
    createsOf (passLog d w users ns h) =
      [(subscriptionItem w).obj, (namespaceItem ns).obj] ++
      (loopItems d w ns h users.toNat 1 (accInit baseLabels)).map Item.obj ++
      (aggregateItems d ns (accFold w h users.toNat 1 (accInit baseLabels))).map Item.obj ++
      [(clusterConfigItem d ns (clusterConfigLabels (accFold w h users.toNat 1 (accInit baseLabels)))
        (accFold w h users.toNat 1 (accInit baseLabels)).namespaceList).obj] := by
  simp only [passLog, createsOf_append, createsOf_map_create, List.map_append]
  simp [createsOf, Event.created]

theorem addGitOps_ok {σ : Type} (c : Client σ) (d : Deps) (w : Workshop) (users : Int) (ns : String) (s : σ)
    (hok : AllOk (addGitOps c d w users ns s).log) :
    (addGitOps c d w users ns s).result = ({}, none) ∧
    ∃ h, (addGitOps c d w users ns s).log = passLog d w users ns h := by
  have hp := passPlan_ok c d w users ns s
  simp only [addGitOps, Act.run, addGitOpsBody_eq] at hok ⊢
  rcases hrun : passPlan c d w users ns s with ⟨o, s1, l⟩
  rw [hrun] at hp hok
  cases o with
  | next a =>
    obtain ⟨ho, h, hl⟩ := hp hok
    rcases ho with ho | ho
    · simp only [Flow.next.injEq] at ho
      exact ⟨ho, h, hl⟩
    · simp at ho
  | ret r e =>
    obtain ⟨ho, h, hl⟩ := hp hok
    rcases ho with ho | ho
    · simp at ho
    · simp only [Flow.ret.injEq] at ho
      exact ⟨by rw [ho.1, ho.2], h, hl⟩

/-- C8: for every tenant count `N`, in a pass of `addGitOps` in which every call succeeds (the
install-plan approval, both readiness checks, the hashing and every store call), the pass ends
without requeue and without error and its create calls are, in this order: the operator
subscription, the shared namespace `argocd`, for each tenant 1..N in ascending order its
AppProject, Role and RoleBinding, then the secret `argocd-secret`, the configmap `argocd-cm`, the
ArgoCD custom resource, whose policy is the policy text of all `N` tenants, and last the secret
`argocd-default-cluster-config`, whose `namespaces` entry is the comma-joined namespace list. -/
theorem C8_create_order {σ : Type} (c : Client σ) (d : Deps) (w : Workshop) (N : Nat) (s : σ)
    (hok : AllOk (addGitOps c d w (N : Int) "argocd" s).log) :
    (addGitOps c d w (N : Int) "argocd" s).result = ({}, none) ∧
    (createsOf (addGitOps c d w (N : Int) "argocd" s).log).map keyOf =
      [ ⟨Kind.subscription, "openshift-operators", "openshift-gitops-operator"⟩, ⟨Kind.ns, "", "argocd"⟩ ] ++
      (List.range' 1 N).flatMap (tenantKeys w "argocd") ++
      [ ⟨Kind.secret, "argocd", "argocd-secret"⟩, ⟨Kind.configMap, "argocd", "argocd-cm"⟩,
        ⟨Kind.argoCD, "argocd", "argocd"⟩, ⟨Kind.secret, "argocd", "argocd-default-cluster-config"⟩ ] ∧
    ∃ front argo cluster policy,
      createsOf (addGitOps c d w (N : Int) "argocd" s).log = front ++ [argo, cluster] ∧
      argo.policy = some policy ∧
      policy = String.join ((List.range' 1 N).map (userPolicy w)) ∧
      cluster.stringData =
        [ ("config", "\x7b\"tlsClientConfig\":\x7b\"insecure\":false\x7d\x7d"), ("name", "in-cluster"),
          ("namespaces", ",".intercalate ((List.range' 1 N).map (fun i => w.stagingName ++ toString i))),
          ("server", "https://kubernetes.default.svc") ] := by
  obtain ⟨hres, h, hlog⟩ := addGitOps_ok c d w (N : Int) "argocd" s hok
  refine ⟨hres, ?_, ?_⟩
  · rw [hlog, createsOf_passLog]
    simp only [List.map_append, List.map_map, Int.toNat_ofNat]
    have := loopItems_keys d w "argocd" h N 1 (accInit baseLabels)
    simp only [Function.comp_def, this, List.append_assoc]
    rfl
  · rw [hlog, createsOf_passLog]
    simp only [Int.toNat_ofNat]
    refine ⟨[(subscriptionItem w).obj, (namespaceItem "argocd").obj] ++
        (loopItems d w "argocd" h N 1 (accInit baseLabels)).map Item.obj ++
        [ newStringDataSecret "argocd-secret" "argocd" (secretLabels (accFold w h N 1 (accInit baseLabels)))
            (accFold w h N 1 (accInit baseLabels)).secretData,
          newConfigMap "argocd-cm" "argocd" (configMapLabels (accFold w h N 1 (accInit baseLabels)))
            (accFold w h N 1 (accInit baseLabels)).configMapData ],
      newArgoCDCustomResource "argocd" "argocd" (argoCDLabels (accFold w h N 1 (accInit baseLabels)))
        (accFold w h N 1 (accInit baseLabels)).argocdPolicy,
      newStringDataSecret "argocd-default-cluster-config" "argocd"
        (clusterConfigLabels (accFold w h N 1 (accInit baseLabels)))
        (clusterConfigSecretData (accFold w h N 1 (accInit baseLabels)).namespaceList),
      (accFold w h N 1 (accInit baseLabels)).argocdPolicy, ?_, rfl, ?_, ?_⟩
    · simp only [List.append_assoc]
      rfl
    · apply String.ext
      rw [accFold_argocdPolicy, String.data_join]
      simp [accInit, List.flatMap, List.map_map, Function.comp_def]
    · show clusterConfigSecretData _ = _
      rw [clusterConfigSecretData_eq, accFold_namespaceList]
      rfl

/-- Witness of C8: two tenants on the empty in-memory store with every readiness check ready. -/
theorem C8_create_order_witness :
    AllOk (addGitOps sampleClient sampleDeps sampleWorkshop ((2 : Nat) : Int) "argocd" emptyMem).log ∧
    (createsOf (addGitOps sampleClient sampleDeps sampleWorkshop ((2 : Nat) : Int) "argocd" emptyMem).log).map keyOf =
      [ ⟨Kind.subscription, "openshift-operators", "openshift-gitops-operator"⟩, ⟨Kind.ns, "", "argocd"⟩ ] ++
      (List.range' 1 2).flatMap (tenantKeys sampleWorkshop "argocd") ++
      [ ⟨Kind.secret, "argocd", "argocd-secret"⟩, ⟨Kind.configMap, "argocd", "argocd-cm"⟩,
        ⟨Kind.argoCD, "argocd", "argocd"⟩, ⟨Kind.secret, "argocd", "argocd-default-cluster-config"⟩ ] :=
  ⟨by decide, (C8_create_order sampleClient sampleDeps sampleWorkshop 2 emptyMem (by decide)).2.1⟩

/-! ## Readiness steps -/

theorem post_all_bind {σ α β : Type} {m : Act σ α} {f : α → Act σ β} (X : Event → Bool)
    (hm : Post m (fun _ l => ∀ e ∈ l, X e = false))
    (hf : ∀ a, Post (f a) (fun _ l => ∀ e ∈ l, X e = false)) :
    Post (Act.bind m f) (fun _ l => ∀ e ∈ l, X e = false) := by
  refine post_bind hm hf (fun _ _ _ h => h) ?_
  intro a l1 o l2 h1 h2 e he
  rcases List.mem_append.mp he with he | he
  · exact h1 e he
  · exact h2 e he

theorem post_all_nil {σ α : Type} (X : Event → Bool) (m : Act σ α) (hm : ∀ s, (m s).log = []) :
    Post m (fun _ l => ∀ e ∈ l, X e = false) := by
  intro s e he
  rw [hm s] at he
  simp at he

theorem post_runItem_all {σ : Type} (c : Client σ) (X : Event → Bool) (it : Item)
    (hget : ∀ k n ns res, X (Event.get k n ns res) = false)
    (hupd : ∀ x r, X (Event.update x r) = false)
    (hit : ∀ r, X (Event.create it.obj r) = false) :
    Post (runItem c it) (fun _ l => ∀ e ∈ l, X e = false) := by
  refine post_mono (post_runItem c it) ?_
  rintro out l ⟨r, rest, rfl, _, h2, _⟩ e he
  rcases List.mem_cons.mp he with rfl | he
  · exact hit r
  · rcases h2 e he with ⟨k, n, ns, res, rfl⟩ | ⟨x, r2, rfl⟩
    · exact hget _ _ _ _
    · exact hupd _ _

theorem post_runItems_all {σ : Type} (c : Client σ) (X : Event → Bool) (items : List Item)
    (hget : ∀ k n ns res, X (Event.get k n ns res) = false)
    (hupd : ∀ x r, X (Event.update x r) = false)
    (hit : ∀ it ∈ items, ∀ r, X (Event.create it.obj r) = false) :
    Post (runItems c items) (fun _ l => ∀ e ∈ l, X e = false) := by
  induction items with
  | nil => exact post_all_nil X _ (fun _ => rfl)
  | cons it rest ih =>
    simp only [runItems, bind_eq]
    refine post_all_bind X (post_runItem_all c X it hget hupd (hit it (by simp))) ?_
    intro _
    exact ih (fun it2 h2 => hit it2 (by simp [h2]))

/-- Sequencing for `Good`. -/
theorem good_bind {σ α β : Type} {m : Act σ α} {f : α → Act σ β}
    (hm : Post m Good) (hf : ∀ a, Post (f a) Good) : Post (Act.bind m f) Good := by
  refine post_bind hm hf ?_ ?_
  · intro r e l h
    rcases h with h | ⟨l0, e0, h1, h2, h3, h4⟩
    · exact Or.inl h
    · simp only [Flow.ret.injEq] at h4
      exact Or.inr ⟨l0, e0, h1, h2, h3, by rw [h4.1, h4.2]⟩
  · intro a l1 o l2 h1 h2
    have hl1 : ∀ e ∈ l1, e.notReady = false := by
      rcases h1 with h | ⟨_, _, _, _, _, h4⟩
      · exact h
      · simp at h4
    rcases h2 with h | ⟨l0, e0, h21, h22, h23, h24⟩
    · left
      intro e he
      rcases List.mem_append.mp he with he | he
      · exact hl1 e he
      · exact h e he
    · right
      refine ⟨l1 ++ l0, e0, by rw [h21, List.append_assoc], h22, ?_, h24⟩
      intro e he
      rcases List.mem_append.mp he with he | he
      · exact hl1 e he
      · exact h23 e he

theorem good_of_all {σ α : Type} {m : Act σ α} (h : Post m (fun _ l => ∀ e ∈ l, Event.notReady e = false)) :
    Post m Good :=
  post_mono h (fun _ _ hl => Or.inl hl)

theorem good_runItem {σ : Type} (c : Client σ) (it : Item) : Post (runItem c it) Good :=
  good_of_all (post_runItem_all c Event.notReady it (fun _ _ _ _ => rfl) (fun _ _ => rfl) (fun _ => rfl))

theorem good_runItems {σ : Type} (c : Client σ) (items : List Item) : Post (runItems c items) Good :=
  good_of_all (post_runItems_all c Event.notReady items (fun _ _ _ _ => rfl) (fun _ _ => rfl)
    (fun _ _ _ => rfl))

theorem good_approve_gate {σ β : Type} (c : Client σ) (csv name ns : String) (rest : Act σ β)
    (hrest : Post rest Good) :
    Post (Act.bind (approveInstallPlan c csv name ns)
      (fun err => if err ≠ none then ret { requeue := true } none else rest)) Good := by
  refine post_bind (post_approveInstallPlan c csv name ns)
    (Q := fun a o l => (a ≠ none → o = Flow.ret { requeue := true } none ∧ l = []) ∧ (a = none → Good o l))
    ?_ ?_ ?_
  · intro a
    by_cases ha : a = none
    · subst ha
      simp only [ne_eq, not_true_eq_false, if_false]
      exact post_mono hrest (fun o l h => ⟨fun hc => hc.elim, fun _ => h⟩)
    · simp only [ne_eq, ha, not_false_eq_true, if_true]
      exact fun s => ⟨fun _ => ⟨rfl, rfl⟩, fun hc => hc.elim⟩
  · rintro r e l ⟨_, h, _⟩
    simp at h
  · rintro a l1 o l2 ⟨r, hr, rfl⟩ ⟨h1, h2⟩
    simp only [Flow.next.injEq] at hr
    subst hr
    cases a with
    | none =>
      rcases h2 rfl with h | ⟨l0, e0, h21, h22, h23, h24⟩
      · left
        intro e he
        rcases List.mem_append.mp he with he | he
        · rw [List.mem_singleton.mp he]; rfl
        · exact h e he
      · right
        refine ⟨[Event.approveInstallPlan csv name ns none] ++ l0, e0, by rw [h21, List.append_assoc],
          h22, ?_, h24⟩
        intro e he
        rcases List.mem_append.mp he with he | he
        · rw [List.mem_singleton.mp he]; rfl
        · exact h23 e he
    | some e1 =>
      obtain ⟨ho, hl⟩ := h1 (by simp)
      right
      exact ⟨[], Event.approveInstallPlan csv name ns (some e1), by simp [hl], rfl, by simp, ho⟩

theorem good_status_gate {σ β : Type} (c : Client σ) (name ns : String) (rest : Act σ β)
    (hrest : Post rest Good) :
    Post (Act.bind (getDeploymentStatus c name ns)
      (fun ready => if (!ready) = true then ret { requeue := true } none else rest)) Good := by
  refine post_bind (post_getDeploymentStatus c name ns)
    (Q := fun a o l => (a = false → o = Flow.ret { requeue := true } none ∧ l = []) ∧ (a = true → Good o l))
    ?_ ?_ ?_
  · intro a
    cases a with
    | true =>
      simp only [Bool.not_true, Bool.false_eq_true, if_false]
      exact post_mono hrest (fun o l h => ⟨fun hc => by simp at hc, fun _ => h⟩)
    | false =>
      simp only [Bool.not_false, if_true]
      exact fun s => ⟨fun _ => ⟨rfl, rfl⟩, fun hc => by simp at hc⟩
  · rintro r e l ⟨_, h, _⟩
    simp at h
  · rintro a l1 o l2 ⟨r, hr, rfl⟩ ⟨h1, h2⟩
    simp only [Flow.next.injEq] at hr
    subst hr
    cases a with
    | true =>
      rcases h2 rfl with h | ⟨l0, e0, h21, h22, h23, h24⟩
      · left
        intro e he
        rcases List.mem_append.mp he with he | he
        · rw [List.mem_singleton.mp he]; rfl
        · exact h e he
      · right
        refine ⟨[Event.deploymentStatus name ns true] ++ l0, e0, by rw [h21, List.append_assoc],
          h22, ?_, h24⟩
        intro e he
        rcases List.mem_append.mp he with he | he
        · rw [List.mem_singleton.mp he]; rfl
        · exact h23 e he
    | false =>
      obtain ⟨ho, hl⟩ := h1 rfl
      right
      exact ⟨[], Event.deploymentStatus name ns false, by simp [hl], rfl, by simp, ho⟩

theorem good_nil {σ α : Type} (m : Act σ α) (hm : ∀ s, (m s).log = []) : Post m Good :=
  good_of_all (post_all_nil Event.notReady m hm)

/-- In every pass of `addGitOps` a readiness step that reports not ready is the last call, and the
pass returns a requeue without error. -/
theorem passPlan_good {σ : Type} (c : Client σ) (d : Deps) (w : Workshop) (users : Int) (ns : String) :
    Post (passPlan c d w users ns) Good := by
  unfold passPlan
  refine good_bind (good_runItem c _) (fun _ => ?_)
  refine good_approve_gate c _ _ _ _ ?_
  refine good_status_gate c _ _ _ ?_
  refine good_bind (good_runItem c _) (fun _ => ?_)
  refine good_bind (good_of_all (post_mono (post_generateFromPassword c _) ?_)) (fun hashed => ?_)
  · rintro o l ⟨r, _, rfl⟩ e he
    rw [List.mem_singleton.mp he]; rfl
  cases hashed with
  | error e => exact good_nil _ (fun _ => rfl)
  | ok h =>
    simp only
    refine good_bind (good_runItems c _) (fun _ => ?_)
    refine good_status_gate c _ _ _ ?_
    refine good_bind (good_of_all (post_callItem c _ _
      (post_runItem_all c Event.notReady _ (fun _ _ _ _ => rfl) (fun _ _ => rfl) (fun _ => rfl))))
      (fun p => ?_)
    by_cases hq : d.isRequeued p.1 p.2 = true
    · simp only [hq, if_true]
      exact good_nil _ (fun _ => rfl)
    · simp only [hq, if_false]
      exact good_nil _ (fun _ => rfl)

theorem guard_step {σ α β : Type} {m : Act σ α} {f : α → Act σ β} (X Y : Event → Bool)
    (hmX : Post m (fun _ l => ∀ e ∈ l, X e = false)) (hmY : Post m (fun _ l => ∀ e ∈ l, Y e = false))
    (hf : ∀ a, Post (f a) (fun _ l => Guard X Y l)) :
    Post (Act.bind m f) (fun _ l => Guard X Y l) := by
  refine post_bind (P := fun _ l => (∀ e ∈ l, X e = false) ∧ (∀ e ∈ l, Y e = false))
    (fun s => ⟨hmX s, hmY s⟩) hf ?_ ?_
  · rintro r e l ⟨h1, _⟩ _
    exact h1
  · rintro a l1 o l2 ⟨h1, h2⟩ h3 ⟨e, he, hy⟩ x hx
    have hy2 : ∃ e ∈ l2, Y e = true := by
      rcases List.mem_append.mp he with he | he
      · rw [h2 e he] at hy
        simp at hy
      · exact ⟨e, he, hy⟩
    rcases List.mem_append.mp hx with hx | hx
    · exact h1 x hx
    · exact h3 hy2 x hx

theorem guard_of_all {σ α : Type} {m : Act σ α} (X Y : Event → Bool)
    (h : Post m (fun _ l => ∀ e ∈ l, Y e = false)) : Post m (fun _ l => Guard X Y l) := by
  intro s ⟨e, he, hy⟩
  rw [h s e he] at hy
  simp at hy

theorem guard_approve_gate {σ β : Type} (c : Client σ) (csv name ns : String) (rest : Act σ β)
    (X Y : Event → Bool) (hX : ∀ r, X (Event.approveInstallPlan csv name ns r) = false)
    (hY : Y (Event.approveInstallPlan csv name ns none) = false)
    (hrest : Post rest (fun _ l => Guard X Y l)) :
    Post (Act.bind (approveInstallPlan c csv name ns)
      (fun err => if err ≠ none then ret { requeue := true } none else rest)) (fun _ l => Guard X Y l) := by
  refine post_bind (post_approveInstallPlan c csv name ns)
    (Q := fun a _ l => (a ≠ none → l = []) ∧ (a = none → Guard X Y l)) ?_ ?_ ?_
  · intro a
    by_cases ha : a = none
    · subst ha
      simp only [ne_eq, not_true_eq_false, if_false]
      exact post_mono hrest (fun o l h => ⟨fun hc => hc.elim, fun _ => h⟩)
    · simp only [ne_eq, ha, not_false_eq_true, if_true]
      exact fun s => ⟨fun _ => rfl, fun hc => hc.elim⟩
  · rintro r e l ⟨_, h, _⟩
    simp at h
  · rintro a l1 o l2 ⟨r, hr, rfl⟩ ⟨h1, h2⟩ ⟨e, he, hy⟩ x hx
    simp only [Flow.next.injEq] at hr
    subst hr
    cases a with
    | some e1 =>
      rw [h1 (by simp)] at hx
      simp only [List.append_nil, List.mem_singleton] at hx
      rw [hx]
      exact hX _
    | none =>
      have hy2 : ∃ e ∈ l2, Y e = true := by
        rcases List.mem_append.mp he with he | he
        · rw [List.mem_singleton.mp he, hY] at hy
          simp at hy
        · exact ⟨e, he, hy⟩
      rcases List.mem_append.mp hx with hx | hx
      · rw [List.mem_singleton.mp hx]
        exact hX _
      · exact h2 rfl hy2 x hx

theorem guard_status_gate {σ β : Type} (c : Client σ) (name ns : String) (rest : Act σ β)
    (X Y : Event → Bool) (hX : ∀ r, X (Event.deploymentStatus name ns r) = false)
    (hY : Y (Event.deploymentStatus name ns true) = false)
    (hrest : Post rest (fun _ l => Guard X Y l)) :
    Post (Act.bind (getDeploymentStatus c name ns)
      (fun ready => if (!ready) = true then ret { requeue := true } none else rest))
      (fun _ l => Guard X Y l) := by
  refine post_bind (post_getDeploymentStatus c name ns)
    (Q := fun a _ l => (a = false → l = []) ∧ (a = true → Guard X Y l)) ?_ ?_ ?_
  · intro a
    cases a with
    | true =>
      simp only [Bool.not_true, Bool.false_eq_true, if_false]
      exact post_mono hrest (fun o l h => ⟨fun hc => by simp at hc, fun _ => h⟩)
    | false =>
      simp only [Bool.not_false, if_true]
      exact fun s => ⟨fun _ => rfl, fun hc => by simp at hc⟩
  · rintro r e l ⟨_, h, _⟩
    simp at h
  · rintro a l1 o l2 ⟨r, hr, rfl⟩ ⟨h1, h2⟩ ⟨e, he, hy⟩ x hx
    simp only [Flow.next.injEq] at hr
    subst hr
    cases a with
    | false =>
      rw [h1 rfl] at hx
      simp only [List.append_nil, List.mem_singleton] at hx
      rw [hx]
      exact hX _
    | true =>
      have hy2 : ∃ e ∈ l2, Y e = true := by
        rcases List.mem_append.mp he with he | he
        · rw [List.mem_singleton.mp he, hY] at hy
          simp at hy
        · exact ⟨e, he, hy⟩
      rcases List.mem_append.mp hx with hx | hx
      · rw [List.mem_singleton.mp hx]
        exact hX _
      · exact h2 rfl hy2 x hx

theorem post_status_gate_all {σ β : Type} (c : Client σ) (name ns : String) (rest : Act σ β)
    (Y : Event → Bool) (hY : ∀ r, Y (Event.deploymentStatus name ns r) = false)
    (hrest : Post rest (fun _ l => ∀ e ∈ l, Y e = false)) :
    Post (Act.bind (getDeploymentStatus c name ns)
      (fun ready => if (!ready) = true then ret { requeue := true } none else rest))
      (fun _ l => ∀ e ∈ l, Y e = false) := by
  refine post_all_bind Y (post_mono (post_getDeploymentStatus c name ns) ?_) ?_
  · rintro o l ⟨r, _, rfl⟩ e he
    rw [List.mem_singleton.mp he]
    exact hY r
  · intro ready
    exact post_ite (fun _ => post_all_nil Y _ (fun _ => rfl)) (fun _ => hrest)

theorem post_hash_all {σ : Type} (c : Client σ) (p : String) (Y : Event → Bool)
    (hY : ∀ r, Y (Event.hash p r) = false) :
    Post (generateFromPassword c p) (fun _ l => ∀ e ∈ l, Y e = false) := by
  refine post_mono (post_generateFromPassword c p) ?_
  rintro o l ⟨r, _, rfl⟩ e he
  rw [List.mem_singleton.mp he]
  exact hY r

theorem loopItems_kind (d : Deps) (w : Workshop) (ns h : String) (n id : Nat) (a : Acc) :
    ∀ it ∈ loopItems d w ns h n id a,
      it.obj.kind = Kind.appProject ∨ it.obj.kind = Kind.role ∨ it.obj.kind = Kind.roleBinding := by
  induction n generalizing id a with
  | zero => intro it hit; simp [loopItems] at hit
  | succ n ih =>
    intro it hit
    simp only [loopItems, List.mem_append] at hit
    rcases hit with hit | hit
    · simp only [tenantItems, List.mem_cons, List.mem_singleton, List.not_mem_nil, or_false] at hit
      rcases hit with rfl | rfl | rfl
      · exact Or.inl rfl
      · exact Or.inr (Or.inl rfl)
      · exact Or.inr (Or.inr rfl)
    · exact ih _ _ it hit

/-- In a pass of `addGitOps` in which a readiness step reports not ready, the secret
`argocd-default-cluster-config` is not created. -/
theorem passPlan_guard_clusterConfig {σ : Type} (c : Client σ) (d : Deps) (w : Workshop) (users : Int)
    (ns : String) :
    Post (passPlan c d w users ns)
      (fun _ l => Guard (Event.createsNamed Kind.secret "argocd-default-cluster-config") Event.notReady l) := by
  unfold passPlan
  refine guard_step _ _ (post_runItem_all c _ _ (fun _ _ _ _ => rfl) (fun _ _ => rfl) (fun _ => rfl))
    (post_runItem_all c _ _ (fun _ _ _ _ => rfl) (fun _ _ => rfl) (fun _ => rfl)) (fun _ => ?_)
  refine guard_approve_gate c _ _ _ _ _ _ (fun _ => rfl) rfl ?_
  refine guard_status_gate c _ _ _ _ _ (fun _ => rfl) rfl ?_
  refine guard_step _ _ (post_runItem_all c _ _ (fun _ _ _ _ => rfl) (fun _ _ => rfl) (fun _ => rfl))
    (post_runItem_all c _ _ (fun _ _ _ _ => rfl) (fun _ _ => rfl) (fun _ => rfl)) (fun _ => ?_)
  refine guard_step _ _ (post_hash_all c _ _ (fun _ => rfl)) (post_hash_all c _ _ (fun _ => rfl))
    (fun hashed => ?_)
  cases hashed with
  | error e => exact guard_of_all _ _ (post_all_nil _ _ (fun _ => rfl))
  | ok h =>
    simp only
    refine guard_step _ _ (post_runItems_all c _ _ (fun _ _ _ _ => rfl) (fun _ _ => rfl) ?_)
      (post_runItems_all c _ _ (fun _ _ _ _ => rfl) (fun _ _ => rfl) (fun _ _ _ => rfl)) (fun _ => ?_)
    · intro it hit r
      rcases List.mem_append.mp hit with hit | hit
      · rcases loopItems_kind d w ns h _ _ _ it hit with hk | hk | hk <;>
          simp [Event.createsNamed, hk]
      · simp only [aggregateItems, List.mem_cons, List.mem_singleton, List.not_mem_nil, or_false] at hit
        rcases hit with rfl | rfl | rfl
        · simp only [Event.createsNamed, Item.obj, newStringDataSecret]
          decide
        · rfl
        · rfl
    refine guard_status_gate c _ _ _ _ _ (fun _ => rfl) rfl ?_
    refine guard_of_all _ _ (post_all_bind _ (post_callItem c _ _
      (post_runItem_all c _ _ (fun _ _ _ _ => rfl) (fun _ _ => rfl) (fun _ => rfl))) (fun _ => ?_))
    exact post_ite (fun _ => post_all_nil _ _ (fun _ => rfl)) (fun _ => post_all_nil _ _ (fun _ => rfl))

/-- In a pass of `addGitOps` in which the install-plan approval fails or the deployment
`gitops-operator` is not ready, the shared namespace is not created. -/
theorem passPlan_guard_namespace {σ : Type} (c : Client σ) (d : Deps) (w : Workshop) (users : Int)
    (ns : String) :
    Post (passPlan c d w users ns)
      (fun _ l => Guard (Event.createsNamed Kind.ns ns) Event.operatorNotReady l) := by
  unfold passPlan
  refine guard_step _ _ (post_runItem_all c _ _ (fun _ _ _ _ => rfl) (fun _ _ => rfl) (fun _ => rfl))
    (post_runItem_all c _ _ (fun _ _ _ _ => rfl) (fun _ _ => rfl) (fun _ => rfl)) (fun _ => ?_)
  refine guard_approve_gate c _ _ _ _ _ _ (fun _ => rfl) rfl ?_
  refine guard_status_gate c _ _ _ _ _ (fun _ => rfl) rfl ?_
  refine guard_of_all _ _ ?_
  refine post_all_bind _ (post_runItem_all c _ _ (fun _ _ _ _ => rfl) (fun _ _ => rfl) (fun _ => rfl))
    (fun _ => ?_)
  refine post_all_bind _ (post_hash_all c _ _ (fun _ => rfl)) (fun hashed => ?_)
  cases hashed with
  | error e => exact post_all_nil _ _ (fun _ => rfl)
  | ok h =>
    simp only
    refine post_all_bind _ (post_runItems_all c _ _ (fun _ _ _ _ => rfl) (fun _ _ => rfl)
      (fun _ _ _ => rfl)) (fun _ => ?_)
    refine post_status_gate_all c _ _ _ _ ?_ ?_
    · intro r
      cases r
      · show decide ("argocd-server" = "gitops-operator") = false
        decide
      · rfl
    refine post_all_bind _ (post_callItem c _ _
      (post_runItem_all c _ _ (fun _ _ _ _ => rfl) (fun _ _ => rfl) (fun _ => rfl))) (fun _ => ?_)
    exact post_ite (fun _ => post_all_nil _ _ (fun _ => rfl)) (fun _ => post_all_nil _ _ (fun _ => rfl))

theorem addGitOps_log {σ : Type} (c : Client σ) (d : Deps) (w : Workshop) (users : Int) (ns : String) (s : σ) :
    (addGitOps c d w users ns s).log = (passPlan c d w users ns s).log := by
  simp only [addGitOps, Act.run, addGitOpsBody_eq]
  rcases passPlan c d w users ns s with ⟨o, s1, l⟩
  cases o <;> rfl

theorem addGitOps_result_of_ret {σ : Type} (c : Client σ) (d : Deps) (w : Workshop) (users : Int)
    (ns : String) (s : σ) (r : Result) (e : Option Err)
    (h : (passPlan c d w users ns s).out = Flow.ret r e) :
    (addGitOps c d w users ns s).result = (r, e) := by
  simp only [addGitOps, Act.run, addGitOpsBody_eq]
  rcases hp : passPlan c d w users ns s with ⟨o, s1, l⟩
  rw [hp] at h
  simp only at h
  subst h
  rfl

/-- C9: in every pass of `addGitOps`, on every store, a readiness step that reports not ready (the
install-plan approval fails, or the deployment `gitops-operator` or `argocd-server` is not ready)
is the last call of the pass and the pass returns `Requeue = true` with a nil error; in such a
pass the secret `argocd-default-cluster-config` is not created, and when the step is one of the
operator installation the shared namespace is not created either. -/
theorem C9_not_ready_requeues {σ : Type} (c : Client σ) (d : Deps) (w : Workshop) (users : Int)
    (ns : String) (s : σ) (e : Event)
    (he : e ∈ (addGitOps c d w users ns s).log) (hn : e.notReady = true) :
    (addGitOps c d w users ns s).result = ({ requeue := true }, none) ∧
    (addGitOps c d w users ns s).log.getLast? = some e ∧
    (∀ x ∈ (addGitOps c d w users ns s).log,
      Event.createsNamed Kind.secret "argocd-default-cluster-config" x = false) ∧
    (e.operatorNotReady = true →
      ∀ x ∈ (addGitOps c d w users ns s).log, Event.createsNamed Kind.ns ns x = false) := by
  rw [addGitOps_log] at he ⊢
  have hg := passPlan_good c d w users ns s
  have h3 := passPlan_guard_clusterConfig c d w users ns s
  have h2 := passPlan_guard_namespace c d w users ns s
  rcases hg with hg | ⟨l0, e0, hl, _, hl0, hout⟩
  · rw [hg e he] at hn
    simp at hn
  · have hee : e = e0 := by
      rw [hl] at he
      rcases List.mem_append.mp he with h | h
      · rw [hl0 e h] at hn
        simp at hn
      · exact List.mem_singleton.mp h
    refine ⟨addGitOps_result_of_ret c d w users ns s _ _ hout, ?_, h3 ⟨e, he, hn⟩,
      fun ho => h2 ⟨e, he, ho⟩⟩
    rw [hl, hee]
    simp

/-- Witness of C9: a store on which `argocd-server` is never ready, and one on which
`gitops-operator` is never ready. -/
theorem C9_not_ready_requeues_witness :
    (Event.deploymentStatus "argocd-server" "argocd" false ∈
      (addGitOps serverDownClient sampleDeps sampleWorkshop 2 "argocd" emptyMem).log ∧
     (addGitOps serverDownClient sampleDeps sampleWorkshop 2 "argocd" emptyMem).result =
      ({ requeue := true }, none)) ∧
    (Event.deploymentStatus "gitops-operator" "openshift-operators" false ∈
      (addGitOps operatorDownClient sampleDeps sampleWorkshop 2 "argocd" emptyMem).log ∧
     ∀ x ∈ (addGitOps operatorDownClient sampleDeps sampleWorkshop 2 "argocd" emptyMem).log,
      Event.createsNamed Kind.ns "argocd" x = false) :=
  ⟨⟨by decide,
     (C9_not_ready_requeues serverDownClient sampleDeps sampleWorkshop 2 "argocd" emptyMem
       (Event.deploymentStatus "argocd-server" "argocd" false) (by decide) rfl).1⟩,
   ⟨by decide,
     (C9_not_ready_requeues operatorDownClient sampleDeps sampleWorkshop 2 "argocd" emptyMem
       (Event.deploymentStatus "gitops-operator" "openshift-operators" false) (by decide) rfl).2.2.2 rfl⟩⟩

/-! ## One record on the in-memory store -/

theorem lookup_insert_self {m : Mem} {o : Obj} (h : m.lookup (keyOf o) = none) :
    ({ m with objs := m.objs ++ [o] } : Mem).lookup (keyOf o) = some o := by
  simp only [Mem.lookup] at h ⊢
  rw [List.find?_append, h]
  simp

theorem lookup_insert_other {m : Mem} {o : Obj} {k : Key} (hk : k ≠ keyOf o) :
    ({ m with objs := m.objs ++ [o] } : Mem).lookup k = m.lookup k := by
  have hk2 : keyOf o ≠ k := fun e => hk e.symm
  simp only [Mem.lookup]
  rw [List.find?_append]
  simp [hk2]

theorem memClient_create (approve : Option Err) (ready : String → String → Bool)
    (hash : Nat → String → Except Err String) (o : Obj) (m : Mem) :
    (memClient approve ready hash).create o m =
      match m.lookup (keyOf o) with
      | some _ => (some Err.alreadyExists, m)
      | none => (none, { m with objs := m.objs ++ [o] }) := rfl

theorem memClient_update (approve : Option Err) (ready : String → String → Bool)
    (hash : Nat → String → Except Err String) (o : Obj) (m : Mem) :
    (memClient approve ready hash).update o m =
      match m.lookup (keyOf o) with
      | some _ => (none, m.replace o)
      | none => (some Err.notFound, m) := rfl

theorem create_mem_absent (approve : Option Err) (ready : String → String → Bool)
    (hash : Nat → String → Except Err String) (o : Obj) (m : Mem) (h : m.lookup (keyOf o) = none) :
    create (memClient approve ready hash) o m =
      ⟨Flow.next none, { m with objs := m.objs ++ [o] }, [Event.create o none]⟩ := by
  rw [create_apply, memClient_create, h]

theorem create_mem_present (approve : Option Err) (ready : String → String → Bool)
    (hash : Nat → String → Except Err String) (o : Obj) (m : Mem) (x : Obj)
    (h : m.lookup (keyOf o) = some x) :
    create (memClient approve ready hash) o m =
      ⟨Flow.next (some Err.alreadyExists), m, [Event.create o (some Err.alreadyExists)]⟩ := by
  rw [create_apply, memClient_create, h]

theorem get_mem_present (approve : Option Err) (ready : String → String → Bool)
    (hash : Nat → String → Except Err String) (o : Obj) (m : Mem) (x : Obj)
    (h : m.lookup (keyOf o) = some x) :
    get (memClient approve ready hash) o.kind o.name o.ns m =
      ⟨Flow.next (Except.ok x), m, [Event.get o.kind o.name o.ns (Except.ok x)]⟩ := by
  rw [get_apply, memClient_get]
  have h1 : m.lookup ⟨o.kind, o.ns, o.name⟩ = some x := h
  rw [h1]

theorem runItem_mem_absent (approve : Option Err) (ready : String → String → Bool)
    (hash : Nat → String → Except Err String) (it : Item) (m : Mem)
    (h : m.lookup (keyOf it.obj) = none) :
    runItem (memClient approve ready hash) it m =
      ⟨Flow.next (), { m with objs := m.objs ++ [it.obj] }, [Event.create it.obj none]⟩ := by
  cases it with
  | only o =>
    simp only [Item.obj] at h ⊢
    simp only [runItem, createOnly, bind_eq, pure_eq]
    rw [bind_apply_next (create_mem_absent approve ready hash o m h)]
    simp [Act.pure]
  | upd o eq asg =>
    simp only [Item.obj] at h ⊢
    simp only [runItem, createOrUpdate, bind_eq, pure_eq]
    rw [bind_apply_next (create_mem_absent approve ready hash o m h)]
    simp [Act.pure]

theorem runItem_mem_equal (approve : Option Err) (ready : String → String → Bool)
    (hash : Nat → String → Except Err String) (it : Item) (m : Mem) (x : Obj)
    (h : m.lookup (keyOf it.obj) = some x) (heq : it.equal x = true) :
    (runItem (memClient approve ready hash) it m).out = Flow.next () ∧
    (runItem (memClient approve ready hash) it m).st = m ∧
    ∀ e ∈ (runItem (memClient approve ready hash) it m).log,
      e.isUpdate = false ∧ ∀ o r, e = Event.create o r → r = some Err.alreadyExists := by
  cases it with
  | only o =>
    simp only [Item.obj] at h ⊢
    simp only [runItem, createOnly, bind_eq, pure_eq]
    rw [bind_apply_next (create_mem_present approve ready hash o m x h)]
    simp [Act.pure, Event.isUpdate]
  | upd o eq asg =>
    simp only [Item.obj, Item.equal] at h heq ⊢
    simp only [runItem, createOrUpdate, bind_eq, pure_eq]
    rw [bind_apply_next (create_mem_present approve ready hash o m x h)]
    simp only [ne_eq, not_true_eq_false, if_false]
    rw [bind_apply_next (get_mem_present approve ready hash o m x h)]
    simp [Act.pure, Event.isUpdate, heq]

theorem runItem_mem_differs (approve : Option Err) (ready : String → String → Bool)
    (hash : Nat → String → Except Err String) (it : Item) (m : Mem) (x : Obj)
    (hwf : ∀ y, keyOf (it.assign y) = keyOf y)
    (h : m.lookup (keyOf it.obj) = some x) (heq : it.equal x = false) :
    runItem (memClient approve ready hash) it m =
      ⟨Flow.next (), m.replace (it.assign x),
        [Event.create it.obj (some Err.alreadyExists), Event.get it.obj.kind it.obj.name it.obj.ns (Except.ok x),
          Event.update (it.assign x) none]⟩ := by
  cases it with
  | only o => simp [Item.equal] at heq
  | upd o eq asg =>
    simp only [Item.obj, Item.equal, Item.assign] at h heq hwf ⊢
    have hkx : keyOf x = keyOf o := lookup_key h
    have hu : update (memClient approve ready hash) (asg x) m =
        ⟨Flow.next none, m.replace (asg x), [Event.update (asg x) none]⟩ := by
      have h2 : m.lookup (keyOf (asg x)) = some x := by
        rw [hwf x, hkx]
        exact h
      rw [update_apply, memClient_update, h2]
    simp only [runItem, createOrUpdate, bind_eq, pure_eq]
    rw [bind_apply_next (create_mem_present approve ready hash o m x h)]
    simp only [ne_eq, not_true_eq_false, if_false]
    rw [bind_apply_next (get_mem_present approve ready hash o m x h)]
    simp only [heq, Bool.not_false, if_true]
    rw [bind_apply_next hu]
    simp [Act.pure]

/-! ## Establishing convergence on the in-memory store -/

theorem est_bind {α β : Type} {P : Mem → Prop} {m : Act Mem α} {f : α → Act Mem β}
    {Q : α → Mem → Prop} {R : β → Mem → Prop}
    (hm : Est P m Q) (hf : ∀ a, Est (Q a) (f a) R) : Est P (Act.bind m f) R := by
  intro s hs
  obtain ⟨a, ha, hq⟩ := hm s hs
  rcases hms : m s with ⟨fl, s1, l1⟩
  rw [hms] at ha hq
  simp only at ha hq
  subst ha
  rw [bind_apply_next hms]
  exact hf a s1 hq

theorem est_bind_end {α : Type} {P : Mem → Prop} {m : Act Mem α} {f : α → Act Mem (Result × Option Err)}
    {Q : α → Mem → Prop} {R : Mem → Prop}
    (hm : Est P m Q) (hf : ∀ a, EstEnd (Q a) (f a) R) : EstEnd P (Act.bind m f) R := by
  intro s hs
  obtain ⟨a, ha, hq⟩ := hm s hs
  rcases hms : m s with ⟨fl, s1, l1⟩
  rw [hms] at ha hq
  simp only at ha hq
  subst ha
  rw [bind_apply_next hms]
  exact hf a s1 hq

theorem est_runItem (approve : Option Err) (ready : String → String → Bool)
    (hash : Nat → String → Except Err String) (it : Item) (S : List Item) (n : Nat)
    (hwf : it.WF) (hk : ∀ it2 ∈ S, keyOf it2.obj ≠ keyOf it.obj) :
    Est (fun m => m.hashes = n ∧ SettledAll S m) (runItem (memClient approve ready hash) it)
      (fun _ m => m.hashes = n ∧ SettledAll (S ++ [it]) m) := by
  rintro m ⟨hn, hS⟩
  obtain ⟨hw1, hw2, hw3⟩ := hwf
  have key : ∀ m2 : Mem, m2.hashes = n → (∃ x, m2.lookup (keyOf it.obj) = some x ∧ it.equal x = true) →
      (∀ k, k ≠ keyOf it.obj → m2.lookup k = m.lookup k) → m2.hashes = n ∧ SettledAll (S ++ [it]) m2 := by
    intro m2 h1 h2 h3
    refine ⟨h1, ?_⟩
    intro it2 hit2
    rcases List.mem_append.mp hit2 with h | h
    · obtain ⟨x, hx, hxe⟩ := hS it2 h
      exact ⟨x, by rw [h3 _ (hk it2 h)]; exact hx, hxe⟩
    · rw [List.mem_singleton.mp h]
      exact h2
  cases hl : m.lookup (keyOf it.obj) with
  | none =>
    rw [runItem_mem_absent approve ready hash it m hl]
    exact ⟨(), rfl, key _ hn ⟨it.obj, lookup_insert_self hl, hw3⟩ (fun k hk2 => lookup_insert_other hk2)⟩
  | some x =>
    cases heq : it.equal x with
    | true =>
      obtain ⟨h1, h2, _⟩ := runItem_mem_equal approve ready hash it m x hl heq
      refine ⟨(), h1, ?_⟩
      rw [h2]
      exact key m hn ⟨x, hl, heq⟩ (fun _ _ => rfl)
    | false =>
      rw [runItem_mem_differs approve ready hash it m x hw1 hl heq]
      have hkx : keyOf (it.assign x) = keyOf it.obj := by rw [hw1 x]; exact lookup_key hl
      refine ⟨(), rfl, key _ (by rw [replace_hashes]; exact hn) ⟨it.assign x, ?_, hw2 x⟩ ?_⟩
      · have := @lookup_replace_self m (it.assign x) x (by rw [hkx]; exact hl)
        rw [hkx] at this
        exact this
      · intro k hk2
        exact lookup_replace_other (by rw [hkx]; exact hk2)

theorem est_runItems (approve : Option Err) (ready : String → String → Bool)
    (hash : Nat → String → Except Err String) (items : List Item) (n : Nat) :
    ∀ (S : List Item), (∀ it ∈ items, it.WF) → ((S ++ items).map (fun it => keyOf it.obj)).Nodup →
    Est (fun m => m.hashes = n ∧ SettledAll S m) (runItems (memClient approve ready hash) items)
      (fun _ m => m.hashes = n ∧ SettledAll (S ++ items) m) := by
  induction items with
  | nil =>
    intro S _ _ m hm
    exact ⟨(), rfl, by simpa using hm⟩
  | cons it rest ih =>
    intro S hwf hnd
    simp only [runItems, bind_eq]
    refine est_bind (est_runItem approve ready hash it S n (hwf it (by simp)) ?_) (fun _ => ?_)
    · intro it2 hit2 he
      rw [List.map_append, List.nodup_append] at hnd
      exact hnd.2.2 (List.mem_map_of_mem _ hit2) (by rw [he]; simp)
    · have := ih (S ++ [it]) (fun it2 h2 => hwf it2 (by simp [h2])) (by simpa using hnd)
      simpa using this

/-! ## The records of a pass are well formed and have distinct keys -/

theorem wf_only (o : Obj) : (Item.only o).WF :=
  ⟨fun _ => rfl, fun _ => rfl, rfl⟩

theorem tenantItems_wf (d : Deps) (w : Workshop) (ns : String) (id : Nat) (a : Acc) :
    ∀ it ∈ tenantItems d w ns id a, it.WF := by
  intro it hit
  simp only [tenantItems, List.mem_cons, List.mem_singleton, List.not_mem_nil, or_false] at hit
  rcases hit with rfl | rfl | rfl
  · exact ⟨fun _ => rfl, fun _ => by simp [Item.equal, Item.assign], by simp [Item.equal, Item.obj]⟩
  · exact wf_only _
  · exact ⟨fun _ => rfl, fun _ => by simp [Item.equal, Item.assign],
      by simp [Item.equal, Item.obj, newRoleBindingUsers]⟩

theorem loopItems_wf (d : Deps) (w : Workshop) (ns h : String) (n id : Nat) (a : Acc) :
    ∀ it ∈ loopItems d w ns h n id a, it.WF := by
  induction n generalizing id a with
  | zero => intro it hit; simp [loopItems] at hit
  | succ n ih =>
    intro it hit
    simp only [loopItems, List.mem_append] at hit
    rcases hit with hit | hit
    · exact tenantItems_wf d w ns id _ it hit
    · exact ih _ _ it hit

theorem aggregateItems_wf (d : Deps) (ns : String) (a : Acc) (hrefl : ∀ m, d.isIntersectMap m m = true) :
    ∀ it ∈ aggregateItems d ns a, it.WF := by
  intro it hit
  simp only [aggregateItems, List.mem_cons, List.mem_singleton, List.not_mem_nil, or_false] at hit
  rcases hit with rfl | rfl | rfl
  · exact wf_only _
  · exact ⟨fun _ => rfl, fun _ => by simp [Item.equal, Item.assign, hrefl],
      by simp [Item.equal, Item.obj, newConfigMap, hrefl]⟩
  · exact ⟨fun _ => rfl, fun _ => by simp [Item.equal, Item.assign],
      by simp [Item.equal, Item.obj, newArgoCDCustomResource]⟩

theorem clusterConfigItem_wf (d : Deps) (ns : String) (labels : StrMap) (l : String)
    (hrefl : ∀ m, d.isIntersectMap m m = true) : (clusterConfigItem d ns labels l).WF :=
  ⟨fun _ => rfl, fun _ => by simp [clusterConfigItem, Item.equal, Item.assign, hrefl],
    by simp [clusterConfigItem, Item.equal, Item.obj, newStringDataSecret, hrefl]⟩

theorem passItems_wf (d : Deps) (w : Workshop) (users : Int) (ns h : String)
    (hrefl : ∀ m, d.isIntersectMap m m = true) : ∀ it ∈ passItems d w users ns h, it.WF := by
  intro it hit
  simp only [passItems, List.mem_append, List.mem_cons, List.mem_singleton, List.not_mem_nil,
    or_false] at hit
  rcases hit with ((rfl | rfl) | (hit | hit)) | rfl
  · exact wf_only _
  · exact wf_only _
  · exact loopItems_wf d w ns h _ _ _ it hit
  · exact aggregateItems_wf d ns _ hrefl it hit
  · exact clusterConfigItem_wf d ns _ _ hrefl

theorem tenantKeys_kind (w : Workshop) (ns : String) (id : Nat) :
    ∀ k ∈ tenantKeys w ns id, k.kind = Kind.appProject ∨ k.kind = Kind.role ∨ k.kind = Kind.roleBinding := by
  intro k hk
  simp only [tenantKeys, List.mem_cons, List.mem_singleton, List.not_mem_nil, or_false] at hk
  rcases hk with rfl | rfl | rfl
  · exact Or.inl rfl
  · exact Or.inr (Or.inl rfl)
  · exact Or.inr (Or.inr rfl)

theorem tenantKeys_nodup (w : Workshop) (ns : String) (ids : List Nat) (hids : ids.Nodup) :
    (ids.flatMap (tenantKeys w ns)).Nodup := by
  rw [List.nodup_flatMap]
  refine ⟨fun k _ => by simp [tenantKeys], ?_⟩
  refine List.Pairwise.imp ?_ hids
  intro i j hij k hki hkj
  simp only [tenantKeys, List.mem_cons, List.mem_singleton, List.not_mem_nil, or_false] at hki hkj
  have hinj : w.stagingName ++ toString i = w.stagingName ++ toString j → False :=
    fun e => hij (toString_nat_inj (string_append_left_cancel e))
  rcases hki with rfl | rfl | rfl <;> rcases hkj with h | h | h <;>
    simp only [Key.mk.injEq, reduceCtorEq, false_and, and_false, true_and, and_true] at h
  · exact hinj h
  · exact hinj h
  · exact hinj h

theorem passItems_keys (d : Deps) (w : Workshop) (users : Int) (ns h : String) :
    (passItems d w users ns h).map (fun it => keyOf it.obj) =
      [ ⟨Kind.subscription, "openshift-operators", "openshift-gitops-operator"⟩, ⟨Kind.ns, "", ns⟩ ] ++
      ((List.range' 1 users.toNat).flatMap (tenantKeys w ns) ++
        [ ⟨Kind.secret, ns, "argocd-secret"⟩, ⟨Kind.configMap, ns, "argocd-cm"⟩, ⟨Kind.argoCD, ns, "argocd"⟩ ]) ++
      [ ⟨Kind.secret, ns, "argocd-default-cluster-config"⟩ ] := by
  simp only [passItems, List.map_append, loopItems_keys]
  rfl

theorem passItems_nodup (d : Deps) (w : Workshop) (users : Int) (ns h : String) :
    ((passItems d w users ns h).map (fun it => keyOf it.obj)).Nodup := by
  rw [passItems_keys]
  have hne : ("argocd-secret" : String) ≠ "argocd-default-cluster-config" := by decide
  have hk := tenantKeys_kind w ns
  rw [List.nodup_append, List.nodup_append, List.nodup_append]
  refine ⟨⟨by simp, ⟨tenantKeys_nodup w ns _ (List.nodup_range' 1 _), by simp, ?_⟩, ?_⟩, by simp, ?_⟩
  · intro k hk1 hk2
    obtain ⟨i, _, hi⟩ := List.mem_flatMap.mp hk1
    have := hk i k hi
    simp only [List.mem_cons, List.mem_singleton, List.not_mem_nil, or_false] at hk2
    rcases hk2 with rfl | rfl | rfl <;> simp at this
  · intro k hk1 hk2
    simp only [List.mem_cons, List.mem_singleton, List.not_mem_nil, or_false] at hk1
    rcases List.mem_append.mp hk2 with hk2 | hk2
    · obtain ⟨i, _, hi⟩ := List.mem_flatMap.mp hk2
      have := hk i k hi
      rcases hk1 with rfl | rfl <;> simp at this
    · simp only [List.mem_cons, List.mem_singleton, List.not_mem_nil, or_false] at hk2
      rcases hk1 with rfl | rfl <;> rcases hk2 with h | h | h <;> simp at h
  · intro k hk1 hk2
    simp only [List.mem_singleton] at hk2
    subst hk2
    rcases List.mem_append.mp hk1 with hk1 | hk1
    · simp at hk1
    · rcases List.mem_append.mp hk1 with hk1 | hk1
      · obtain ⟨i, _, hi⟩ := List.mem_flatMap.mp hk1
        have := hk i _ hi
        simp at this
      · simp only [List.mem_cons, List.mem_singleton, List.not_mem_nil, or_false, Key.mk.injEq,
          reduceCtorEq, false_and, true_and] at hk1
        exact hne hk1.symm

/-! ## The records of a pass do not depend on the hash, the credential secret apart -/

theorem accumulate_sim (w : Workshop) (h1 h2 : String) (id : Nat) (a b : Acc) (hab : AccSim a b) :
    AccSim (accumulate w h1 id a) (accumulate w h2 id b) := by
  obtain ⟨e1, e2, e3, e4⟩ := hab
  simp only [AccSim, accumulate, e1, e2, e3, e4, and_self]

theorem accFold_sim (w : Workshop) (h1 h2 : String) (n id : Nat) (a b : Acc) (hab : AccSim a b) :
    AccSim (accFold w h1 n id a) (accFold w h2 n id b) := by
  induction n generalizing id a b with
  | zero => exact hab
  | succ n ih => exact ih _ _ _ (accumulate_sim w h1 h2 id a b hab)

theorem tenantItems_sim (d : Deps) (w : Workshop) (ns : String) (id : Nat) (a b : Acc) (hab : AccSim a b) :
    tenantItems d w ns id a = tenantItems d w ns id b := by
  obtain ⟨e1, _, _, e4⟩ := hab
  simp only [tenantItems, e1, e4]

theorem loopItems_sim (d : Deps) (w : Workshop) (ns h1 h2 : String) (n id : Nat) (a b : Acc)
    (hab : AccSim a b) : loopItems d w ns h1 n id a = loopItems d w ns h2 n id b := by
  induction n generalizing id a b with
  | zero => rfl
  | succ n ih =>
    simp only [loopItems]
    rw [tenantItems_sim d w ns id _ _ (accumulate_sim w h1 h2 id a b hab),
      ih _ _ _ (accumulate_sim w h1 h2 id a b hab)]

theorem settled_objs {m1 m2 : Mem} (h : m2.objs = m1.objs) (it : Item) (hs : Settled m1 it) :
    Settled m2 it := by
  obtain ⟨x, hx, he⟩ := hs
  refine ⟨x, ?_, he⟩
  simp only [Mem.lookup, h] at hx ⊢
  exact hx

/-- Records converged for the items of one hash are converged for the items of any hash. -/
theorem settled_transfer (d : Deps) (w : Workshop) (users : Int) (ns h1 h2 : String) (m : Mem)
    (hs : SettledAll (passItems d w users ns h1) m) : SettledAll (passItems d w users ns h2) m := by
  have hsim : AccSim (accFold w h1 users.toNat 1 (accInit baseLabels))
      (accFold w h2 users.toNat 1 (accInit baseLabels)) :=
    accFold_sim w h1 h2 _ _ _ _ ⟨rfl, rfl, rfl, rfl⟩
  obtain ⟨e1, e2, e3, e4⟩ := hsim
  have hloop := loopItems_sim d w ns h1 h2 users.toNat 1 (accInit baseLabels) (accInit baseLabels)
    ⟨rfl, rfl, rfl, rfl⟩
  intro it hit
  simp only [passItems, List.mem_append, List.mem_cons, List.mem_singleton, List.not_mem_nil,
    or_false] at hit
  rcases hit with ((rfl | rfl) | (hit | hit)) | rfl
  · exact hs _ (by simp [passItems])
  · exact hs _ (by simp [passItems])
  · exact hs _ (by simp only [passItems, List.mem_append]; rw [hloop]; exact Or.inl (Or.inr (Or.inl hit)))
  · simp only [aggregateItems, List.mem_cons, List.mem_singleton, List.not_mem_nil, or_false] at hit
    rcases hit with rfl | rfl | rfl
    · obtain ⟨x, hx, _⟩ := hs (Item.only (newStringDataSecret "argocd-secret" ns
        (secretLabels (accFold w h1 users.toNat 1 (accInit baseLabels)))
        (accFold w h1 users.toNat 1 (accInit baseLabels)).secretData)) (by simp [passItems, aggregateItems])
      exact ⟨x, hx, rfl⟩
    · have := hs (Item.upd (newConfigMap "argocd-cm" ns
          (configMapLabels (accFold w h1 users.toNat 1 (accInit baseLabels)))
          (accFold w h1 users.toNat 1 (accInit baseLabels)).configMapData)
        (fun found => d.isIntersectMap (accFold w h1 users.toNat 1 (accInit baseLabels)).configMapData found.data)
        (fun found => { found with data := (accFold w h1 users.toNat 1 (accInit baseLabels)).configMapData }))
        (by simp [passItems, aggregateItems])
      simpa only [configMapLabels, secretLabels, e3, e4] using this
    · have := hs (Item.upd (newArgoCDCustomResource "argocd" ns
          (argoCDLabels (accFold w h1 users.toNat 1 (accInit baseLabels)))
          (accFold w h1 users.toNat 1 (accInit baseLabels)).argocdPolicy)
        (fun found => decide (some (accFold w h1 users.toNat 1 (accInit baseLabels)).argocdPolicy = found.policy))
        (fun found => { found with policy := some (accFold w h1 users.toNat 1 (accInit baseLabels)).argocdPolicy }))
        (by simp [passItems, aggregateItems])
      simpa only [argoCDLabels, configMapLabels, secretLabels, e1, e4] using this
  · have := hs (clusterConfigItem d ns (clusterConfigLabels (accFold w h1 users.toNat 1 (accInit baseLabels)))
      (accFold w h1 users.toNat 1 (accInit baseLabels)).namespaceList) (by simp [passItems])
    simpa only [clusterConfigLabels, argoCDLabels, configMapLabels, secretLabels, e2, e4] using this

/-! ## A first pass converges every record -/

theorem estEnd_pre_and {p : Prop} {P : Mem → Prop} {m : Act Mem (Result × Option Err)} {R : Mem → Prop}
    (h : p → EstEnd P m R) : EstEnd (fun s => p ∧ P s) m R :=
  fun s hs => h hs.1 s hs.2

theorem est_approve_mem (ready : String → String → Bool) (hash : Nat → String → Except Err String)
    (csv name ns : String) (P : Mem → Prop) :
    Est P (approveInstallPlan (memClient none ready hash) csv name ns) (fun a m => a = none ∧ P m) :=
  fun _ hs => ⟨none, rfl, rfl, hs⟩

theorem est_status_mem (approve : Option Err) (ready : String → String → Bool)
    (hash : Nat → String → Except Err String) (name ns : String) (P : Mem → Prop)
    (hready : ready name ns = true) :
    Est P (getDeploymentStatus (memClient approve ready hash) name ns) (fun a m => a = true ∧ P m) :=
  fun _ hs => ⟨ready name ns, rfl, hready, hs⟩

theorem est_hash_mem (approve : Option Err) (ready : String → String → Bool)
    (hash : Nat → String → Except Err String) (p : String) (n : Nat) (S : List Item) :
    Est (fun m => m.hashes = n ∧ SettledAll S m) (generateFromPassword (memClient approve ready hash) p)
      (fun a m => a = hash n p ∧ (m.hashes = n + 1 ∧ SettledAll S m)) := by
  rintro s ⟨hn, hS⟩
  refine ⟨hash s.hashes p, rfl, by rw [hn], ?_, ?_⟩
  · show s.hashes + 1 = n + 1
    rw [hn]
  · intro it hit
    exact settled_objs rfl it (hS it hit)

theorem est_callItem (c : Client Mem) (it : Item) (P Q : Mem → Prop)
    (h : Est P (runItem c it) (fun _ m => Q m)) :
    Est P (callItem c it) (fun a m => a = ({}, none) ∧ Q m) := by
  intro s hs
  obtain ⟨a, ha, hq⟩ := h s hs
  rw [callItem_apply]
  refine ⟨_, rfl, ?_, hq⟩
  rw [ha]

/-- On the in-memory store with every readiness check ready and a hashing that succeeds, a pass of
`addGitOps` ends without requeue and without error and leaves every record of the pass converged. -/
theorem pass_establishes (ready : String → String → Bool) (hash : Nat → String → Except Err String)
    (d : Deps) (w : Workshop) (users : Int) (ns : String) (n : Nat) (h : String)
    (hready : ∀ name ns, ready name ns = true) (hrefl : ∀ m, d.isIntersectMap m m = true)
    (hh : hash n w.password = Except.ok h) :
    EstEnd (fun m => m.hashes = n ∧ SettledAll [] m) (passPlan (memClient none ready hash) d w users ns)
      (fun m => SettledAll (passItems d w users ns h) m) := by
  have hwf := passItems_wf d w users ns h hrefl
  have hnd := passItems_nodup d w users ns h
  have hsplit : passItems d w users ns h =
      ((([] ++ [subscriptionItem w]) ++ [namespaceItem ns]) ++
        (loopItems d w ns h users.toNat 1 (accInit baseLabels) ++
          aggregateItems d ns (accFold w h users.toNat 1 (accInit baseLabels)))) ++
      [clusterConfigItem d ns (clusterConfigLabels (accFold w h users.toNat 1 (accInit baseLabels)))
        (accFold w h users.toNat 1 (accInit baseLabels)).namespaceList] := by
    simp [passItems]
  unfold passPlan
  refine est_bind_end (est_runItem none ready hash _ [] n (hwf _ (by simp [passItems])) (by simp))
    (fun _ => ?_)
  refine est_bind_end (est_approve_mem ready hash _ _ _ _) (fun a => ?_)
  refine estEnd_pre_and (fun ha => ?_)
  subst ha
  simp only [ne_eq, not_true_eq_false, if_false]
  refine est_bind_end (est_status_mem none ready hash _ _ _ (hready _ _)) (fun a => ?_)
  refine estEnd_pre_and (fun ha => ?_)
  subst ha
  simp only [Bool.not_true, Bool.false_eq_true, if_false]
  refine est_bind_end (est_runItem none ready hash _ _ n (hwf _ (by simp [passItems])) ?_) (fun _ => ?_)
  · intro it2 hit2
    simp only [List.nil_append, List.mem_singleton] at hit2
    subst hit2
    simp [subscriptionItem, namespaceItem, Item.obj, keyOf, newRedHatSubscription, newNamespace]
  refine est_bind_end (est_hash_mem none ready hash _ n _) (fun a => ?_)
  refine estEnd_pre_and (fun ha => ?_)
  rw [hh] at ha
  subst ha
  simp only
  refine est_bind_end (est_runItems none ready hash _ (n + 1) _ ?_ ?_) (fun _ => ?_)
  · intro it hit
    exact hwf it (by simp only [passItems, List.mem_append]; exact Or.inl (Or.inr (List.mem_append.mp hit)))
  · rw [hsplit, List.map_append] at hnd
    exact hnd.of_append_left
  refine est_bind_end (est_status_mem none ready hash _ _ _ (hready _ _)) (fun a => ?_)
  refine estEnd_pre_and (fun ha => ?_)
  subst ha
  simp only [Bool.not_true, Bool.false_eq_true, if_false]
  refine est_bind_end (est_callItem _ _ _ _
    (est_runItem none ready hash _ _ (n + 1) (hwf _ (by simp [passItems])) ?_)) (fun a => ?_)
  · intro it2 hit2 he
    rw [hsplit, List.map_append, List.nodup_append] at hnd
    exact hnd.2.2 (List.mem_map_of_mem _ hit2) (by rw [he]; simp)
  refine estEnd_pre_and (fun ha => ?_)
  subst ha
  simp only
  intro s hs
  refine ⟨?_, ?_⟩
  · by_cases hq : d.isRequeued {} none = true
    · simp [hq, ret]
    · simp [hq, Act.pure]
  · have hst : (if d.isRequeued {} none = true then (ret {} none : Act Mem (Result × Option Err))
        else Act.pure ({}, none)) s = ⟨(if d.isRequeued {} none = true then Flow.ret {} none
          else Flow.next ({}, none)), s, []⟩ := by
      by_cases hq : d.isRequeued {} none = true
      · simp [hq, ret]
      · simp [hq, Act.pure]
    rw [hst, hsplit]
    exact hs.2

/-! ## A pass over converged records is quiet -/

theorem quiet_bind {α β : Type} {I : Mem → Prop} {m : Act Mem α} {f : α → Act Mem β}
    {V : α → Prop} {V2 : β → Prop}
    (hI : ∀ s1 s2 : Mem, s2.objs = s1.objs → I s1 → I s2)
    (hm : QuietAct I m V) (hf : ∀ a, V a → QuietAct I (f a) V2) :
    QuietAct I (Act.bind m f) V2 := by
  intro s hs
  obtain ⟨⟨h1, h2, h3⟩, hv⟩ := hm s hs
  rcases hms : m s with ⟨fl, s1, l1⟩
  rw [hms] at h1 h2 h3 hv
  simp only at h1 h2 h3 hv
  cases fl with
  | ret r e =>
    rw [bind_apply_ret hms]
    refine ⟨⟨h1, h2, fun r0 e0 hr => h3 r0 e0 ?_⟩, fun a ha => by simp at ha⟩
    have hr2 : (Flow.ret r e : Flow β) = Flow.ret r0 e0 := hr
    simp only [Flow.ret.injEq] at hr2
    rw [hr2.1, hr2.2]
  | next a =>
    rw [bind_apply_next hms]
    obtain ⟨⟨g1, g2, g3⟩, gv⟩ := hf a (hv a rfl) s1 (hI s s1 h1 hs)
    refine ⟨⟨by rw [g1, h1], ?_, g3⟩, gv⟩
    intro e he
    rcases List.mem_append.mp he with he | he
    · exact h2 e he
    · exact g2 e he

theorem quiet_runItem (approve : Option Err) (ready : String → String → Bool)
    (hash : Nat → String → Except Err String) (I : Mem → Prop) (it : Item)
    (hs : ∀ s, I s → Settled s it) :
    QuietAct I (runItem (memClient approve ready hash) it) (fun _ => True) := by
  intro s hI
  obtain ⟨x, hx, he⟩ := hs s hI
  obtain ⟨h1, h2, h3⟩ := runItem_mem_equal approve ready hash it s x hx he
  refine ⟨⟨by rw [h2], h3, ?_⟩, fun _ _ => trivial⟩
  intro r0 e0 hr
  rw [h1] at hr
  simp at hr

theorem quiet_runItems (approve : Option Err) (ready : String → String → Bool)
    (hash : Nat → String → Except Err String) (I : Mem → Prop) (items : List Item)
    (hI : ∀ s1 s2 : Mem, s2.objs = s1.objs → I s1 → I s2)
    (hs : ∀ s, I s → SettledAll items s) :
    QuietAct I (runItems (memClient approve ready hash) items) (fun _ => True) := by
  induction items with
  | nil =>
    intro s _
    exact ⟨⟨rfl, fun e he => by simp [runItems, pure_eq, Act.pure] at he,
      fun r0 e0 hr => by simp [runItems, pure_eq, Act.pure] at hr⟩, fun _ _ => trivial⟩
  | cons it rest ih =>
    simp only [runItems, bind_eq]
    refine quiet_bind hI (quiet_runItem approve ready hash I it (fun s h => hs s h it (by simp)))
      (fun _ _ => ih (fun s h it2 h2 => hs s h it2 (by simp [h2])))

theorem quiet_approve_mem (ready : String → String → Bool) (hash : Nat → String → Except Err String)
    (csv name ns : String) (I : Mem → Prop) :
    QuietAct I (approveInstallPlan (memClient none ready hash) csv name ns) (fun a => a = none) := by
  intro s _
  refine ⟨⟨rfl, ?_, fun r0 e0 hr => by simp [approveInstallPlan] at hr⟩, fun a ha => ?_⟩
  · intro e he
    have : e = Event.approveInstallPlan csv name ns none := by simpa [approveInstallPlan, memClient] using he
    subst this
    exact ⟨rfl, fun o x hc => by simp at hc⟩
  · have : Flow.next (none : Option Err) = Flow.next a := ha
    simp only [Flow.next.injEq] at this
    exact this.symm

theorem quiet_status_mem (approve : Option Err) (ready : String → String → Bool)
    (hash : Nat → String → Except Err String) (name ns : String) (I : Mem → Prop)
    (hready : ready name ns = true) :
    QuietAct I (getDeploymentStatus (memClient approve ready hash) name ns) (fun a => a = true) := by
  intro s _
  refine ⟨⟨rfl, ?_, fun r0 e0 hr => by simp [getDeploymentStatus] at hr⟩, fun a ha => ?_⟩
  · intro e he
    have : e = Event.deploymentStatus name ns (ready name ns) := by
      simpa [getDeploymentStatus, memClient] using he
    subst this
    exact ⟨rfl, fun o x hc => by simp at hc⟩
  · have : Flow.next (ready name ns) = Flow.next a := ha
    simp only [Flow.next.injEq] at this
    rw [← this, hready]

theorem quiet_hash_mem (approve : Option Err) (ready : String → String → Bool)
    (hash : Nat → String → Except Err String) (p : String) (I : Mem → Prop)
    (hhash : ∀ n, ∃ h, hash n p = Except.ok h) :
    QuietAct I (generateFromPassword (memClient approve ready hash) p) (fun a => ∃ h, a = Except.ok h) := by
  intro s _
  refine ⟨⟨rfl, ?_, fun r0 e0 hr => by simp [generateFromPassword] at hr⟩, fun a ha => ?_⟩
  · intro e he
    have : e = Event.hash p (hash s.hashes p) := by simpa [generateFromPassword, memClient] using he
    subst this
    exact ⟨rfl, fun o x hc => by simp at hc⟩
  · have : Flow.next (hash s.hashes p) = Flow.next a := ha
    simp only [Flow.next.injEq] at this
    obtain ⟨h, hh⟩ := hhash s.hashes
    exact ⟨h, by rw [← this, hh]⟩

theorem quiet_callItem (c : Client Mem) (it : Item) (I : Mem → Prop) (V : Unit → Prop)
    (h : QuietAct I (runItem c it) V) : QuietAct I (callItem c it) (fun a => a = ({}, none)) := by
  intro s hs
  obtain ⟨⟨h1, h2, h3⟩, _⟩ := h s hs
  rw [callItem_apply]
  refine ⟨⟨h1, h2, fun r0 e0 hr => by simp at hr⟩, fun a ha => ?_⟩
  have ha2 : Flow.next (match (runItem c it s).out with
      | Flow.next _ => (({}, none) : Result × Option Err)
      | Flow.ret r e => (r, e)) = Flow.next a := ha
  simp only [Flow.next.injEq] at ha2
  rw [← ha2]
  rcases ho : (runItem c it s).out with x | ⟨r0, e0⟩
  · rfl
  · obtain ⟨hr, he⟩ := h3 r0 e0 ho
    simp only [hr, he]

/-- On the in-memory store with every readiness check ready and a hashing that succeeds, a pass of
`addGitOps` over a store in which every record of the pass is converged changes no record, issues
no update, gets already-exists from every create and ends without requeue and without error. -/
theorem pass_quiet (ready : String → String → Bool) (hash : Nat → String → Except Err String)
    (d : Deps) (w : Workshop) (users : Int) (ns : String)
    (hready : ∀ name ns, ready name ns = true) (hhash : ∀ n, ∃ h, hash n w.password = Except.ok h) :
    QuietAct (fun m => ∀ h, SettledAll (passItems d w users ns h) m)
      (passPlan (memClient none ready hash) d w users ns) (fun res => res = ({}, none)) := by
  have hI : ∀ s1 s2 : Mem, s2.objs = s1.objs →
      (∀ h, SettledAll (passItems d w users ns h) s1) → ∀ h, SettledAll (passItems d w users ns h) s2 :=
    fun s1 s2 h12 h1 h it hit => settled_objs h12 it (h1 h it hit)
  unfold passPlan
  refine quiet_bind hI (quiet_runItem none ready hash _ _
    (fun s h => h "" _ (by simp [passItems]))) (fun _ _ => ?_)
  refine quiet_bind hI (quiet_approve_mem ready hash _ _ _ _) (fun a ha => ?_)
  subst ha
  simp only [ne_eq, not_true_eq_false, if_false]
  refine quiet_bind hI (quiet_status_mem none ready hash _ _ _ (hready _ _)) (fun a ha => ?_)
  subst ha
  simp only [Bool.not_true, Bool.false_eq_true, if_false]
  refine quiet_bind hI (quiet_runItem none ready hash _ _
    (fun s h => h "" _ (by simp [passItems]))) (fun _ _ => ?_)
  refine quiet_bind hI (quiet_hash_mem none ready hash _ _ hhash) (fun a ha => ?_)
  obtain ⟨h, rfl⟩ := ha
  simp only
  refine quiet_bind hI (quiet_runItems none ready hash _ _ hI
    (fun s hs it hit => hs h it (by
      simp only [passItems, List.mem_append]
      exact Or.inl (Or.inr (List.mem_append.mp hit))))) (fun _ _ => ?_)
  refine quiet_bind hI (quiet_status_mem none ready hash _ _ _ (hready _ _)) (fun a ha => ?_)
  subst ha
  simp only [Bool.not_true, Bool.false_eq_true, if_false]
  refine quiet_bind hI (quiet_callItem _ _ _ _ (quiet_runItem none ready hash _ _
    (fun s hs => hs h _ (by simp [passItems])))) (fun a ha => ?_)
  subst ha
  simp only
  intro s _
  by_cases hq : d.isRequeued {} none = true
  · simp only [hq, if_true]
    exact ⟨⟨rfl, fun e he => by simp [ret] at he, fun r0 e0 hr => by
      have : (Flow.ret {} none : Flow (Result × Option Err)) = Flow.ret r0 e0 := hr
      simp only [Flow.ret.injEq] at this
      exact ⟨this.1.symm, this.2.symm⟩⟩, fun a ha => by simp [ret] at ha⟩
  · simp only [hq, if_false]
    exact ⟨⟨rfl, fun e he => by simp [Act.pure] at he, fun r0 e0 hr => by simp [Act.pure] at hr⟩,
      fun a ha => by
        have : (Flow.next ({}, none) : Flow (Result × Option Err)) = Flow.next a := ha
        simp only [Flow.next.injEq] at this
        exact this.symm⟩

theorem addGitOps_st {σ : Type} (c : Client σ) (d : Deps) (w : Workshop) (users : Int) (ns : String) (s : σ) :
    (addGitOps c d w users ns s).st = (passPlan c d w users ns s).st := by
  simp only [addGitOps, Act.run, addGitOpsBody_eq]
  rcases passPlan c d w users ns s with ⟨o, s1, l⟩
  cases o <;> rfl

theorem addGitOps_result_of_next {σ : Type} (c : Client σ) (d : Deps) (w : Workshop) (users : Int)
    (ns : String) (s : σ) (a : Result × Option Err)
    (h : (passPlan c d w users ns s).out = Flow.next a) :
    (addGitOps c d w users ns s).result = a := by
  simp only [addGitOps, Act.run, addGitOpsBody_eq]
  rcases hp : passPlan c d w users ns s with ⟨o, s1, l⟩
  rw [hp] at h
  simp only at h
  subst h
  rfl

/-- C10: on a store that returns on get what was last written (the in-memory store), with every
readiness check ready, a hashing that succeeds and a map comparison that accepts equal maps, for
every workshop spec, tenant count and initial store: two passes of `addGitOps` in a row both end
without requeue and without error, and the second pass issues no update call, gets already-exists
from every create call and leaves every record as the first pass left it. -/
theorem C10_second_pass_no_update (ready : String → String → Bool) (hash : Nat → String → Except Err String)
    (d : Deps) (w : Workshop) (N : Nat) (m0 : Mem)
    (hready : ∀ name ns, ready name ns = true)
    (hhash : ∀ n, ∃ h, hash n w.password = Except.ok h)
    (hrefl : ∀ m, d.isIntersectMap m m = true) :
    (addGitOps (memClient none ready hash) d w (N : Int) "argocd" m0).result = ({}, none) ∧
    (addGitOps (memClient none ready hash) d w (N : Int) "argocd"
      (addGitOps (memClient none ready hash) d w (N : Int) "argocd" m0).st).result = ({}, none) ∧
    (∀ e ∈ (addGitOps (memClient none ready hash) d w (N : Int) "argocd"
      (addGitOps (memClient none ready hash) d w (N : Int) "argocd" m0).st).log, e.isUpdate = false) ∧
    (∀ o x, Event.create o x ∈ (addGitOps (memClient none ready hash) d w (N : Int) "argocd"
      (addGitOps (memClient none ready hash) d w (N : Int) "argocd" m0).st).log →
        x = some Err.alreadyExists) ∧
    (addGitOps (memClient none ready hash) d w (N : Int) "argocd"
      (addGitOps (memClient none ready hash) d w (N : Int) "argocd" m0).st).st.objs =
      (addGitOps (memClient none ready hash) d w (N : Int) "argocd" m0).st.objs := by
  obtain ⟨h, hh⟩ := hhash m0.hashes
  obtain ⟨hout1, hset1⟩ := pass_establishes ready hash d w (N : Int) "argocd" m0.hashes h hready hrefl hh m0
    ⟨rfl, fun _ hit => by simp at hit⟩
  have hres1 : (addGitOps (memClient none ready hash) d w (N : Int) "argocd" m0).result = ({}, none) := by
    rcases hout1 with ho | ho
    · exact addGitOps_result_of_next _ d w _ _ m0 _ ho
    · exact addGitOps_result_of_ret _ d w _ _ m0 _ _ ho
  rw [← addGitOps_st] at hset1
  obtain ⟨⟨q1, q2, q3⟩, qv⟩ := pass_quiet ready hash d w (N : Int) "argocd" hready hhash
    (addGitOps (memClient none ready hash) d w (N : Int) "argocd" m0).st
    (fun h2 => settled_transfer d w (N : Int) "argocd" h h2 _ hset1)
  refine ⟨hres1, ?_, ?_, ?_, ?_⟩
  · rcases hp : (passPlan (memClient none ready hash) d w (N : Int) "argocd"
        (addGitOps (memClient none ready hash) d w (N : Int) "argocd" m0).st).out with a | ⟨r0, e0⟩
    · rw [addGitOps_result_of_next _ d w _ _ _ _ hp]
      exact qv a hp
    · rw [addGitOps_result_of_ret _ d w _ _ _ _ _ hp]
      obtain ⟨hr, he⟩ := q3 r0 e0 hp
      rw [hr, he]
  · rw [addGitOps_log]
    exact fun e he => (q2 e he).1
  · rw [addGitOps_log]
    exact fun o x he => (q2 _ he).2 o x rfl
  · rw [addGitOps_st]
    exact q1

/-- Witness of C10: two tenants, started on a store whose configmap `argocd-cm` was published for
one tenant: the first pass issues an update, the second none. -/
theorem C10_second_pass_no_update_witness :
    (∃ e ∈ (addGitOps sampleClient sampleDeps sampleWorkshop ((2 : Nat) : Int) "argocd" staleMem).log,
      e.isUpdate = true) ∧
    (∀ e ∈ (addGitOps sampleClient sampleDeps sampleWorkshop ((2 : Nat) : Int) "argocd"
      (addGitOps sampleClient sampleDeps sampleWorkshop ((2 : Nat) : Int) "argocd" staleMem).st).log,
      e.isUpdate = false) :=
  ⟨by decide,
    (C10_second_pass_no_update (fun _ _ => true) (fun n p => Except.ok ("hash" ++ toString n ++ p))
      sampleDeps sampleWorkshop 2 staleMem (fun _ _ => rfl) (fun _ => ⟨_, rfl⟩)
      (fun m => by simp [sampleDeps])).2.2.1⟩


/-! ## The secret `argocd-secret` is only created -/

theorem keeps_bind {α β : Type} {k : Key} {x : Obj} {m : Act Mem α} {f : α → Act Mem β}
    (hm : Keeps k x m) (hf : ∀ a, Keeps k x (f a)) : Keeps k x (Act.bind m f) := by
  intro s hs
  obtain ⟨h1, h2⟩ := hm s hs
  rcases hms : m s with ⟨fl, s1, l1⟩
  rw [hms] at h1 h2
  cases fl with
  | ret r e =>
    rw [bind_apply_ret hms]
    exact ⟨h1, h2⟩
  | next a =>
    rw [bind_apply_next hms]
    obtain ⟨h3, h4⟩ := hf a s1 h1
    refine ⟨h3, fun e he => ?_⟩
    rcases List.mem_append.mp he with h | h
    · exact h2 e h
    · exact h4 e h

theorem keeps_pure {α : Type} (k : Key) (x : Obj) (a : α) : Keeps k x (Act.pure a : Act Mem α) :=
  fun _ hs => ⟨hs, fun _ he => by simp [Act.pure] at he⟩

theorem keeps_ret {α : Type} (k : Key) (x : Obj) (r : Result) (e : Option Err) :
    Keeps k x (ret r e : Act Mem α) :=
  fun _ hs => ⟨hs, fun _ he => by simp [ret] at he⟩

theorem keeps_ite {α : Type} {k : Key} {x : Obj} {p : Prop} [Decidable p] {m1 m2 : Act Mem α}
    (h1 : Keeps k x m1) (h2 : Keeps k x m2) : Keeps k x (if p then m1 else m2) := by
  by_cases hp : p
  · simpa [hp] using h1
  · simpa [hp] using h2

theorem keeps_runItem (approve : Option Err) (ready : String → String → Bool)
    (hash : Nat → String → Except Err String) (k : Key) (x : Obj) (it : Item)
    (hkey : ∀ y, keyOf (it.assign y) = keyOf y)
    (hk : keyOf it.obj = k → ∃ o, it = Item.only o) :
    Keeps k x (runItem (memClient approve ready hash) it) := by
  intro m hm
  cases hl : m.lookup (keyOf it.obj) with
  | none =>
    have hne : k ≠ keyOf it.obj := by
      intro e
      rw [← e, hm] at hl
      cases hl
    rw [runItem_mem_absent approve ready hash it m hl]
    refine ⟨?_, ?_⟩
    · show ({ m with objs := m.objs ++ [it.obj] } : Mem).lookup k = some x
      rw [lookup_insert_other hne]
      exact hm
    · intro e he
      simp only [List.mem_singleton] at he
      subst he
      rfl
  | some y =>
    cases it with
    | only o =>
      simp only [Item.obj] at hl
      simp only [runItem, createOnly, bind_eq, pure_eq]
      rw [bind_apply_next (create_mem_present approve ready hash o m y hl)]
      simp [Act.pure, Event.fetchesOrChanges, hm]
    | upd o eq asg =>
      have hne : keyOf o ≠ k := by
        intro e
        obtain ⟨o2, h2⟩ := hk e
        cases h2
      have hne2 : (⟨o.kind, o.ns, o.name⟩ : Key) ≠ k := hne
      simp only [Item.obj, Item.assign] at hl hkey
      cases heq : eq y with
      | true =>
        simp only [runItem, createOrUpdate, bind_eq, pure_eq]
        rw [bind_apply_next (create_mem_present approve ready hash o m y hl)]
        simp only [ne_eq, not_true_eq_false, if_false]
        rw [bind_apply_next (get_mem_present approve ready hash o m y hl)]
        simp [Act.pure, heq, Event.fetchesOrChanges, hm, hne2]
      | false =>
        have hky : keyOf (asg y) = keyOf o := by
          rw [hkey y]
          exact lookup_key hl
        rw [runItem_mem_differs approve ready hash (Item.upd o eq asg) m y hkey hl heq]
        refine ⟨?_, ?_⟩
        · show (m.replace (asg y)).lookup k = some x
          rw [lookup_replace_other (by rw [hky]; exact fun e => hne e.symm)]
          exact hm
        · intro e he
          simp only [Item.obj, Item.assign, List.mem_cons, List.mem_singleton, List.not_mem_nil,
            or_false] at he
          rcases he with rfl | rfl | rfl
          · rfl
          · simp [Event.fetchesOrChanges, hne2]
          · simp [Event.fetchesOrChanges, hky, hne]

theorem keeps_runItems (approve : Option Err) (ready : String → String → Bool)
    (hash : Nat → String → Except Err String) (k : Key) (x : Obj) (items : List Item)
    (h : ∀ it ∈ items, (∀ y, keyOf (it.assign y) = keyOf y) ∧ (keyOf it.obj = k → ∃ o, it = Item.only o)) :
    Keeps k x (runItems (memClient approve ready hash) items) := by
  induction items with
  | nil => exact keeps_pure k x ()
  | cons it rest ih =>
    simp only [runItems, bind_eq]
    exact keeps_bind (keeps_runItem approve ready hash k x it (h it (by simp)).1 (h it (by simp)).2)
      (fun _ => ih (fun it2 h2 => h it2 (by simp [h2])))

theorem keeps_approve_mem (approve : Option Err) (ready : String → String → Bool)
    (hash : Nat → String → Except Err String) (k : Key) (x : Obj) (csv name ns : String) :
    Keeps k x (approveInstallPlan (memClient approve ready hash) csv name ns) :=
  fun _ hs => ⟨hs, fun e he => by
    have : e = Event.approveInstallPlan csv name ns approve := by simpa [approveInstallPlan, memClient] using he
    subst this
    rfl⟩

theorem keeps_status_mem (approve : Option Err) (ready : String → String → Bool)
    (hash : Nat → String → Except Err String) (k : Key) (x : Obj) (name ns : String) :
    Keeps k x (getDeploymentStatus (memClient approve ready hash) name ns) :=
  fun _ hs => ⟨hs, fun e he => by
    have : e = Event.deploymentStatus name ns (ready name ns) := by
      simpa [getDeploymentStatus, memClient] using he
    subst this
    rfl⟩

theorem keeps_hash_mem (approve : Option Err) (ready : String → String → Bool)
    (hash : Nat → String → Except Err String) (k : Key) (x : Obj) (p : String) :
    Keeps k x (generateFromPassword (memClient approve ready hash) p) :=
  fun s hs => ⟨hs, fun e he => by
    have : e = Event.hash p (hash s.hashes p) := by simpa [generateFromPassword, memClient] using he
    subst this
    rfl⟩

theorem keeps_callItem (c : Client Mem) (k : Key) (x : Obj) (it : Item) (h : Keeps k x (runItem c it)) :
    Keeps k x (callItem c it) := by
  intro s hs
  rw [callItem_apply]
  exact h s hs

theorem loopItems_keeps_cond (d : Deps) (w : Workshop) (ns h : String) (n id : Nat) (a : Acc) (k : Key)
    (hk : k.kind = Kind.secret) :
    ∀ it ∈ loopItems d w ns h n id a,
      (∀ y, keyOf (it.assign y) = keyOf y) ∧ (keyOf it.obj = k → ∃ o, it = Item.only o) := by
  intro it hit
  refine ⟨(loopItems_wf d w ns h n id a it hit).1, fun e => ?_⟩
  have hkind : it.obj.kind = Kind.secret := by
    rw [← hk, ← e]
    rfl
  rcases loopItems_kind d w ns h n id a it hit with h1 | h1 | h1 <;> rw [h1] at hkind <;> cases hkind

theorem aggregateItems_keeps_cond (d : Deps) (ns : String) (a : Acc) :
    ∀ it ∈ aggregateItems d ns a,
      (∀ y, keyOf (it.assign y) = keyOf y) ∧ (keyOf it.obj = secretKey ns → ∃ o, it = Item.only o) := by
  intro it hit
  simp only [aggregateItems, List.mem_cons, List.mem_singleton, List.not_mem_nil, or_false] at hit
  rcases hit with rfl | rfl | rfl
  · exact ⟨fun _ => rfl, fun _ => ⟨_, rfl⟩⟩
  · exact ⟨fun _ => rfl, fun e => by simp [Item.obj, keyOf, newConfigMap, secretKey] at e⟩
  · exact ⟨fun _ => rfl, fun e => by simp [Item.obj, keyOf, newArgoCDCustomResource, secretKey] at e⟩

/-- On the in-memory store a pass of `addGitOps` neither fetches nor changes a secret
`argocd-secret` that is there when the pass starts. -/
theorem passPlan_keeps (approve : Option Err) (ready : String → String → Bool)
    (hash : Nat → String → Except Err String) (d : Deps) (w : Workshop) (users : Int) (ns : String)
    (x : Obj) : Keeps (secretKey ns) x (passPlan (memClient approve ready hash) d w users ns) := by
  unfold passPlan
  refine keeps_bind (keeps_runItem approve ready hash _ x _ (fun _ => rfl)
    (fun e => by simp [subscriptionItem, Item.obj, keyOf, newRedHatSubscription, secretKey] at e)) (fun _ => ?_)
  refine keeps_bind (keeps_approve_mem approve ready hash _ x _ _ _) (fun err => ?_)
  refine keeps_ite (keeps_ret _ _ _ _) ?_
  refine keeps_bind (keeps_status_mem approve ready hash _ x _ _) (fun r1 => ?_)
  refine keeps_ite (keeps_ret _ _ _ _) ?_
  refine keeps_bind (keeps_runItem approve ready hash _ x _ (fun _ => rfl)
    (fun e => by simp [namespaceItem, Item.obj, keyOf, newNamespace, secretKey] at e)) (fun _ => ?_)
  refine keeps_bind (keeps_hash_mem approve ready hash _ x _) (fun hashed => ?_)
  cases hashed with
  | error e => exact keeps_ret _ _ _ _
  | ok h =>
    simp only
    refine keeps_bind (keeps_runItems approve ready hash _ x _ (fun it hit => ?_)) (fun _ => ?_)
    · rcases List.mem_append.mp hit with h1 | h1
      · exact loopItems_keeps_cond d w ns h _ _ _ (secretKey ns) rfl it h1
      · exact aggregateItems_keeps_cond d ns _ it h1
    refine keeps_bind (keeps_status_mem approve ready hash _ x _ _) (fun r2 => ?_)
    refine keeps_ite (keeps_ret _ _ _ _) ?_
    refine keeps_bind (keeps_callItem _ _ x _ (keeps_runItem approve ready hash _ x _ (fun _ => rfl)
      (fun e => by simp [clusterConfigItem, Item.obj, keyOf, newStringDataSecret, secretKey] at e)))
      (fun p => ?_)
    exact keeps_ite (keeps_ret _ _ _ _) (keeps_pure _ _ _)

/-! ## Claim on the secret `argocd-secret` -/

/-- C11 (the claim as stated fails): on a store that holds `argocd-secret` with the credential keys
of two tenants, a pass of `addGitOps` for three tenants ends without error, issues no get and no
update for that secret, and leaves it with the two keys it had: the key of the third tenant is not
added. -/
theorem C11_secret_left_stale :
    (addGitOps sampleClient sampleDeps sampleWorkshop 3 "argocd" staleSecretMem).result = ({}, none) ∧
    (∀ e ∈ (addGitOps sampleClient sampleDeps sampleWorkshop 3 "argocd" staleSecretMem).log,
      e.fetchesOrChanges (secretKey "argocd") = false) ∧
    stringDataKeys (addGitOps sampleClient sampleDeps sampleWorkshop 3 "argocd" staleSecretMem).st
      (secretKey "argocd") = some ["accounts.user1.password", "accounts.user2.password"] ∧
    stringDataKeys (addGitOps sampleClient sampleDeps sampleWorkshop 3 "argocd" staleSecretMem).st
      (secretKey "argocd") ≠
        some ["accounts.user1.password", "accounts.user2.password", "accounts.user3.password"] := by
  decide

/-- C11 (amended): the secret `argocd-secret` is only created. For every in-memory store in which
it already exists, whatever its string data, a pass of `addGitOps` issues no get, update, patch or
delete for it and leaves the stored record as it was, however the pass ends. -/
theorem C11_secret_created_only (approve : Option Err) (ready : String → String → Bool)
    (hash : Nat → String → Except Err String) (d : Deps) (w : Workshop) (users : Int) (ns : String)
    (m0 : Mem) (x : Obj) (hx : m0.lookup (secretKey ns) = some x) :
    (addGitOps (memClient approve ready hash) d w users ns m0).st.lookup (secretKey ns) = some x ∧
    ∀ e ∈ (addGitOps (memClient approve ready hash) d w users ns m0).log,
      e.fetchesOrChanges (secretKey ns) = false := by
  rw [addGitOps_st, addGitOps_log]
  exact passPlan_keeps approve ready hash d w users ns x m0 hx

/-- Witness of C11 (amended): the store holding `argocd-secret` published for two tenants, and a
pass for three. -/
theorem C11_secret_created_only_witness :
    staleSecretMem.lookup (secretKey "argocd") =
      some (newStringDataSecret "argocd-secret" "argocd" []
        [("accounts.user1.password", "old"), ("accounts.user2.password", "old")]) ∧
    (addGitOps sampleClient sampleDeps sampleWorkshop 3 "argocd" staleSecretMem).st.lookup (secretKey "argocd") =
      some (newStringDataSecret "argocd-secret" "argocd" []
        [("accounts.user1.password", "old"), ("accounts.user2.password", "old")]) :=
  ⟨by decide,
    (C11_secret_created_only none (fun _ _ => true) (fun n p => Except.ok ("hash" ++ toString n ++ p))
      sampleDeps sampleWorkshop 3 "argocd" staleSecretMem _ (by decide)).1⟩


/-! ## Claims on the staging credential file -/

/-- C13 (the code departs from the claim): when the removal of the staging file fails,
`CreateUserHTPasswd` does not return: the failure is handed to `log.Fatal`, which ends the process.
In `reconcileUser` the removal is then the last call: the cluster OAuth record is not read and the
identity-provider patch step is not reached. -/
theorem C13_failed_removal_is_fatal :
    (CreateUserHTPasswd removeFailsClient sampleUserDeps twoTenants emptyMem).result =
      Except.error Halt.fatal ∧
    (reconcileUser removeFailsClient sampleDeps sampleUserDeps twoTenants 10 emptyMem).result =
      Except.error Halt.fatal ∧
    (reconcileUser removeFailsClient sampleDeps sampleUserDeps twoTenants 10 emptyMem).log.getLast? =
      some (Event.removeFile stagingPath (some (Err.other "permission denied"))) ∧
    (∀ e ∈ (reconcileUser removeFailsClient sampleDeps sampleUserDeps twoTenants 10 emptyMem).log,
      e.isOauthGet = false ∧ e.isPatch = false) ∧
    (∃ e ∈ (reconcileUser sampleUserClient sampleDeps sampleUserDeps twoTenants 10 emptyMem).log,
      e.isOauthGet = true) := by
  decide

/-- C14 (the code departs from the claim): when the create of the credential secret fails with an
error other than already-exists, and when the secret exists and its delete fails,
`CreateUserHTPasswd` returns that error at once and issues no removal of the staging file; on the
paths that publish the secret the removal is the last call. -/
theorem C14_removal_skipped_on_error :
    (CreateUserHTPasswd createFailsClient sampleUserDeps twoTenants emptyMem).result =
      Except.ok ({}, some (Err.other "forbidden")) ∧
    (∀ e ∈ (CreateUserHTPasswd createFailsClient sampleUserDeps twoTenants emptyMem).log,
      e.isRemove = false) ∧
    (CreateUserHTPasswd deleteFailsClient sampleUserDeps twoTenants publishedMem).result =
      Except.ok ({}, some (Err.other "forbidden")) ∧
    (∀ e ∈ (CreateUserHTPasswd deleteFailsClient sampleUserDeps twoTenants publishedMem).log,
      e.isRemove = false) ∧
    (CreateUserHTPasswd sampleUserClient sampleUserDeps twoTenants emptyMem).log.getLast? =
      some (Event.removeFile stagingPath none) ∧
    (CreateUserHTPasswd sampleUserClient sampleUserDeps twoTenants publishedMem).log.getLast? =
      some (Event.removeFile stagingPath none) := by
  decide

/-! ## Claim on the grammar of the policy lines -/

/-- C15 (the code departs from the claim): the third policy line of a tenant, the one for
`projects`, has no blank after the comma that follows the action `*`, so that cut at a comma and
one blank it has five fields, the fourth being `*,proj1`; the three other `p` lines have six fields
and the `g` line has three. -/
theorem C15_projects_line_five_fields :
    (linesOf (userPolicy sampleWorkshop 1)).map fieldsOf =
      [ ["p", "role:user1", "applications", "*", "proj1/*", "allow"],
        ["p", "role:user1", "clusters", "get", "https://kubernetes.default.svc", "allow"],
        ["p", "role:user1", "projects", "*,proj1", "allow"],
        ["p", "role:user1", "repositories", "*", "http://gitea-server.gitea.svc:3000/user1/*", "allow"],
        ["g", "user1", "role:user1"] ] ∧
    (storedPolicy (addGitOps sampleClient sampleDeps sampleWorkshop 2 "argocd" emptyMem).st "argocd").map
      (fun p => (linesOf p).map (fun l => (fieldsOf l).length)) = some [6, 6, 5, 6, 3, 6, 6, 5, 6, 3] := by
  decide

/-! ## Claim on the tenant name -/

/-- C16 (the code departs from the claim): with the tenant name prefix `dev`, `reconcileUser`
creates the users `dev1` and `dev2` and `CreateUserHTPasswd` asks for the credential lines of `dev1`
and `dev2`, while `addGitOps` keys the credential map by `user1` and `user2` and writes `user1` and
`user2` into the policy lines: `addGitOps` does not read the prefix. -/
theorem C16_gitops_name_ignores_stem :
    createdNames Kind.user (reconcileUser sampleUserClient sampleDeps sampleUserDeps devWorkshop 10 emptyMem).log =
      ["dev1", "dev2"] ∧
    passwdNames (CreateUserHTPasswd sampleUserClient sampleUserDeps devWorkshop emptyMem).log =
      ["dev1", "dev2"] ∧
    stringDataKeys (addGitOps sampleClient sampleDeps devWorkshop 2 "argocd" emptyMem).st (secretKey "argocd") =
      some ["accounts.user1.password", "accounts.user2.password"] ∧
    (storedPolicy (addGitOps sampleClient sampleDeps devWorkshop 2 "argocd" emptyMem).st "argocd").map
      (fun p => ((linesOf p).get? 4, (linesOf p).get? 9)) =
      some (some "g, user1, role:user1", some "g, user2, role:user2") ∧
    (∀ id, tenantName devWorkshop id = "dev" ++ toString id) ∧
    (∀ id, username id = "user" ++ toString id) := by
  refine ⟨by decide, by decide, by decide, by decide, fun _ => rfl, fun _ => rfl⟩


/-! ## Sequencing under a condition on the calls -/

/-- Sequencing under a condition `G` on the calls that holds of a list when it holds of its two
parts: the first part goes on, and the second part is looked at after the calls of the first. -/
theorem post_condBind {σ α β : Type} {G : List Event → Prop} {m : Act σ α} {f : α → Act σ β}
    {R1 : α → List Event → Prop} {T : Flow β → List Event → Prop}
    (hG : ∀ l1 l2, G (l1 ++ l2) → G l1 ∧ G l2)
    (hm : Post m (fun o l => G l → ∃ a, o = Flow.next a ∧ R1 a l))
    (hf : ∀ a l1, R1 a l1 → Post (f a) (fun o l2 => G l2 → T o (l1 ++ l2))) :
    Post (Act.bind m f) (fun o l => G l → T o l) := by
  intro s
  have h1 := hm s
  rcases hms : m s with ⟨fl, s1, l1⟩
  rw [hms] at h1
  cases fl with
  | ret r e =>
    rw [bind_apply_ret hms]
    intro hok
    obtain ⟨a, ha, _⟩ := h1 hok
    simp at ha
  | next a =>
    rw [bind_apply_next hms]
    intro hok
    obtain ⟨hok1, hok2⟩ := hG _ _ hok
    obtain ⟨a1, ha, hR⟩ := h1 hok1
    simp only [Flow.next.injEq] at ha
    subst ha
    exact hf a l1 hR s1 hok2

theorem call_apply {σ : Type} (m : Act σ (Result × Option Err)) (s : σ) :
    call m s = ⟨Flow.next (m.run s).result, (m.run s).st, (m.run s).log⟩ := by
  simp only [call, Act.run]
  rcases m s with ⟨o, s1, l⟩
  cases o <;> rfl

theorem runHalt_log {σ : Type} (m : Act σ (Except Halt (Result × Option Err))) (s : σ) :
    (m.runHalt s).log = (m s).log := by
  simp only [Act.runHalt]
  rcases m s with ⟨o, s1, l⟩
  cases o <;> rfl

theorem run_log {σ : Type} (m : Act σ (Result × Option Err)) (s : σ) :
    (m.run s).log = (m s).log := by
  simp only [Act.run]
  rcases m s with ⟨o, s1, l⟩
  cases o <;> rfl

/-- A call of a function whose body, under the condition `G` on its calls, ends with the pair `v`. -/
theorem post_call_cond {σ : Type} {G : List Event → Prop} {m : Act σ (Result × Option Err)}
    {v : Result × Option Err} {Q : List Event → Prop}
    (hm : Post m (fun o l => G l → (o = Flow.next v ∨ o = Flow.ret v.1 v.2) ∧ Q l)) :
    Post (call m) (fun o l => G l → ∃ a, o = Flow.next a ∧ (a = v ∧ Q l)) := by
  intro s
  have h := hm s
  rw [call_apply, run_log]
  intro hG
  obtain ⟨ho, hQ⟩ := h hG
  refine ⟨_, rfl, ?_, hQ⟩
  simp only [Act.run]
  rcases hms : m s with ⟨o, s1, l⟩
  rw [hms] at ho
  rcases ho with ho | ho
  · simp only at ho
    subst ho
    rfl
  · simp only at ho
    subst ho
    rfl

/-! ## The delete calls of `deleteUsers` -/

theorem deletesOk_append (l1 l2 : List Event) : DeletesOk (l1 ++ l2) → DeletesOk l1 ∧ DeletesOk l2 :=
  fun h => ⟨fun e he => h e (List.mem_append.mpr (Or.inl he)),
    fun e he => h e (List.mem_append.mpr (Or.inr he))⟩

theorem deletesOf_append (l1 l2 : List Event) : deletesOf (l1 ++ l2) = deletesOf l1 ++ deletesOf l2 := by
  simp [deletesOf, List.filterMap_append]

theorem post_delete {σ : Type} (u : UserClient σ) (o : Obj) :
    Post (delete u o) (fun out l => ∃ r, out = Flow.next r ∧ l = [Event.delete o r]) :=
  fun _ => ⟨_, rfl, rfl⟩

/-- The calls of a delete statement: the delete, and a `return` when it failed. -/
theorem post_deleteOrReturn {σ : Type} (u : UserClient σ) (o : Obj) :
    Post (deleteOrReturn u o) (fun out l => ∃ r, l = [Event.delete o r] ∧
      (r = none ∧ out = Flow.next () ∨ ∃ e, r = some e ∧ out = Flow.ret {} (some e))) := by
  intro s
  simp only [deleteOrReturn, bind_eq, pure_eq]
  have hd : delete u o s = ⟨Flow.next (u.delete o s).1, (u.delete o s).2, [Event.delete o (u.delete o s).1]⟩ := rfl
  rw [bind_apply_next hd]
  refine ⟨(u.delete o s).1, ?_, ?_⟩
  · cases (u.delete o s).1 <;> simp [Act.pure, ret]
  · cases (u.delete o s).1 <;> simp [Act.pure, ret]

theorem post_deleteOrReturn_ok {σ : Type} (u : UserClient σ) (o : Obj) :
    Post (deleteOrReturn u o) (fun out l => DeletesOk l → ∃ a, out = Flow.next a ∧ l = [Event.delete o none]) := by
  refine post_mono (post_deleteOrReturn u o) ?_
  rintro out l ⟨r, rfl, h⟩ hok
  rcases h with ⟨rfl, h⟩ | ⟨e, rfl, _⟩
  · exact ⟨(), h, rfl⟩
  · have := hok _ (List.mem_singleton.mpr rfl)
    simp [Event.deleteFailed] at this

/-- When no delete fails, `deleteOpenshiftUser` issues the get of the user and then the four
deletes of the tenant in the order mapping, identity, role binding, user, and returns no error. -/
theorem post_deleteOpenshiftUser {σ : Type} (u : UserClient σ) (ud : UserDeps) (w : Workshop)
    (name : String) (id : Int) :
    Post (deleteOpenshiftUser u ud w name id) (fun o l => DeletesOk l →
      (o = Flow.next ({}, none) ∨ o = Flow.ret {} none) ∧
      ∃ res, l = Event.get Kind.user name "" res ::
        (tenantDeletes ud w name (userFoundOf res)).map (fun x => Event.delete x none)) := by
  unfold deleteOpenshiftUser
  simp only [bind_eq, pure_eq]
  have hget : Post (get u.toClient Kind.user name "")
      (fun o l => DeletesOk l → ∃ a, o = Flow.next a ∧ l = [Event.get Kind.user name "" a]) :=
    fun _ _ => ⟨_, rfl, rfl⟩
  refine post_condBind deletesOk_append hget ?_
  rintro res _ rfl
  refine post_condBind deletesOk_append (post_deleteOrReturn_ok u _) ?_
  rintro _ _ rfl
  refine post_condBind deletesOk_append (post_deleteOrReturn_ok u _) ?_
  rintro _ _ rfl
  refine post_condBind deletesOk_append (post_deleteOrReturn_ok u _) ?_
  rintro _ _ rfl
  refine post_condBind deletesOk_append (post_deleteOrReturn_ok u _) ?_
  rintro _ _ rfl
  intro s _
  exact ⟨Or.inl rfl, res, by simp [Act.pure, tenantDeletes]⟩

theorem incr_of_lt {id : Int} (h : id < maxInt) : incr id = id + 1 := by
  unfold incr
  rw [if_neg (ne_of_lt h)]

theorem deletesOf_tenant (name : String) (res : Except Err Obj) (l : List Obj) :
    deletesOf (Event.get Kind.user name "" res :: l.map (fun x => Event.delete x none)) = l := by
  simp only [deletesOf, List.filterMap_cons, Event.deleted]
  induction l with
  | nil => rfl
  | cons x xs ih => simp [List.filterMap_cons, Event.deleted, ih]

/-- When no delete fails and `IsRequeued` lets a return without error pass, the loop of
`deleteUsers`, started at a tenant index `id` with `n` tenants to go and at least `n` iterations
granted, first issues the deletes of those `n` tenants, tenant after tenant. -/
theorem deleteUsersLoop_deletes {σ : Type} (u : UserClient σ) (d : Deps) (ud : UserDeps) (w : Workshop)
    (hreq : d.isRequeued {} none = false) (hmax : w.numberOfUsers ≤ maxInt) :
    ∀ (n fuel id : Nat), n ≤ fuel → ((id + n : Nat) : Int) ≤ w.numberOfUsers + 1 →
      Post (deleteUsersLoop u d ud w fuel (id : Int)) (fun _ l => DeletesOk l →
        ∃ found : Nat → Obj,
          (List.range' id n).flatMap (fun k => tenantDeletes ud w (tenantName w k) (found k)) <+:
            deletesOf l) := by
  intro n
  induction n with
  | zero =>
    intro fuel id _ _ s _
    exact ⟨fun _ => emptyUser, by simp⟩
  | succ n ih =>
    intro fuel id hfuel hid
    obtain ⟨f, rfl⟩ : ∃ f, fuel = f + 1 := ⟨fuel - 1, by omega⟩
    have hle : ((id : Nat) : Int) ≤ w.numberOfUsers := by
      push_cast at hid
      omega
    simp only [deleteUsersLoop, bind_eq, hle, if_true]
    refine post_condBind deletesOk_append
      (post_call_cond (post_deleteOpenshiftUser u ud w (tenantName w id) id)) ?_
    rintro _ _ ⟨rfl, res, rfl⟩
    simp only [hreq, Bool.false_eq_true, if_false]
    by_cases hn : n = 0
    · subst hn
      intro s _
      refine ⟨fun _ => userFoundOf res, ?_⟩
      rw [deletesOf_append, deletesOf_tenant]
      simp
    · have hlt : ((id : Nat) : Int) < maxInt := by
        push_cast at hid
        omega
      rw [incr_of_lt hlt]
      have hih := ih f (id + 1) (by omega) (by push_cast at hid ⊢; omega)
      intro s hok
      obtain ⟨found, hp⟩ := (show Post (deleteUsersLoop u d ud w f (((id + 1 : Nat)) : Int)) _ from hih) s hok
      refine ⟨fun k => if k = id then userFoundOf res else found k, ?_⟩
      rw [deletesOf_append, deletesOf_tenant]
      have hcast : ((id : Nat) : Int) + 1 = ((id + 1 : Nat) : Int) := by push_cast; rfl
      rw [hcast]
      rw [List.range'_succ, List.flatMap_cons]
      simp only [if_true]
      have hcongr : (List.range' (id + 1) n).flatMap
            (fun k => tenantDeletes ud w (tenantName w k) (if k = id then userFoundOf res else found k)) =
          (List.range' (id + 1) n).flatMap (fun k => tenantDeletes ud w (tenantName w k) (found k)) := by
        simp only [List.flatMap]
        congr 1
        apply List.map_congr_left
        intro k hk
        have : k ≠ id := by
          have := (List.mem_range'_1.mp hk).1
          omega
        simp [this]
      rw [hcongr]
      exact (List.prefix_append_right_inj _).mpr hp

/-- The deletes that the loop of `deleteUsers` has issued stay in front when the body goes on. -/
theorem deleteUsersBody_deletes {σ : Type} (u : UserClient σ) (d : Deps) (ud : UserDeps) (w : Workshop)
    (fuel : Nat) (P : List Obj → Prop) (hP : ∀ l1 l2, P l1 → P (l1 ++ l2))
    (hloop : Post (deleteUsersLoop u d ud w fuel 1) (fun _ l => DeletesOk l → P (deletesOf l))) :
    Post (deleteUsersBody u d ud w fuel) (fun _ l => DeletesOk l → P (deletesOf l)) := by
  intro s
  have h := hloop s
  simp only [deleteUsersBody, bind_eq]
  rcases hms : deleteUsersLoop u d ud w fuel 1 s with ⟨fl, s1, l1⟩
  rw [hms] at h
  cases fl with
  | ret r e =>
    rw [bind_apply_ret hms]
    exact h
  | next a =>
    rw [bind_apply_next hms]
    intro hok
    rw [deletesOf_append]
    exact hP _ _ (h (deletesOk_append _ _ hok).1)

/-! ## Claim on the order of the delete calls -/

/-- C12: for every tenant count `N` (of a Go `int`), every name prefix, every client and store, and
at least `N` iterations granted to the loop: when every delete call of `deleteUsers` succeeds (and
`IsRequeued` lets a return without error pass), its delete calls start with the four deletes of
tenant 1 in the order user-identity mapping, identity, role binding, user, then the four of
tenant 2, and so on up to tenant `N`; `found k` is the user record the get of tenant `k` answered. -/
theorem C12_delete_order {σ : Type} (u : UserClient σ) (d : Deps) (ud : UserDeps) (w : Workshop)
    (N fuel : Nat) (s : σ) (hw : w.numberOfUsers = (N : Int)) (hmax : (N : Int) ≤ maxInt)
    (hreq : d.isRequeued {} none = false) (hfuel : N ≤ fuel)
    (hok : DeletesOk (deleteUsers u d ud w fuel s).log) :
    ∃ found : Nat → Obj,
      (List.range' 1 N).flatMap (fun k => tenantDeletes ud w (tenantName w k) (found k)) <+:
        deletesOf (deleteUsers u d ud w fuel s).log := by
  have hloop := deleteUsersLoop_deletes u d ud w hreq (by rw [hw]; exact hmax) N fuel 1 hfuel
    (by rw [hw]; push_cast; omega)
  have hbody := deleteUsersBody_deletes u d ud w fuel
    (fun l => ∃ found : Nat → Obj,
      (List.range' 1 N).flatMap (fun k => tenantDeletes ud w (tenantName w k) (found k)) <+: l)
    (fun l1 l2 ⟨found, h⟩ => ⟨found, h.trans (List.prefix_append l1 l2)⟩) hloop s
  simp only [deleteUsers, runHalt_log] at hok ⊢
  exact hbody hok

/-- Witness of C12: two tenants on the in-memory store left by `reconcileUser`: the eight deletes of
the two tenants come first, in the order of the claim. -/
theorem C12_delete_order_witness :
    DeletesOk (deleteUsers sampleUserClient sampleDeps sampleUserDeps twoTenants 10
      (reconcileUser sampleUserClient sampleDeps sampleUserDeps twoTenants 10 emptyMem).st).log ∧
    (deletesOf (deleteUsers sampleUserClient sampleDeps sampleUserDeps twoTenants 10
      (reconcileUser sampleUserClient sampleDeps sampleUserDeps twoTenants 10 emptyMem).st).log).map keyOf =
      [ ⟨Kind.userIdentityMapping, "", "htpass-workshop-users:user1"⟩,
        ⟨Kind.identity, "", "htpass-workshop-users:user1"⟩,
        ⟨Kind.roleBinding, "workshop-infra", "user1-workshop-user"⟩,
        ⟨Kind.user, "", "user1"⟩,
        ⟨Kind.userIdentityMapping, "", "htpass-workshop-users:user2"⟩,
        ⟨Kind.identity, "", "htpass-workshop-users:user2"⟩,
        ⟨Kind.roleBinding, "workshop-infra", "user2-workshop-user"⟩,
        ⟨Kind.user, "", "user2"⟩,
        ⟨Kind.secret, "openshift-config", "htpass-workshop-users"⟩ ] ∧
    ∃ found : Nat → Obj,
      (List.range' 1 2).flatMap
          (fun k => tenantDeletes sampleUserDeps twoTenants (tenantName twoTenants k) (found k)) <+:
        deletesOf (deleteUsers sampleUserClient sampleDeps sampleUserDeps twoTenants 10
          (reconcileUser sampleUserClient sampleDeps sampleUserDeps twoTenants 10 emptyMem).st).log :=
  ⟨by decide, by decide,
    C12_delete_order sampleUserClient sampleDeps sampleUserDeps twoTenants 2 10 _ rfl (by decide) rfl
      (by decide) (by decide)⟩


/-! ## Calls that are not a get of the cluster OAuth record -/

theorem post_call_all {σ : Type} (X : Event → Bool) {m : Act σ (Result × Option Err)}
    (hm : Post m (fun _ l => ∀ e ∈ l, X e = false)) :
    Post (call m) (fun _ l => ∀ e ∈ l, X e = false) := by
  intro s
  rw [call_apply, run_log]
  exact hm s

theorem callHalt_log {σ : Type} (m : Act σ (Except Halt (Result × Option Err))) (s : σ) :
    (callHalt m s).log = (m s).log := by
  simp only [callHalt]
  rcases m s with ⟨o, s1, l⟩
  cases o <;> rfl

theorem post_callHalt_all {σ : Type} (X : Event → Bool) {m : Act σ (Except Halt (Result × Option Err))}
    (hm : Post m (fun _ l => ∀ e ∈ l, X e = false)) :
    Post (callHalt m) (fun _ l => ∀ e ∈ l, X e = false) := by
  intro s
  rw [callHalt_log]
  exact hm s

theorem post_createOnly_all {σ : Type} (c : Client σ) (X : Event → Bool) (o : Obj)
    (hX : ∀ r, X (Event.create o r) = false) :
    Post (createOnly c o) (fun _ l => ∀ e ∈ l, X e = false) := by
  refine post_mono (post_createOnly c o) ?_
  rintro out l ⟨r, rfl, _⟩ e he
  rw [List.mem_singleton.mp he]
  exact hX r

theorem post_deleteOrReturn_all {σ : Type} (u : UserClient σ) (X : Event → Bool) (o : Obj)
    (hX : ∀ r, X (Event.delete o r) = false) :
    Post (deleteOrReturn u o) (fun _ l => ∀ e ∈ l, X e = false) := by
  refine post_mono (post_deleteOrReturn u o) ?_
  rintro out l ⟨r, rfl, _⟩ e he
  rw [List.mem_singleton.mp he]
  exact hX r

theorem post_get_all {σ : Type} (c : Client σ) (X : Event → Bool) (k : Kind) (name ns : String)
    (hX : ∀ r, X (Event.get k name ns r) = false) :
    Post (get c k name ns) (fun _ l => ∀ e ∈ l, X e = false) := by
  refine post_mono (post_get c k name ns) ?_
  rintro out l ⟨r, _, rfl⟩ e he
  rw [List.mem_singleton.mp he]
  exact hX r

theorem post_pure_all {σ α : Type} (X : Event → Bool) (a : α) :
    Post (Act.pure a : Act σ α) (fun _ l => ∀ e ∈ l, X e = false) :=
  post_all_nil X _ (fun _ => rfl)

theorem post_ret_all {σ α : Type} (X : Event → Bool) (r : Result) (e : Option Err) :
    Post (ret r e : Act σ α) (fun _ l => ∀ e ∈ l, X e = false) :=
  post_all_nil X _ (fun _ => rfl)

/-- The calls of `addUser` are creates and a get of a user. -/
theorem addUser_no_oauth {σ : Type} (c : Client σ) (ud : UserDeps) (w : Workshop) (name : String) (id : Int) :
    Post (addUser c ud w name id) (fun _ l => ∀ e ∈ l, e.isOauthGet = false) := by
  unfold addUser
  simp only [bind_eq, pure_eq]
  refine post_all_bind _ (post_createOnly_all c _ _ (fun _ => rfl)) (fun _ => ?_)
  refine post_all_bind _ (post_createOnly_all c _ _ (fun _ => rfl)) (fun _ => ?_)
  refine post_all_bind _ (post_get_all c _ _ _ _ (fun _ => rfl)) (fun _ => ?_)
  refine post_all_bind _ (post_createOnly_all c _ _ (fun _ => rfl)) (fun _ => ?_)
  refine post_all_bind _ (post_createOnly_all c _ _ (fun _ => rfl)) (fun _ => ?_)
  exact post_pure_all _ _

/-- The calls of the loop of `reconcileUser` are those of `addUser` and gets of a user. -/
theorem reconcileUserLoop_no_oauth {σ : Type} (u : UserClient σ) (d : Deps) (ud : UserDeps) (w : Workshop) :
    ∀ (fuel : Nat) (id : Int),
      Post (reconcileUserLoop u d ud w fuel id) (fun _ l => ∀ e ∈ l, e.isOauthGet = false) := by
  intro fuel
  induction fuel with
  | zero =>
    intro id
    exact post_pure_all _ _
  | succ f ih =>
    intro id
    simp only [reconcileUserLoop, bind_eq, pure_eq]
    refine post_ite (fun _ => ?_) (fun _ => ?_)
    · refine post_all_bind _ (post_call_all _ (addUser_no_oauth _ ud w _ id)) (fun a => ?_)
      exact post_ite (fun _ => post_ret_all _ _ _) (fun _ => ih _)
    · refine post_all_bind _ (post_get_all _ _ _ _ _ (fun _ => rfl)) (fun res => ?_)
      cases res with
      | error e => exact post_ite (fun _ => post_pure_all _ _) (fun _ => ih _)
      | ok _ => exact ih _

theorem passwdLoop_no_oauth {σ : Type} (u : UserClient σ) (w : Workshop) :
    ∀ (n id : Nat), Post (passwdLoop u w n id) (fun _ l => ∀ e ∈ l, e.isOauthGet = false) := by
  intro n
  induction n with
  | zero =>
    intro id
    exact post_pure_all _ _
  | succ n ih =>
    intro id
    simp only [passwdLoop, bind_eq]
    refine post_all_bind _ ?_ (fun _ => ih _)
    intro s e he
    have : e = Event.generatePasswd (tenantName w id) := by simpa [generatePasswd] using he
    rw [this]
    rfl

/-- The calls of `CreateUserHTPasswd` are file calls and creates and deletes of the secret. -/
theorem createUserHTPasswd_no_oauth {σ : Type} (u : UserClient σ) (ud : UserDeps) (w : Workshop) :
    Post (createUserHTPasswdBody u ud w) (fun _ l => ∀ e ∈ l, e.isOauthGet = false) := by
  unfold createUserHTPasswdBody
  simp only [bind_eq, pure_eq]
  refine post_all_bind _ (passwdLoop_no_oauth u w _ _) (fun _ => ?_)
  refine post_all_bind _ ?_ (fun read => ?_)
  · intro s e he
    have : e = Event.readFile stagingPath (u.readFile stagingPath s).1 := by simpa [readFile] using he
    rw [this]
    rfl
  refine post_all_bind _ ?_ (fun err => ?_)
  · refine post_mono (post_create u.toClient _) ?_
    rintro out l ⟨r, _, rfl⟩ e he
    rw [List.mem_singleton.mp he]
    rfl
  refine post_all_bind _ ?_ (fun _ => ?_)
  · cases err with
    | none => exact post_pure_all _ _
    | some e =>
      refine post_ite (fun _ => post_ret_all _ _ _) (fun _ => ?_)
      refine post_all_bind _ (post_deleteOrReturn_all u _ _ (fun _ => rfl)) (fun _ => ?_)
      exact post_createOnly_all _ _ _ (fun _ => rfl)
  refine post_all_bind _ ?_ (fun rm => ?_)
  · intro s e he
    have : e = Event.removeFile stagingPath (u.removeFile stagingPath s).1 := by simpa [removeFile] using he
    rw [this]
    rfl
  exact post_ite (fun _ => post_pure_all _ _) (fun _ => post_pure_all _ _)

/-! ## A failed get in the user reconciler -/

theorem patchOauthLoop_no_oauth {σ : Type} (c : Client σ) (vs : List IdentityProvider) :
    ∀ cur : Obj, Post (patchOauthLoop c vs cur) (fun _ l => ∀ e ∈ l, e.isOauthGet = false) := by
  induction vs with
  | nil =>
    intro cur
    exact post_pure_all _ _
  | cons v rest ih =>
    intro cur
    simp only [patchOauthLoop, bind_eq, pure_eq]
    refine post_all_bind _ ?_ (fun cur1 => ?_)
    · refine post_ite (fun _ => ?_) (fun _ => post_pure_all _ _)
      refine post_all_bind _ ?_ (fun err => ?_)
      · intro s e he
        rw [patch_apply] at he
        rw [List.mem_singleton.mp he]
        rfl
      · cases err with
        | none => exact post_pure_all _ _
        | some e => exact post_ite (fun _ => post_ret_all _ _ _) (fun _ => post_pure_all _ _)
    · exact post_ite (fun _ => post_pure_all _ _) (fun _ => ih _)

/-- When the get of the cluster OAuth record fails, `PatchOauth` issues no other call and returns
no error. -/
theorem patchOauth_get_failed {σ : Type} (c : Client σ) (s : σ) (e : Err)
    (h : (c.get Kind.oauth "cluster" "" s).1 = Except.error e) :
    patchOauthBody c s =
      ⟨Flow.next ({}, none), (c.get Kind.oauth "cluster" "" s).2,
        [Event.get Kind.oauth "cluster" "" (Except.error e)]⟩ := by
  simp only [patchOauthBody, bind_eq, pure_eq]
  rw [bind_apply_next (get_apply c Kind.oauth "cluster" "" s), h]
  simp [Act.pure]

/-- A failed get of the cluster OAuth record among the calls of `PatchOauth` means it returned no error. -/
theorem post_patchOauth_failed {σ : Type} (c : Client σ) :
    Post (patchOauthBody c) (fun o l =>
      (∃ e, Event.get Kind.oauth "cluster" "" (Except.error e) ∈ l) → o = Flow.next ({}, none)) := by
  intro s
  cases hres : (c.get Kind.oauth "cluster" "" s).1 with
  | error e =>
    rw [patchOauth_get_failed c s e hres]
    exact fun _ => rfl
  | ok found =>
    rintro ⟨e, he⟩
    exfalso
    simp only [patchOauthBody, bind_eq, pure_eq] at he
    rw [bind_apply_next (get_apply c Kind.oauth "cluster" "" s), hres] at he
    simp only [List.singleton_append, List.mem_cons, Event.get.injEq, true_and, reduceCtorEq, false_or] at he
    have hall := post_all_bind Event.isOauthGet (patchOauthLoop_no_oauth c found.identityProviders found)
      (fun _ => post_pure_all Event.isOauthGet (({}, none) : Result × Option Err))
      (c.get Kind.oauth "cluster" "" s).2 _ he
    simp [Event.isOauthGet] at hall

theorem mem_oauth_append {l1 l2 : List Event} (h1 : ∀ x ∈ l1, x.isOauthGet = false)
    (h : ∃ e, Event.get Kind.oauth "cluster" "" (Except.error e) ∈ l1 ++ l2) :
    ∃ e, Event.get Kind.oauth "cluster" "" (Except.error e) ∈ l2 := by
  obtain ⟨e, he⟩ := h
  rcases List.mem_append.mp he with he | he
  · have := h1 _ he
    simp [Event.isOauthGet] at this
  · exact ⟨e, he⟩

/-- A failed get of the cluster OAuth record among the calls of `reconcileUser` means that
`reconcileUser` went on to its end and returned no error. -/
theorem post_reconcileUser_failed {σ : Type} (u : UserClient σ) (d : Deps) (ud : UserDeps) (w : Workshop)
    (fuel : Nat) :
    Post (reconcileUserBody u d ud w fuel) (fun o l =>
      (∃ e, Event.get Kind.oauth "cluster" "" (Except.error e) ∈ l) → o = Flow.next (Except.ok ({}, none))) := by
  have hlast : Post (Act.bind (call (patchOauthBody u.toClient)) (fun p =>
      if p.2 ≠ none then (ret p.1 p.2 : Act σ (Except Halt (Result × Option Err)))
      else Act.pure (Except.ok ({}, none))))
      (fun o l => (∃ e, Event.get Kind.oauth "cluster" "" (Except.error e) ∈ l) →
        o = Flow.next (Except.ok ({}, none))) := by
    intro s hmem
    have hp := post_patchOauth_failed u.toClient s
    rw [bind_apply_next (call_apply (patchOauthBody u.toClient) s)] at hmem ⊢
    simp only [run_log] at hmem ⊢
    have hr : ((patchOauthBody u.toClient).run s).result = ({}, none) := by
      obtain ⟨e, he⟩ := hmem
      have hout := hp ⟨e, by
        rcases List.mem_append.mp he with h | h
        · exact h
        · exfalso
          revert h
          generalize ((patchOauthBody u.toClient).run s).result = q
          obtain ⟨q1, q2⟩ := q
          by_cases hq : q2 = none <;> simp [hq, ret, Act.pure]⟩
      simp only [Act.run]
      rcases hms : patchOauthBody u.toClient s with ⟨o, s1, l⟩
      rw [hms] at hout
      simp only at hout
      subst hout
      rfl
    rw [hr]
    simp [Act.pure]
  have hafter : ∀ created : Except Halt (Result × Option Err), Post
      (match created with
        | Except.error h => (Act.pure (Except.error h) : Act σ (Except Halt (Result × Option Err)))
        | Except.ok (result, err) =>
          if err ≠ none then ret result err
          else Act.bind (call (patchOauthBody u.toClient)) (fun p =>
            if p.2 ≠ none then (ret p.1 p.2 : Act σ (Except Halt (Result × Option Err)))
            else Act.pure (Except.ok ({}, none))))
      (fun o l => (∃ e, Event.get Kind.oauth "cluster" "" (Except.error e) ∈ l) →
        o = Flow.next (Except.ok ({}, none))) := by
    intro created
    cases created with
    | error h =>
      rintro s ⟨e, he⟩
      simp [Act.pure] at he
    | ok p =>
      obtain ⟨result, err⟩ := p
      refine post_ite (fun _ => ?_) (fun _ => hlast)
      rintro s ⟨e, he⟩
      simp [ret] at he
  have hcreate : Post (Act.bind (callHalt (createUserHTPasswdBody u ud w)) (fun created =>
      match created with
        | Except.error h => (Act.pure (Except.error h) : Act σ (Except Halt (Result × Option Err)))
        | Except.ok (result, err) =>
          if err ≠ none then ret result err
          else Act.bind (call (patchOauthBody u.toClient)) (fun p =>
            if p.2 ≠ none then (ret p.1 p.2 : Act σ (Except Halt (Result × Option Err)))
            else Act.pure (Except.ok ({}, none)))))
      (fun o l => (∃ e, Event.get Kind.oauth "cluster" "" (Except.error e) ∈ l) →
        o = Flow.next (Except.ok ({}, none))) := by
    refine post_bind (post_callHalt_all _ (createUserHTPasswd_no_oauth u ud w)) hafter
      (fun r e l h1 h => ?_) (fun a l1 o l2 h1 h2 h => h2 (mem_oauth_append h1 h))
    obtain ⟨e1, he1⟩ := h
    have := h1 _ he1
    simp [Event.isOauthGet] at this
  have hloop : ∀ looped : Except Halt Unit, Post
      (match looped with
        | Except.error h => (Act.pure (Except.error h) : Act σ (Except Halt (Result × Option Err)))
        | Except.ok _ => Act.bind (callHalt (createUserHTPasswdBody u ud w)) (fun created =>
          match created with
            | Except.error h => (Act.pure (Except.error h) : Act σ (Except Halt (Result × Option Err)))
            | Except.ok (result, err) =>
              if err ≠ none then ret result err
              else Act.bind (call (patchOauthBody u.toClient)) (fun p =>
                if p.2 ≠ none then (ret p.1 p.2 : Act σ (Except Halt (Result × Option Err)))
                else Act.pure (Except.ok ({}, none)))))
      (fun o l => (∃ e, Event.get Kind.oauth "cluster" "" (Except.error e) ∈ l) →
        o = Flow.next (Except.ok ({}, none))) := by
    intro looped
    cases looped with
    | error h =>
      rintro s ⟨e, he⟩
      simp [Act.pure] at he
    | ok _ => exact hcreate
  unfold reconcileUserBody
  simp only [bind_eq, pure_eq]
  refine post_bind (reconcileUserLoop_no_oauth u d ud w fuel 1) hloop
    (fun r e l h1 h => ?_) (fun a l1 o l2 h1 h2 h => h2 (mem_oauth_append h1 h))
  obtain ⟨e1, he1⟩ := h
  have := h1 _ he1
  simp [Event.isOauthGet] at this

theorem goesOn_after_create {ud : UserDeps} {w : Workshop} {name : String}
    {o : Flow (Result × Option Err)} {ob : Obj} {r : Option Err} {l2 : List Event}
    (h : GoesOn ud w name o l2) : GoesOn ud w name o ([Event.create ob r] ++ l2) := by
  rintro ⟨e, he⟩
  have he2 : Event.get Kind.user name "" (Except.error e) ∈ l2 := by
    simpa using he
  obtain ⟨⟨x, hx⟩, h2⟩ := h ⟨e, he2⟩
  refine ⟨⟨x, List.mem_append.mpr (Or.inr hx)⟩, fun hc => ?_⟩
  obtain ⟨ho, y, hy⟩ := h2 (fun o1 x1 h1 => hc o1 x1 (List.mem_append.mpr (Or.inr h1)))
  exact ⟨ho, y, List.mem_append.mpr (Or.inr hy)⟩

theorem goesOn_createOnly {σ : Type} (c : Client σ) (ud : UserDeps) (w : Workshop) (name : String)
    (ob : Obj) {m : Act σ (Result × Option Err)} (hm : Post m (GoesOn ud w name)) :
    Post (Act.bind (createOnly c ob) (fun _ => m)) (GoesOn ud w name) := by
  refine post_bind (post_createOnly c ob) (fun _ => hm) ?_ ?_
  · rintro r e l ⟨x, rfl, _⟩ ⟨e1, he1⟩
    simp at he1
  · rintro _ l1 o l2 ⟨x, rfl, _⟩ h2
    exact goesOn_after_create h2

/-- The two creates that end `addUser`, after a get that failed. -/
theorem goesOn_tail {σ : Type} (c : Client σ) (ud : UserDeps) (w : Workshop) (name : String) :
    Post (Act.bind (createOnly c (ud.newIdentity w name emptyUser)) (fun _ =>
      Act.bind (createOnly c (ud.newUserIdentityMapping w name)) (fun _ =>
        (Act.pure ({}, none) : Act σ (Result × Option Err)))))
      (fun o l => (∃ x, Event.create (ud.newIdentity w name emptyUser) x ∈ l) ∧
        (CreatesPass l → (o = Flow.next ({}, none) ∨ o = Flow.ret {} none) ∧
          ∃ y, Event.create (ud.newUserIdentityMapping w name) y ∈ l)) := by
  have hlast : Post (Act.bind (createOnly c (ud.newUserIdentityMapping w name)) (fun _ =>
        (Act.pure ({}, none) : Act σ (Result × Option Err))))
      (fun o l => CreatesPass l → (o = Flow.next ({}, none) ∨ o = Flow.ret {} none) ∧
          ∃ y, Event.create (ud.newUserIdentityMapping w name) y ∈ l) := by
    refine post_bind (post_createOnly c _) (fun _ => post_pure _) ?_ ?_
    · rintro r e l ⟨x, rfl, h⟩ hc
      rcases h with ⟨_, h⟩ | ⟨e1, rfl, hne, _⟩
      · simp at h
      · rcases hc _ _ (List.mem_singleton.mpr rfl) with h | h
        · simp at h
        · simp only [Option.some.injEq] at h
          exact absurd h hne
    · rintro _ l1 o l2 ⟨x, rfl, _⟩ ⟨rfl, rfl⟩ _
      exact ⟨Or.inl rfl, x, by simp⟩
  refine post_bind (post_createOnly c _) (fun _ => hlast) ?_ ?_
  · rintro r e l ⟨x, rfl, h⟩
    refine ⟨⟨x, by simp⟩, fun hc => ?_⟩
    rcases h with ⟨_, h⟩ | ⟨e1, rfl, hne, _⟩
    · simp at h
    · rcases hc _ _ (List.mem_singleton.mpr rfl) with h | h
      · simp at h
      · simp only [Option.some.injEq] at h
        exact absurd h hne
  · rintro _ l1 o l2 ⟨x, rfl, _⟩ h2
    refine ⟨⟨x, by simp⟩, fun hc => ?_⟩
    obtain ⟨ho, y, hy⟩ := h2 (fun o1 x1 h1 => hc o1 x1 (List.mem_append.mpr (Or.inr h1)))
    exact ⟨ho, y, List.mem_append.mpr (Or.inr hy)⟩

/-- A failed get of the user does not stop `addUser`. -/
theorem addUser_goesOn {σ : Type} (c : Client σ) (ud : UserDeps) (w : Workshop) (name : String) (id : Int) :
    Post (addUser c ud w name id) (GoesOn ud w name) := by
  unfold addUser
  simp only [bind_eq, pure_eq]
  refine goesOn_createOnly c ud w name _ ?_
  refine goesOn_createOnly c ud w name _ ?_
  intro s
  rw [bind_apply_next (get_apply c Kind.user name "" s)]
  cases hres : (c.get Kind.user name "" s).1 with
  | ok found =>
    rintro ⟨e, he⟩
    exfalso
    simp only [List.singleton_append, List.mem_cons, Event.get.injEq, true_and, reduceCtorEq, false_or] at he
    have hall : ∀ x ∈ (Act.bind (createOnly c (ud.newIdentity w name (userFoundOf (Except.ok found)))) (fun _ =>
        Act.bind (createOnly c (ud.newUserIdentityMapping w name)) (fun _ =>
          (Act.pure ({}, none) : Act σ (Result × Option Err)))) (c.get Kind.user name "" s).2).log,
        Event.isOauthGet x = false ∧ (∃ ob r, x = Event.create ob r) := by
      have h1 := post_createOnly c (ud.newIdentity w name (userFoundOf (Except.ok found)))
        (c.get Kind.user name "" s).2
      rcases hms : createOnly c (ud.newIdentity w name (userFoundOf (Except.ok found)))
        (c.get Kind.user name "" s).2 with ⟨fl, s1, l1⟩
      rw [hms] at h1
      obtain ⟨x1, hl1, _⟩ := h1
      simp only at hl1
      subst hl1
      cases fl with
      | ret r e1 =>
        rw [bind_apply_ret hms]
        intro x hx
        rw [List.mem_singleton.mp hx]
        exact ⟨rfl, _, _, rfl⟩
      | next a =>
        rw [bind_apply_next hms]
        have h2 := post_createOnly c (ud.newUserIdentityMapping w name) s1
        rcases hms2 : createOnly c (ud.newUserIdentityMapping w name) s1 with ⟨fl2, s2, l2⟩
        rw [hms2] at h2
        obtain ⟨x2, hl2, _⟩ := h2
        simp only at hl2
        subst hl2
        cases fl2 with
        | ret r e1 =>
          rw [bind_apply_ret hms2]
          intro x hx
          simp only [List.singleton_append, List.mem_cons, List.mem_singleton, List.not_mem_nil, or_false] at hx
          rcases hx with rfl | rfl
          · exact ⟨rfl, _, _, rfl⟩
          · exact ⟨rfl, _, _, rfl⟩
        | next a2 =>
          rw [bind_apply_next hms2]
          intro x hx
          simp only [Act.pure, List.append_nil, List.singleton_append, List.mem_cons, List.mem_singleton,
            List.not_mem_nil, or_false] at hx
          rcases hx with rfl | rfl
          · exact ⟨rfl, _, _, rfl⟩
          · exact ⟨rfl, _, _, rfl⟩
    obtain ⟨_, ob, r, hx⟩ := hall _ he
    cases hx
  | error e0 =>
    have ht := goesOn_tail c ud w name (c.get Kind.user name "" s).2
    intro _
    obtain ⟨⟨x, hx⟩, h2⟩ := ht
    refine ⟨⟨x, List.mem_append.mpr (Or.inr hx)⟩, fun hc => ?_⟩
    obtain ⟨ho, y, hy⟩ := h2 (fun o1 x1 h1 => hc o1 x1 (List.mem_append.mpr (Or.inr h1)))
    exact ⟨ho, y, List.mem_append.mpr (Or.inr hy)⟩

theorem run_result_of_out {σ : Type} (m : Act σ (Result × Option Err)) (s : σ) (v : Result × Option Err)
    (h : (m s).out = Flow.next v ∨ (m s).out = Flow.ret v.1 v.2) : (m.run s).result = v := by
  simp only [Act.run]
  rcases hms : m s with ⟨o, s1, l⟩
  rw [hms] at h
  rcases h with h | h
  · simp only at h
    subst h
    rfl
  · simp only at h
    subst h
    rfl

theorem runHalt_result_of_next {σ : Type} (m : Act σ (Except Halt (Result × Option Err))) (s : σ)
    (v : Except Halt (Result × Option Err)) (h : (m s).out = Flow.next v) : (m.runHalt s).result = v := by
  simp only [Act.runHalt]
  rcases hms : m s with ⟨o, s1, l⟩
  rw [hms] at h
  simp only at h
  subst h
  rfl

/-! ## Claim on a failed get -/

/-- C17 (the code departs from the claim): on a client whose get of a user fails, `addUser` does
not return the error: it goes on, issues the create of an identity built from the zero user record
and the create of the user-identity mapping, and returns no error; on a store without the cluster
OAuth record the get of `PatchOauth` fails, `PatchOauth` returns no error, and `reconcileUser`
returns an empty result and no error, that failed get being its last call. -/
theorem C17_failed_get_not_fatal :
    ((addUser userGetFailsClient.toClient sampleUserDeps twoTenants "user1" 1).run emptyMem).result =
      ({}, none) ∧
    ((addUser userGetFailsClient.toClient sampleUserDeps twoTenants "user1" 1).run emptyMem).log =
      [ Event.create (sampleUserDeps.newUser twoTenants "user1") none,
        Event.create (sampleUserDeps.newRoleBindingUsers twoTenants "user1" "workshop-infra"
          "workshop-user" "ClusterRole") none,
        Event.get Kind.user "user1" "" (Except.error (Err.other "timeout")),
        Event.create (sampleUserDeps.newIdentity twoTenants "user1" emptyUser) none,
        Event.create (sampleUserDeps.newUserIdentityMapping twoTenants "user1") none ] ∧
    (PatchOauth sampleClient emptyMem).result = ({}, none) ∧
    (PatchOauth sampleClient emptyMem).log =
      [Event.get Kind.oauth "cluster" "" (Except.error Err.notFound)] ∧
    (reconcileUser sampleUserClient sampleDeps sampleUserDeps twoTenants 10 emptyMem).result =
      Except.ok ({}, none) ∧
    (reconcileUser sampleUserClient sampleDeps sampleUserDeps twoTenants 10 emptyMem).log.getLast? =
      some (Event.get Kind.oauth "cluster" "" (Except.error Err.notFound)) := by
  decide

/-- The departure of the code on a failed get is the same for every client and store. When the
get of the user in `addUser` fails, the body goes past it: the create of an identity built from the
zero user record is issued and, unless a create fails with an error other than already-exists, so
is the create of the user-identity mapping, and no error is returned. When the get of the cluster
OAuth record fails, `PatchOauth` issues no other call and returns no error, and a `reconcileUser`
that met this failure returns no error to its caller. -/
theorem failed_get_not_returned {σ : Type} (u : UserClient σ) (d : Deps) (ud : UserDeps) (w : Workshop) :
    (∀ (name : String) (id : Int) (s : σ),
      (∃ e, Event.get Kind.user name "" (Except.error e) ∈ ((addUser u.toClient ud w name id).run s).log) →
        (∃ x, Event.create (ud.newIdentity w name emptyUser) x ∈
          ((addUser u.toClient ud w name id).run s).log) ∧
        (CreatesPass ((addUser u.toClient ud w name id).run s).log →
          ((addUser u.toClient ud w name id).run s).result = ({}, none) ∧
          ∃ y, Event.create (ud.newUserIdentityMapping w name) y ∈
            ((addUser u.toClient ud w name id).run s).log)) ∧
    (∀ (s : σ) (e : Err), (u.get Kind.oauth "cluster" "" s).1 = Except.error e →
      (PatchOauth u.toClient s).result = ({}, none) ∧
      (PatchOauth u.toClient s).log = [Event.get Kind.oauth "cluster" "" (Except.error e)]) ∧
    (∀ (fuel : Nat) (s : σ),
      (∃ e, Event.get Kind.oauth "cluster" "" (Except.error e) ∈ (reconcileUser u d ud w fuel s).log) →
        (reconcileUser u d ud w fuel s).result = Except.ok ({}, none)) := by
  refine ⟨fun name id s hget => ?_, fun s e h => ?_, fun fuel s hget => ?_⟩
  · have h := addUser_goesOn u.toClient ud w name id s
    rw [run_log] at hget ⊢
    obtain ⟨h1, h2⟩ := h hget
    refine ⟨h1, fun hc => ?_⟩
    obtain ⟨ho, hy⟩ := h2 hc
    exact ⟨run_result_of_out _ s ({}, none) ho, hy⟩
  · have hb := patchOauth_get_failed u.toClient s e h
    simp only [PatchOauth, Act.run, hb]
    exact ⟨trivial, trivial⟩
  · have h := post_reconcileUser_failed u d ud w fuel s
    simp only [reconcileUser, runHalt_log] at hget ⊢
    exact runHalt_result_of_next _ s _ (h hget)

/-! ## One iteration of the loop of `reconcileUser` -/

/-- An iteration for a tenant index within the count: the call of `addUser`, then the `return` or
the next iteration. -/
theorem reconcileUserLoop_tenant {σ : Type} (u : UserClient σ) (d : Deps) (ud : UserDeps) (w : Workshop)
    (f : Nat) (id : Int) (s : σ) (h : id ≤ w.numberOfUsers) :
    reconcileUserLoop u d ud w (f + 1) id s =
      if d.isRequeued ((addUser u.toClient ud w (tenantName w id) id).run s).result.1
          ((addUser u.toClient ud w (tenantName w id) id).run s).result.2 = true then
        ⟨Flow.ret ((addUser u.toClient ud w (tenantName w id) id).run s).result.1
            ((addUser u.toClient ud w (tenantName w id) id).run s).result.2,
          ((addUser u.toClient ud w (tenantName w id) id).run s).st,
          ((addUser u.toClient ud w (tenantName w id) id).run s).log⟩
      else
        ⟨(reconcileUserLoop u d ud w f (incr id) ((addUser u.toClient ud w (tenantName w id) id).run s).st).out,
          (reconcileUserLoop u d ud w f (incr id) ((addUser u.toClient ud w (tenantName w id) id).run s).st).st,
          ((addUser u.toClient ud w (tenantName w id) id).run s).log ++
            (reconcileUserLoop u d ud w f (incr id)
              ((addUser u.toClient ud w (tenantName w id) id).run s).st).log⟩ := by
  simp only [reconcileUserLoop, bind_eq, h, if_true]
  rw [bind_apply_next (call_apply _ s)]
  by_cases hq : d.isRequeued ((addUser u.toClient ud w (tenantName w id) id).run s).result.1
      ((addUser u.toClient ud w (tenantName w id) id).run s).result.2 = true
  · simp [hq, ret]
  · simp [hq]

/-- An iteration for an index beyond the count: the get of the user, then the `break` or the next
iteration. -/
theorem reconcileUserLoop_probe {σ : Type} (u : UserClient σ) (d : Deps) (ud : UserDeps) (w : Workshop)
    (f : Nat) (id : Int) (s : σ) (h : ¬ id ≤ w.numberOfUsers) :
    reconcileUserLoop u d ud w (f + 1) id s =
      if (u.get Kind.user (ud.newUser w (tenantName w id)).name "" s).1 = Except.error Err.notFound then
        ⟨Flow.next (Except.ok ()), (u.get Kind.user (ud.newUser w (tenantName w id)).name "" s).2,
          [probe ud w id (u.get Kind.user (ud.newUser w (tenantName w id)).name "" s).1]⟩
      else
        ⟨(reconcileUserLoop u d ud w f (incr id)
            (u.get Kind.user (ud.newUser w (tenantName w id)).name "" s).2).out,
          (reconcileUserLoop u d ud w f (incr id)
            (u.get Kind.user (ud.newUser w (tenantName w id)).name "" s).2).st,
          [probe ud w id (u.get Kind.user (ud.newUser w (tenantName w id)).name "" s).1] ++
            (reconcileUserLoop u d ud w f (incr id)
              (u.get Kind.user (ud.newUser w (tenantName w id)).name "" s).2).log⟩ := by
  simp only [reconcileUserLoop, bind_eq, pure_eq, h, if_false]
  rw [bind_apply_next (get_apply u.toClient Kind.user _ "" s)]
  cases hres : (u.get Kind.user (ud.newUser w (tenantName w id)).name "" s).1 with
  | ok found => simp [probe, hres]
  | error e =>
    by_cases he : e = Err.notFound
    · simp [he, Act.pure, probe, hres]
    · simp [he, probe, hres]

/-! ## The loop of `reconcileUser` ends at the first absent user -/

/-- The iterations of the tenants `id, ..., N`: when every `addUser` succeeds, the loop has issued
their calls, one `addUser` after the other, when it comes to the index `N + 1`. -/
theorem reconcileUserLoop_tenants {σ : Type} (u : UserClient σ) (d : Deps) (ud : UserDeps) (w : Workshop)
    (N : Nat) (I : σ → Prop) (hw : w.numberOfUsers = (N : Int)) (hmax : (N : Int) < maxInt)
    (hadd : ∀ (id : Int) (s : σ), I s → 1 ≤ id → id ≤ w.numberOfUsers →
      d.isRequeued ((addUser u.toClient ud w (tenantName w id) id).run s).result.1
        ((addUser u.toClient ud w (tenantName w id) id).run s).result.2 = false ∧
      I ((addUser u.toClient ud w (tenantName w id) id).run s).st) :
    ∀ (n id : Nat) (s : σ) (f : Nat), I s → 1 ≤ id → id + n = N + 1 →
      I (addUsersFrom u.toClient ud w n id s).1 ∧
      reconcileUserLoop u d ud w (n + f) (id : Int) s =
        ⟨(reconcileUserLoop u d ud w f ((N + 1 : Nat) : Int) (addUsersFrom u.toClient ud w n id s).1).out,
          (reconcileUserLoop u d ud w f ((N + 1 : Nat) : Int) (addUsersFrom u.toClient ud w n id s).1).st,
          (addUsersFrom u.toClient ud w n id s).2 ++
            (reconcileUserLoop u d ud w f ((N + 1 : Nat) : Int) (addUsersFrom u.toClient ud w n id s).1).log⟩ := by
  intro n
  induction n with
  | zero =>
    intro id s f hs _ hid
    have : id = N + 1 := by omega
    subst this
    refine ⟨hs, ?_⟩
    simp only [addUsersFrom, Nat.zero_add, List.nil_append]
  | succ n ih =>
    intro id s f hs h1 hid
    have hle : ((id : Nat) : Int) ≤ w.numberOfUsers := by
      rw [hw]
      exact_mod_cast (by omega : id ≤ N)
    obtain ⟨hq, hI⟩ := hadd id s hs (by exact_mod_cast h1) hle
    have hlt : ((id : Nat) : Int) < maxInt := lt_of_le_of_lt (by rw [← hw]; exact hle) hmax
    obtain ⟨hI2, hrun⟩ := ih (id + 1) _ f hI (by omega) (by omega)
    refine ⟨hI2, ?_⟩
    have hfuel : n + 1 + f = (n + f) + 1 := by omega
    rw [hfuel, reconcileUserLoop_tenant u d ud w (n + f) id s hle]
    simp only [hq, Bool.false_eq_true, if_false]
    rw [incr_of_lt hlt]
    have hcast : ((id : Nat) : Int) + 1 = ((id + 1 : Nat) : Int) := by push_cast; rfl
    rw [hcast, hrun]
    simp only [addUsersFrom, List.append_assoc]

/-- The iterations beyond the count: when the get of the index `k0` answers not-found, the loop
ends at the first index from `id` on whose get answers not-found, having issued one get per index. -/
theorem reconcileUserLoop_probes {σ : Type} (u : UserClient σ) (d : Deps) (ud : UserDeps) (w : Workshop)
    (N : Nat) (I : σ → Prop) (hw : w.numberOfUsers = (N : Int))
    (hget : ∀ (name : String) (s : σ), I s → I (u.get Kind.user name "" s).2)
    (k0 : Nat) (hk0 : (k0 : Int) ≤ maxInt)
    (hnf : ∀ s, I s →
      (u.get Kind.user (ud.newUser w (tenantName w k0)).name "" s).1 = Except.error Err.notFound) :
    ∀ (gap id : Nat) (s : σ), I s → N < id → id + gap = k0 →
      ∃ k, id ≤ k ∧ k ≤ k0 ∧ ∃ answers : Nat → Except Err Obj,
        answers k = Except.error Err.notFound ∧
        (∀ j, id ≤ j → j < k → answers j ≠ Except.error Err.notFound) ∧
        ∀ f, k - id + 1 ≤ f →
          (reconcileUserLoop u d ud w f (id : Int) s).out = Flow.next (Except.ok ()) ∧
          (reconcileUserLoop u d ud w f (id : Int) s).log =
            (List.range' id (k - id + 1)).map (fun (j : Nat) => probe ud w (j : Int) (answers j)) := by
  intro gap
  induction gap with
  | zero =>
    intro id s hs hN hid
    have hid0 : id = k0 := by omega
    subst hid0
    have hnot : ¬ ((id : Nat) : Int) ≤ w.numberOfUsers := by
      rw [hw]
      exact_mod_cast (by omega : ¬ id ≤ N)
    refine ⟨id, le_refl _, le_refl _, fun _ => Except.error Err.notFound, rfl, fun j h1 h2 => by omega, ?_⟩
    intro f hf
    obtain ⟨f1, rfl⟩ : ∃ f1, f = f1 + 1 := ⟨f - 1, by omega⟩
    rw [reconcileUserLoop_probe u d ud w f1 id s hnot]
    simp [hnf s hs]
  | succ g ih =>
    intro id s hs hN hid
    have hnot : ¬ ((id : Nat) : Int) ≤ w.numberOfUsers := by
      rw [hw]
      exact_mod_cast (by omega : ¬ id ≤ N)
    by_cases hres : (u.get Kind.user (ud.newUser w (tenantName w id)).name "" s).1 = Except.error Err.notFound
    · refine ⟨id, le_refl _, by omega, fun _ => Except.error Err.notFound, rfl, fun j h1 h2 => by omega, ?_⟩
      intro f hf
      obtain ⟨f1, rfl⟩ : ∃ f1, f = f1 + 1 := ⟨f - 1, by omega⟩
      rw [reconcileUserLoop_probe u d ud w f1 id s hnot]
      simp [hres]
    · have hlt : ((id : Nat) : Int) < maxInt :=
        lt_of_lt_of_le (by exact_mod_cast (by omega : id < k0)) hk0
      obtain ⟨k, hk1, hk2, answers, ha1, ha2, hrun⟩ :=
        ih (id + 1) _ (hget (ud.newUser w (tenantName w id)).name s hs) (by omega) (by omega)
      refine ⟨k, by omega, hk2,
        fun j => if j = id then (u.get Kind.user (ud.newUser w (tenantName w id)).name "" s).1 else answers j,
        ?_, ?_, ?_⟩
      · have : k ≠ id := by omega
        simp [this, ha1]
      · intro j h1 h2
        by_cases hj : j = id
        · simp only [hj, if_true]
          exact hres
        · simp only [hj, if_false]
          exact ha2 j (by omega) h2
      · intro f hf
        obtain ⟨f1, rfl⟩ : ∃ f1, f = f1 + 1 := ⟨f - 1, by omega⟩
        rw [reconcileUserLoop_probe u d ud w f1 id s hnot]
        simp only [hres, if_false]
        rw [incr_of_lt hlt]
        have hcast : ((id : Nat) : Int) + 1 = ((id + 1 : Nat) : Int) := by push_cast; rfl
        rw [hcast]
        obtain ⟨ho, hl⟩ := hrun f1 (by omega)
        refine ⟨ho, ?_⟩
        have hlen : k - id + 1 = (k - (id + 1) + 1) + 1 := by omega
        have hlist : (List.range' id (k - id + 1)).map (fun (j : Nat) => probe ud w (j : Int)
              (if j = id then (u.get Kind.user (ud.newUser w (tenantName w id)).name "" s).1 else answers j)) =
            probe ud w (id : Int) (u.get Kind.user (ud.newUser w (tenantName w id)).name "" s).1 ::
              (List.range' (id + 1) (k - (id + 1) + 1)).map
                (fun (j : Nat) => probe ud w (j : Int) (answers j)) := by
          rw [hlen, List.range'_succ, List.map_cons]
          simp only [if_true, List.cons.injEq, true_and]
          apply List.map_congr_left
          intro j hj
          have : j ≠ id := by
            have := (List.mem_range'_1.mp hj).1
            omega
          simp [this]
        rw [hl, hlist]
        rfl

/-- When no probe beyond the count answers not-found and every `addUser` succeeds, the loop is
still running after any number of iterations. -/
theorem reconcileUserLoop_running {σ : Type} (u : UserClient σ) (d : Deps) (ud : UserDeps) (w : Workshop)
    (I : σ → Prop)
    (hadd : ∀ (id : Int) (s : σ), I s → id ≤ w.numberOfUsers →
      d.isRequeued ((addUser u.toClient ud w (tenantName w id) id).run s).result.1
        ((addUser u.toClient ud w (tenantName w id) id).run s).result.2 = false ∧
      I ((addUser u.toClient ud w (tenantName w id) id).run s).st)
    (hget : ∀ (name : String) (s : σ), I s → I (u.get Kind.user name "" s).2)
    (hfound : ∀ (id : Int) (s : σ), I s → ¬ id ≤ w.numberOfUsers →
      (u.get Kind.user (ud.newUser w (tenantName w id)).name "" s).1 ≠ Except.error Err.notFound) :
    ∀ (fuel : Nat) (id : Int) (s : σ), I s →
      (reconcileUserLoop u d ud w fuel id s).out = Flow.next (Except.error Halt.running) := by
  intro fuel
  induction fuel with
  | zero =>
    intro id s _
    rfl
  | succ f ih =>
    intro id s hs
    by_cases h : id ≤ w.numberOfUsers
    · obtain ⟨hq, hI⟩ := hadd id s hs h
      rw [reconcileUserLoop_tenant u d ud w f id s h]
      simp only [hq, Bool.false_eq_true, if_false]
      exact ih _ _ hI
    · rw [reconcileUserLoop_probe u d ud w f id s h]
      simp only [hfound id s hs h, if_false]
      exact ih _ _ (hget _ s hs)

/-! ## Claim on the loop of `reconcileUser` -/

/-- C18: for every tenant count `N >= 0`, every client, and every property `I` of the store that
the gets of the loop keep. First part: when every `addUser` for an index in `1..N` succeeds and
keeps `I`, and the get of some index `k0 > N` (of a Go `int`) answers not-found on every store
satisfying `I`, the loop ends: there is a first index `k` in `N+1..k0` whose get answers
not-found, and with `k` or more iterations granted the loop is left by its `break`, its calls being
those of `addUser` for 1, 2, ..., `N`, one after the other, followed by one get for each index
`N+1, ..., k` and by nothing else. Second part: when every `addUser` succeeds and no get of an index
beyond `N` answers not-found, the loop is still running after any number of iterations, and
`reconcileUser` does not return. -/
theorem C18_loop_ends_at_first_absent {σ : Type} (u : UserClient σ) (d : Deps) (ud : UserDeps)
    (w : Workshop) (N : Nat) (I : σ → Prop) (hw : w.numberOfUsers = (N : Int))
    (hget : ∀ (name : String) (s : σ), I s → I (u.get Kind.user name "" s).2) :
    (∀ (k0 : Nat) (s0 : σ), I s0 → N < k0 → (k0 : Int) ≤ maxInt →
      (∀ (id : Int) (s : σ), I s → 1 ≤ id → id ≤ w.numberOfUsers →
        d.isRequeued ((addUser u.toClient ud w (tenantName w id) id).run s).result.1
          ((addUser u.toClient ud w (tenantName w id) id).run s).result.2 = false ∧
        I ((addUser u.toClient ud w (tenantName w id) id).run s).st) →
      (∀ s, I s →
        (u.get Kind.user (ud.newUser w (tenantName w k0)).name "" s).1 = Except.error Err.notFound) →
      ∃ k, N < k ∧ k ≤ k0 ∧ ∃ answers : Nat → Except Err Obj,
        answers k = Except.error Err.notFound ∧
        (∀ j, N < j → j < k → answers j ≠ Except.error Err.notFound) ∧
        ∀ fuel, k ≤ fuel →
          (reconcileUserLoop u d ud w fuel 1 s0).out = Flow.next (Except.ok ()) ∧
          (reconcileUserLoop u d ud w fuel 1 s0).log =
            (addUsersFrom u.toClient ud w N 1 s0).2 ++
              (List.range' (N + 1) (k - N)).map (fun (j : Nat) => probe ud w (j : Int) (answers j))) ∧
    (∀ (s0 : σ), I s0 →
      (∀ (id : Int) (s : σ), I s → id ≤ w.numberOfUsers →
        d.isRequeued ((addUser u.toClient ud w (tenantName w id) id).run s).result.1
          ((addUser u.toClient ud w (tenantName w id) id).run s).result.2 = false ∧
        I ((addUser u.toClient ud w (tenantName w id) id).run s).st) →
      (∀ (id : Int) (s : σ), I s → ¬ id ≤ w.numberOfUsers →
        (u.get Kind.user (ud.newUser w (tenantName w id)).name "" s).1 ≠ Except.error Err.notFound) →
      ∀ fuel,
        (reconcileUserLoop u d ud w fuel 1 s0).out = Flow.next (Except.error Halt.running) ∧
        (reconcileUser u d ud w fuel s0).result = Except.error Halt.running) := by
  refine ⟨fun k0 s0 hs0 hk hmax hadd hnf => ?_, fun s0 hs0 hadd hfound fuel => ?_⟩
  · have hNmax : (N : Int) < maxInt := lt_of_lt_of_le (by exact_mod_cast hk) hmax
    have hten := reconcileUserLoop_tenants u d ud w N I hw hNmax hadd N 1 s0
    obtain ⟨k, hk1, hk2, answers, ha1, ha2, hrun⟩ :=
      reconcileUserLoop_probes u d ud w N I hw hget k0 hmax hnf (k0 - (N + 1)) (N + 1)
        (addUsersFrom u.toClient ud w N 1 s0).1 (hten 0 hs0 (le_refl _) (by omega)).1 (by omega) (by omega)
    refine ⟨k, by omega, hk2, answers, ha1, fun j h1 h2 => ha2 j (by omega) h2, fun fuel hfuel => ?_⟩
    obtain ⟨f, rfl⟩ : ∃ f, fuel = N + f := ⟨fuel - N, by omega⟩
    obtain ⟨_, heq⟩ := hten f hs0 (le_refl _) (by omega)
    obtain ⟨ho, hl⟩ := hrun f (by omega)
    have h1 : ((1 : Nat) : Int) = 1 := rfl
    rw [h1] at heq
    rw [heq]
    refine ⟨ho, ?_⟩
    simp only
    rw [hl]
    have hlen : k - (N + 1) + 1 = k - N := by omega
    rw [hlen]
  · have hout := reconcileUserLoop_running u d ud w I hadd hget hfound fuel 1 s0 hs0
    refine ⟨hout, ?_⟩
    simp only [reconcileUser, Act.runHalt, reconcileUserBody, bind_eq, pure_eq]
    rcases hms : reconcileUserLoop u d ud w fuel 1 s0 with ⟨o, s1, l1⟩
    rw [hms] at hout
    simp only at hout
    subst hout
    rw [bind_apply_next hms]
    rfl

/-! ## `addUser` on a client whose creates do not fail -/

theorem createOnly_pass {σ : Type} (c : Client σ) (o : Obj) (s : σ)
    (hc : (c.create o s).1 = none ∨ (c.create o s).1 = some Err.alreadyExists) :
    createOnly c o s = ⟨Flow.next (), (c.create o s).2, [Event.create o (c.create o s).1]⟩ := by
  simp only [createOnly, bind_eq, pure_eq]
  rw [bind_apply_next (create_apply c o s)]
  rcases hc with h | h <;> simp [h, Act.pure]

/-- On a client whose creates answer success or already-exists, `addUser` returns no error, and a
property of the store that the creates of the tenant and the get of the user keep holds after it. -/
theorem addUser_pass {σ : Type} (c : Client σ) (ud : UserDeps) (w : Workshop) (name : String) (id : Int)
    (P : σ → Prop)
    (hc : ∀ o s, (c.create o s).1 = none ∨ (c.create o s).1 = some Err.alreadyExists)
    (hP : ∀ o s, (o = ud.newUser w name ∨
        o = ud.newRoleBindingUsers w name "workshop-infra" ud.userRoleBindingName ud.kindClusterRole ∨
        (∃ found, o = ud.newIdentity w name found) ∨ o = ud.newUserIdentityMapping w name) →
      P s → P (c.create o s).2)
    (hg : ∀ s, P s → P (c.get Kind.user name "" s).2) (s : σ) (hs : P s) :
    ((addUser c ud w name id).run s).result = ({}, none) ∧ P ((addUser c ud w name id).run s).st := by
  have h1 := hP _ s (Or.inl rfl) hs
  have h2 := hP _ _ (Or.inr (Or.inl rfl)) h1
  have h3 := hg _ h2
  have h4 := hP _ _ (Or.inr (Or.inr (Or.inl ⟨userFoundOf
    (c.get Kind.user name "" (c.create (ud.newRoleBindingUsers w name "workshop-infra" ud.userRoleBindingName
      ud.kindClusterRole) (c.create (ud.newUser w name) s).2).2).1, rfl⟩))) h3
  have h5 := hP _ _ (Or.inr (Or.inr (Or.inr rfl))) h4
  simp only [Act.run, addUser, bind_eq, pure_eq]
  rw [bind_apply_next (createOnly_pass c _ s (hc _ _))]
  rw [bind_apply_next (createOnly_pass c _ _ (hc _ _))]
  rw [bind_apply_next (get_apply c Kind.user name "" _)]
  rw [bind_apply_next (createOnly_pass c _ _ (hc _ _))]
  rw [bind_apply_next (createOnly_pass c _ _ (hc _ _))]
  exact ⟨rfl, h5⟩

theorem memClient_create_pass (approve : Option Err) (ready : String → String → Bool)
    (hash : Nat → String → Except Err String) (o : Obj) (m : Mem) :
    ((memClient approve ready hash).create o m).1 = none ∨
      ((memClient approve ready hash).create o m).1 = some Err.alreadyExists := by
  rw [memClient_create]
  cases m.lookup (keyOf o) with
  | none => exact Or.inl rfl
  | some _ => exact Or.inr rfl

theorem memClient_create_absent (approve : Option Err) (ready : String → String → Bool)
    (hash : Nat → String → Except Err String) (o : Obj) (m : Mem) (k : Key) (hk : k ≠ keyOf o)
    (h : m.lookup k = none) : ((memClient approve ready hash).create o m).2.lookup k = none := by
  rw [memClient_create]
  cases m.lookup (keyOf o) with
  | none =>
    show ({ m with objs := m.objs ++ [o] } : Mem).lookup k = none
    rw [lookup_insert_other hk]
    exact h
  | some _ => exact h

theorem memClient_get_state (approve : Option Err) (ready : String → String → Bool)
    (hash : Nat → String → Except Err String) (k : Kind) (name ns : String) (m : Mem) :
    ((memClient approve ready hash).get k name ns m).2 = m := by
  rw [memClient_get]
  cases m.lookup ⟨k, ns, name⟩ <;> rfl

theorem sampleClient_create_pass (o : Obj) (m : Mem) :
    (sampleClient.create o m).1 = none ∨ (sampleClient.create o m).1 = some Err.alreadyExists :=
  memClient_create_pass none (fun _ _ => true) (fun n p => Except.ok ("hash" ++ toString n ++ p)) o m

theorem sampleClient_create_absent (o : Obj) (m : Mem) (k : Key) (hk : k ≠ keyOf o)
    (h : m.lookup k = none) : (sampleClient.create o m).2.lookup k = none :=
  memClient_create_absent none (fun _ _ => true) (fun n p => Except.ok ("hash" ++ toString n ++ p)) o m k hk h

theorem sampleClient_get_state (k : Kind) (name ns : String) (m : Mem) :
    (sampleClient.get k name ns m).2 = m :=
  memClient_get_state none (fun _ _ => true) (fun n p => Except.ok ("hash" ++ toString n ++ p)) k name ns m

theorem sampleClient_get_absent (k : Kind) (name ns : String) (m : Mem) (h : m.lookup ⟨k, ns, name⟩ = none) :
    (sampleClient.get k name ns m).1 = Except.error Err.notFound := by
  rw [sampleClient, memClient_get, h]

/-- Witness of C18. First part: two tenants on the empty in-memory store, where the user of index
3 is absent and stays so: the loop ends at an index `k` with `2 < k ≤ 3`. Second part: two tenants
on the client whose get of a user always fails with an error other than not-found: `reconcileUser`
does not return, whatever the number of iterations granted. -/
theorem C18_loop_ends_at_first_absent_witness :
    (emptyMem.lookup ⟨Kind.user, "", "user3"⟩ = none ∧
      ∃ k, 2 < k ∧ k ≤ 3 ∧ ∀ fuel, k ≤ fuel →
        (reconcileUserLoop sampleUserClient sampleDeps sampleUserDeps twoTenants fuel 1 emptyMem).out =
          Flow.next (Except.ok ())) ∧
    (∀ fuel, (reconcileUser userGetFailsClient sampleDeps sampleUserDeps twoTenants fuel emptyMem).result =
      Except.error Halt.running) := by
  refine ⟨⟨by decide, ?_⟩, ?_⟩
  · obtain ⟨k, h1, h2, _, _, _, h3⟩ :=
      (C18_loop_ends_at_first_absent sampleUserClient sampleDeps sampleUserDeps twoTenants 2
        (fun m => m.lookup ⟨Kind.user, "", "user3"⟩ = none) rfl
        (fun name s hs => by
          show (sampleClient.get Kind.user name "" s).2.lookup _ = none
          rw [sampleClient_get_state]
          exact hs)).1 3 emptyMem (by decide) (by decide) (by decide)
        (fun id s hs h1 h2 => by
          have hid : id = 1 ∨ id = 2 := by
            have h3 : id ≤ 2 := h2
            omega
          have key : ∀ name : String, name ≠ "user3" →
              ((addUser sampleUserClient.toClient sampleUserDeps twoTenants name id).run s).result = ({}, none) ∧
              ((addUser sampleUserClient.toClient sampleUserDeps twoTenants name id).run s).st.lookup
                ⟨Kind.user, "", "user3"⟩ = none := by
            intro name hname
            refine addUser_pass sampleUserClient.toClient sampleUserDeps twoTenants name id
              (fun m => m.lookup ⟨Kind.user, "", "user3"⟩ = none)
              (fun o m => sampleClient_create_pass o m) (fun o m ho hm => ?_)
              (fun m hm => by
                show (sampleClient.get Kind.user name "" m).2.lookup _ = none
                rw [sampleClient_get_state]
                exact hm) s hs
            refine sampleClient_create_absent o m _ ?_ hm
            rcases ho with rfl | rfl | ⟨found, rfl⟩ | rfl
            · simp only [sampleUserDeps, keyOf, ne_eq, Key.mk.injEq, true_and]
              exact fun h => hname h.symm
            · simp [sampleUserDeps, keyOf]
            · simp [sampleUserDeps, keyOf]
            · simp [sampleUserDeps, keyOf]
          rcases hid with rfl | rfl
          · obtain ⟨hr, hst⟩ := key "user1" (by decide)
            exact ⟨by rw [show tenantName twoTenants 1 = "user1" from by decide, hr]; rfl,
              by rw [show tenantName twoTenants 1 = "user1" from by decide]; exact hst⟩
          · obtain ⟨hr, hst⟩ := key "user2" (by decide)
            exact ⟨by rw [show tenantName twoTenants 2 = "user2" from by decide, hr]; rfl,
              by rw [show tenantName twoTenants 2 = "user2" from by decide]; exact hst⟩)
        (fun s hs => sampleClient_get_absent Kind.user "user3" "" s hs)
    exact ⟨k, h1, h2, fun fuel hf => (h3 fuel hf).1⟩
  · intro fuel
    exact ((C18_loop_ends_at_first_absent userGetFailsClient sampleDeps sampleUserDeps twoTenants 2
      (fun _ => True) rfl (fun _ _ _ => trivial)).2 emptyMem trivial
      (fun id s _ _ => by
        have h := (addUser_pass userGetFailsClient.toClient sampleUserDeps twoTenants
          (tenantName twoTenants id) id (fun _ => True)
          (fun o m => sampleClient_create_pass o m) (fun _ _ _ _ => trivial) (fun _ _ => trivial) s trivial).1
        exact ⟨by rw [h]; rfl, trivial⟩)
      (fun id s _ _ => by simp [userGetFailsClient, memUserClient]) fuel).2

end WorkshopOperator
